import Mathlib

/-!
ConvexHull2D: Graham's scan with an upper and a lower chain.

A shallow embedding of `GrahamScanThreaded/Types.cpp` and
`GrahamScanThreaded/Main.cpp`, followed by theorems about it.

Conventions of the embedding:

* a coordinate is a finite `float` (IEEE 754 binary32), given by the rational number
  it denotes; the arithmetic of `IsSidePositive` is the arithmetic of `float`: every
  subtraction and multiplication is rounded to the nearest `float`, ties to even, and
  may overflow to an infinity or give a NaN (`Float32`); comparisons are exact;
  points with an infinite or NaN coordinate are outside the model;
* a `std::vector<Point>` is a `List Point` in index order;
* a `std::stack<Point>` is a `List Point` whose head is the top of the stack;
* an operation that is undefined behaviour in C++ (an out-of-range `operator[]`,
  `top()` or `pop()` on an empty stack) makes the embedded function return `none`;
* the two worker threads of `GrahamScan` touch disjoint stacks and only read
  `pointSet`; they are run one after the other (upper, then lower).

The theorems about the geometry of the result first treat the scan with the exact
sign of the turn value (`popInner`, `upperChain`, `stitch`) and are then carried over
to `GrahamScan` for the inputs on which the `float` test returns that sign.
-/

namespace ConvexHull2D

/-! ## Types (module interface `Types`) -/

/-- Modelled from the spec: the declaration of `Point` lives in the module interface
of `Types`, which is not among the sources. The spec describes it as a pair of
floating-point coordinates `(X, Y)` with value equality (equal iff both coordinates
match). A coordinate is the rational number that a finite `float` denotes. -/
structure Point where
  X : ℚ
  Y : ℚ
deriving DecidableEq

/-- Modelled from the spec: `Edge` is declared in the same missing interface; the
spec describes it as an ordered pair of points (origin, destination), and
`Types.cpp` reads its fields `first` and `second`. -/
abbrev Edge := Point × Point

/-- A `std::stack<Point>`, top of the stack first. -/
abbrev Stack := List Point

/-! ## `Types.cpp` -/

/-- A value of the C++ type `float` (IEEE 754 binary32): a finite value, given by the
rational number it denotes (the two zeros are not distinguished), an infinity, or a
NaN. -/
inductive Float32 where
  | finite (q : ℚ)
  | infinity (negative : Bool)
  | nan
deriving DecidableEq

/-- The power `2 ^ e` for an integer exponent. -/
def pow2 (e : Int) : ℚ :=
  if 0 ≤ e then ((2 ^ e.toNat : Nat) : ℚ) else 1 / ((2 ^ (-e).toNat : Nat) : ℚ)

/-- The binary logarithm of `n`, rounded down, computed with at most `fuel` halvings. -/
def log2Fuel : Nat → Nat → Nat
  | 0, _ => 0
  | fuel + 1, n => if n < 2 then 0 else log2Fuel fuel (n / 2) + 1

/-- The binary logarithm of a positive natural number, rounded down. -/
def log2 (n : Nat) : Nat := log2Fuel n n

/-- The exponent `e` with `2 ^ e ≤ q < 2 ^ (e + 1)` of a positive rational. -/
def exponentOf (q : ℚ) : Int :=
  let k : Int := (log2 q.num.natAbs : Int) - (log2 q.den : Int)
  if pow2 k ≤ q then k else k - 1

/-- Rounding of a non-negative rational to the nearest integer, ties to even. -/
def roundHalfEven (r : ℚ) : Int :=
  let f := ⌊r⌋
  if r - f < 1 / 2 then f
  else if 1 / 2 < r - f then f + 1
  else if f % 2 = 0 then f else f + 1

/-- Rounding of a positive rational to 24 significant bits (to a multiple of
`2 ^ -149` below the normal range), to nearest, ties to even; the exponent is not
bounded above. -/
def roundMagnitude (q : ℚ) : ℚ :=
  let ulp := pow2 (max (exponentOf q) (-126) - 23)
  (roundHalfEven (q / ulp) : ℚ) * ulp

/-- The `float` nearest to the real number `q`: round to nearest, ties to even; a
result of magnitude `2 ^ 128` or more is an infinity. -/
def roundToFloat (q : ℚ) : Float32 :=
  if q = 0 then Float32.finite 0
  else
    let r := roundMagnitude |q|
    if pow2 128 ≤ r then Float32.infinity (decide (q < 0))
    else Float32.finite (if q < 0 then -r else r)

/-- The operator `-` on `float`. -/
def Float32.sub : Float32 → Float32 → Float32
  | .finite a, .finite b => roundToFloat (a - b)
  | .nan, _ => .nan
  | _, .nan => .nan
  | .infinity s, .finite _ => .infinity s
  | .finite _, .infinity s => .infinity (!s)
  | .infinity s, .infinity t => if s = t then .nan else .infinity s

/-- The operator `*` on `float`. -/
def Float32.mul : Float32 → Float32 → Float32
  | .finite a, .finite b => roundToFloat (a * b)
  | .nan, _ => .nan
  | _, .nan => .nan
  | .infinity s, .finite b => if b = 0 then .nan else .infinity (xor s (decide (b < 0)))
  | .finite a, .infinity s => if a = 0 then .nan else .infinity (xor (decide (a < 0)) s)
  | .infinity s, .infinity t => .infinity (xor s t)

/-- The comparison `x > 0` on `float`. -/
def Float32.gtZero : Float32 → Bool
  | .finite q => decide (q > 0)
  | .infinity s => !s
  | .nan => false

/-- The function `IsSidePositive(Edge, Point)`: sign test on the Z component of
the cross product of the edge vector and the vector from the edge's end to the
test point, computed in `float`: the four differences are stored in `float` arrays,
and the two products and their difference are `float` operations, each rounded to
`float` on its own (no wider intermediate format, no fused multiply-add). -/
def IsSidePositive (a_edge : Edge) (a_testPoint : Point) : Bool :=
  let vecEdge0 := Float32.sub (Float32.finite a_edge.2.X) (Float32.finite a_edge.1.X)
  let vecEdge1 := Float32.sub (Float32.finite a_edge.2.Y) (Float32.finite a_edge.1.Y)
  let vecToPoint0 := Float32.sub (Float32.finite a_testPoint.X) (Float32.finite a_edge.2.X)
  let vecToPoint1 := Float32.sub (Float32.finite a_testPoint.Y) (Float32.finite a_edge.2.Y)
  Float32.gtZero
    (Float32.sub (Float32.mul vecEdge0 vecToPoint1) (Float32.mul vecEdge1 vecToPoint0))

/-- The member `std::stack::top`: undefined on an empty stack. -/
def stackTop : Stack → Option Point
  | [] => none
  | t :: _ => some t

/-- The member `std::stack::pop`: undefined on an empty stack. -/
def stackPop : Stack → Option Stack
  | [] => none
  | _ :: s => some s

/-- The function `IsSidePositive(std::stack<Point>, Point)`. The stack is passed
by value, so the pops are done on a copy. -/
def IsSidePositiveStack (a_stack : Stack) (a_testPoint : Point) : Option Bool :=
  if a_stack.length < 2 then some false
  else do
    let top ← stackTop a_stack
    let a_stack1 ← stackPop a_stack
    let prevTop ← stackTop a_stack1
    pure (IsSidePositive (prevTop, top) a_testPoint)

/-! ## `Main.cpp`: `GrahamScan` -/

/-- The duplicate-removal loop of `GrahamScan`: a point is appended to `pointSet`
unless `std::find` already finds it there. -/
def removeDuplicates (a_inputPoints : List Point) : List Point :=
  a_inputPoints.foldl
    (fun pointSet point => if point ∈ pointSet then pointSet else pointSet ++ [point]) []

/-- The comparator handed to `std::sort`:
`a.X == b.X ? a.Y < b.Y : a.X < b.X`. -/
def sortLess (a b : Point) : Bool :=
  if a.X = b.X then decide (a.Y < b.Y) else decide (a.X < b.X)

/-- Insertion of one point into a list sorted by `sortLess`. -/
def sortInsert (p : Point) : List Point → List Point
  | [] => [p]
  | q :: qs => if sortLess q p then q :: sortInsert p qs else p :: q :: qs

/-- The call `std::sort(pointSet.begin(), pointSet.end(), cmp)`, as an insertion
sort. (`std::sort` does not fix an algorithm; `sortPoints_unique` below shows that
on the duplicate-free `pointSet` every correct sort returns this list.) -/
def sortPoints (pointSet : List Point) : List Point :=
  pointSet.foldr sortInsert []

/-- The read `pointSet[i]` with a C++ index expression `i`; an index that is
negative (a wrapped `size_t`) or not below the size is out of range. -/
def vecAt (pointSet : List Point) (i : Int) : Option Point :=
  if i < 0 then none else pointSet[i.toNat]?

/-- The lambda `RemoveInnerPoints`: pop while the stack has at least two points
and the top two make a strict left turn with `target`, then push `target`. -/
def RemoveInnerPoints : Stack → Point → Option Stack
  | [], target => some [target]
  | top :: below, target =>
    if 2 ≤ (top :: below).length then
      match IsSidePositiveStack (top :: below) target with
      | none => none
      | some true => RemoveInnerPoints below target
      | some false => some (target :: top :: below)
    else some (target :: top :: below)

/-- Body of a worker thread: `RemoveInnerPoints(fractionHull, pointSet[i])` for the
indices `i` of `indices`, in that order. -/
def runChain (pointSet : List Point) (indices : List Nat) (fractionHull : Stack) :
    Option Stack :=
  indices.foldlM
    (fun hull i => do
      let target ← vecAt pointSet (i : Int)
      RemoveInnerPoints hull target)
    fractionHull

/-- Indices visited by the upper thread: `for (int i = 2; i < size; i++)`. -/
def upperIndices (size : Nat) : List Nat := List.range' 2 (size - 2)

/-- Indices visited by the lower thread: `for (int i = size - 3; i >= 0; i--)`. -/
def lowerIndices (size : Nat) : List Nat := (List.range (size - 2)).reverse

/-- First stitch loop: `while (upperHull.size() > 1)` move the top to `hullPoints`. -/
def drainUpper : Stack → List Point → List Point
  | top :: below, hullPoints =>
    if (top :: below).length > 1 then drainUpper below (hullPoints ++ [top])
    else hullPoints
  | [], hullPoints => hullPoints

/-- Second stitch loop: `while (lowerHull.size() > 0)` move the top to `hullPoints`. -/
def drainLower : Stack → List Point → List Point
  | top :: below, hullPoints => drainLower below (hullPoints ++ [top])
  | [], hullPoints => hullPoints

/-- The sorted, duplicate-free `pointSet` that `GrahamScan` works on. -/
def preprocess (a_inputPoints : List Point) : List Point :=
  sortPoints (removeDuplicates a_inputPoints)

/-- The function `GrahamScan`. -/
def GrahamScan (a_inputPoints : List Point) : Option (List Point) := do
  let pointSet := preprocess a_inputPoints
  let size : Int := pointSet.length
  let left ← vecAt pointSet 0
  let _right ← vecAt pointSet (size - 1)
  let p1 ← vecAt pointSet 1
  let upperHull0 : Stack := [p1, left]
  let q0 ← vecAt pointSet (size - 1)
  let q1 ← vecAt pointSet (size - 2)
  let lowerHull0 : Stack := [q1, q0]
  let upperHull ← runChain pointSet (upperIndices pointSet.length) upperHull0
  let lowerHull ← runChain pointSet (lowerIndices pointSet.length) lowerHull0
  pure (drainLower lowerHull (drainUpper upperHull []))

/-! ## `Main.cpp`: `main` -/

/-- What a run of `main` does after the points were loaded. -/
inductive Outcome where
  /-- the size check failed: diagnostic, `return 0`, `GrahamScan` not called -/
  | earlyExit
  /-- `GrahamScan` returned this hull, which was printed; `return 0` -/
  | printed (hull : List Point)
  /-- `GrahamScan` was called and ran into undefined behaviour -/
  | undefinedBehaviour
deriving DecidableEq

/-- The function `main`, from the loaded point list on. -/
def mainFrom (points : List Point) : Outcome :=
  if points.length < 3 then Outcome.earlyExit
  else
    match GrahamScan points with
    | some hull => Outcome.printed hull
    | none => Outcome.undefinedBehaviour

/-- The function `ReadPointsFromFile` of `FileIO.cpp`, with the file system and the
parsing of numbers left out: `none` stands for a file that cannot be opened (the
diagnostic is printed and the empty vector returned), `some pts` for a file whose
count line and point lines parse to `pts`. -/
def ReadPointsFromFile (file : Option (List Point)) : List Point :=
  match file with
  | none => []
  | some pts => pts

/-- The observable effects of a run of `main`. -/
structure MainRun where
  /-- the vector `GrahamScan` was invoked on, if it was invoked -/
  scanned : Option (List Point)
  /-- the hull handed to `PrintPoints`, if any -/
  written : Option (List Point)
  /-- the value returned by `main`; `none` after undefined behaviour -/
  exitCode : Option Int
deriving DecidableEq

/-- The function `main`, from the content of the input file on. -/
def mainRun (file : Option (List Point)) : MainRun :=
  let points := ReadPointsFromFile file
  if points.length < 3 then
    { scanned := none, written := none, exitCode := some 0 }
  else
    match GrahamScan points with
    | some hull => { scanned := some points, written := some hull, exitCode := some 0 }
    | none => { scanned := some points, written := none, exitCode := none }

/-! ## `Main.cpp`: the two stacks of `GrahamScan` -/

/-- The stack `upperHull` of `GrahamScan` after the two initial pushes and the first
`k` iterations of the upper thread's loop. -/
def upperHullAfter (k : Nat) (pointSet : List Point) : Option Stack := do
  let left ← vecAt pointSet 0
  let p1 ← vecAt pointSet 1
  runChain pointSet ((upperIndices pointSet.length).take k) [p1, left]

/-- The stack `lowerHull` of `GrahamScan` after the two initial pushes and the first
`k` iterations of the lower thread's loop. -/
def lowerHullAfter (k : Nat) (pointSet : List Point) : Option Stack := do
  let size : Int := pointSet.length
  let q0 ← vecAt pointSet (size - 1)
  let q1 ← vecAt pointSet (size - 2)
  runChain pointSet ((lowerIndices pointSet.length).take k) [q1, q0]

/-- The stack `upperHull` of `GrahamScan` when the upper thread has been joined. -/
def upperHull (pointSet : List Point) : Option Stack := do
  let left ← vecAt pointSet 0
  let p1 ← vecAt pointSet 1
  runChain pointSet (upperIndices pointSet.length) [p1, left]

/-- The stack `lowerHull` of `GrahamScan` when the lower thread has been joined. -/
def lowerHull (pointSet : List Point) : Option Stack := do
  let size : Int := pointSet.length
  let q0 ← vecAt pointSet (size - 1)
  let q1 ← vecAt pointSet (size - 2)
  runChain pointSet (lowerIndices pointSet.length) [q1, q0]

/-! ## Specification-level notions used in the statements -/

/-- The turn value of `A → B → Q`: the Z component of `(B - A) × (Q - B)`.
Positive: `Q` strictly left of the directed edge `A → B` (counter-clockwise turn);
negative: strictly right (clockwise turn); zero: collinear. -/
def cross (A B Q : Point) : ℚ :=
  (B.X - A.X) * (Q.Y - B.Y) - (B.Y - A.Y) * (Q.X - B.X)

/-- The canonical order as a relation: `X` increasing, ties broken by `Y`. -/
def lexLt (a b : Point) : Prop :=
  a.X < b.X ∨ (a.X = b.X ∧ a.Y < b.Y)

instance lexLt_decidable : DecidableRel lexLt := fun a b =>
  inferInstanceAs (Decidable (a.X < b.X ∨ (a.X = b.X ∧ a.Y < b.Y)))

/-- The stack left by the `while` loop of `RemoveInnerPoints` when the orientation test
is replaced by the exact sign of the turn value. -/
def popInner : Stack → Point → Stack
  | top :: prevTop :: rest, target =>
    if 0 < cross prevTop top target then popInner (prevTop :: rest) target
    else top :: prevTop :: rest
  | s, _ => s

/-- One chain with the exact test: every point of `pts` is offered to the stack. -/
def scan (s : Stack) (pts : List Point) : Stack :=
  pts.foldl (fun hull target => target :: popInner hull target) s

/-- The upper chain (a stack, top first) of a sorted vector, with the exact test. -/
def upperChain (pointSet : List Point) : Stack :=
  match pointSet with
  | [] => []
  | left :: rest => scan [left] rest

/-- The lower chain (a stack, top first) of a sorted vector, with the exact test. -/
def lowerChain (pointSet : List Point) : Stack :=
  upperChain pointSet.reverse

/-- The stitched hull of a sorted vector, with the exact test. -/
def stitch (pointSet : List Point) : List Point :=
  (upperChain pointSet).dropLast ++ lowerChain pointSet

/-- The orientation test of the code as a function of three points: the edge from `p`
to `t` and the test point `q`. -/
def floatTest (p t q : Point) : Bool := IsSidePositive (p, t) q

/-- The exact orientation test: the turn value of `p → t → q` is positive. -/
def exactTest (p t q : Point) : Bool := decide (0 < cross p t q)

/-- The stack left by the `while` loop of `RemoveInnerPoints`, for an arbitrary
orientation test. -/
def popInnerBy (test : Point → Point → Point → Bool) : Stack → Point → Stack
  | top :: prevTop :: rest, target =>
    if test prevTop top target then popInnerBy test (prevTop :: rest) target
    else top :: prevTop :: rest
  | s, _ => s

/-- One chain, for an arbitrary orientation test: every point of `pts` is offered to
the stack. -/
def scanBy (test : Point → Point → Point → Bool) (s : Stack) (pts : List Point) : Stack :=
  pts.foldl (fun hull target => target :: popInnerBy test hull target) s

/-- The chain (a stack, top first) over a vector, for an arbitrary orientation test:
the first point is pushed and the others are offered in order. -/
def chainBy (test : Point → Point → Point → Bool) (pointSet : List Point) : Stack :=
  match pointSet with
  | [] => []
  | left :: rest => scanBy test [left] rest

/-- The stitched hull of a sorted vector, for an arbitrary orientation test: the upper
chain without its bottom, then the lower chain. -/
def stitchBy (test : Point → Point → Point → Bool) (pointSet : List Point) : List Point :=
  (chainBy test pointSet).dropLast ++ chainBy test pointSet.reverse

/-- No three consecutive points of the stack (bottom to top `x, y, z`) pass the
orientation test. -/
def ConvexBy (test : Point → Point → Point → Bool) : Stack → Prop
  | z :: y :: x :: rest => test x y z = false ∧ ConvexBy test (y :: x :: rest)
  | _ => True

/-- What a chain over the points `P` (in traversal order, `r` the order relation) is
known to satisfy for an arbitrary orientation test: it is a subsequence from the first
to the last point, and every point that is not on it was popped by the test. -/
structure ChainShape (test : Point → Point → Point → Bool) (r : Point → Point → Prop)
    (P : List Point) (c : Stack) : Prop where
  sub : c.reverse.Sublist P
  bot : c.getLast? = P.head?
  top : c.head? = P.getLast?
  wit : ∀ p ∈ P, p ∉ c → ∃ a ∈ P, ∃ b ∈ P, r a p ∧ r p b ∧ test a p b = true

/-- Negation of a `float`. -/
def Float32.neg : Float32 → Float32
  | .finite q => .finite (-q)
  | .infinity s => .infinity (!s)
  | .nan => .nan

/-- The rational `q` is the value of a finite `float`. -/
def IsFloat32 (q : ℚ) : Prop := roundToFloat q = Float32.finite q

instance IsFloat32_decidable (q : ℚ) : Decidable (IsFloat32 q) :=
  inferInstanceAs (Decidable (roundToFloat q = Float32.finite q))

/-- Both coordinates of the point are values of finite `float`s: the point can be
read from a file. -/
def FloatPoint (p : Point) : Prop := IsFloat32 p.X ∧ IsFloat32 p.Y

instance FloatPoint_decidable (p : Point) : Decidable (FloatPoint p) :=
  inferInstanceAs (Decidable (IsFloat32 p.X ∧ IsFloat32 p.Y))

/-- The rational `q` is an integer of absolute value at most 1024. -/
def SmallInt (q : ℚ) : Prop := ∃ z : Int, q = z ∧ |z| ≤ 1024

/-- Both coordinates of the point are integers of absolute value at most 1024. -/
def SmallPoint (p : Point) : Prop := SmallInt p.X ∧ SmallInt p.Y

/-- Every intermediate value of the orientation test on `P0, P1, Q` (the four
coordinate differences, the two products and their difference) is the value of a
finite `float`, so no operation of the test rounds. -/
def ExactAt (P0 P1 Q : Point) : Prop :=
  IsFloat32 (P1.X - P0.X) ∧ IsFloat32 (P1.Y - P0.Y) ∧
  IsFloat32 (Q.X - P1.X) ∧ IsFloat32 (Q.Y - P1.Y) ∧
  IsFloat32 ((P1.X - P0.X) * (Q.Y - P1.Y)) ∧ IsFloat32 ((P1.Y - P0.Y) * (Q.X - P1.X)) ∧
  IsFloat32 (cross P0 P1 Q)

instance ExactAt_decidable (P0 P1 Q : Point) : Decidable (ExactAt P0 P1 Q) :=
  inferInstanceAs (Decidable
    (IsFloat32 (P1.X - P0.X) ∧ IsFloat32 (P1.Y - P0.Y) ∧
      IsFloat32 (Q.X - P1.X) ∧ IsFloat32 (Q.Y - P1.Y) ∧
      IsFloat32 ((P1.X - P0.X) * (Q.Y - P1.Y)) ∧ IsFloat32 ((P1.Y - P0.Y) * (Q.X - P1.X)) ∧
      IsFloat32 (cross P0 P1 Q)))

/-- On every triple of points of `A` the orientation test of the code returns the
exact sign of the turn value: `IsSidePositive(Edge(a, b), q)` is true exactly when the
turn value of `a → b → q` is positive. -/
def ExactOn (A : List Point) : Prop :=
  ∀ a ∈ A, ∀ b ∈ A, ∀ q ∈ A, IsSidePositive (a, b) q = decide (0 < cross a b q)

instance ExactOn_decidable (A : List Point) : Decidable (ExactOn A) :=
  inferInstanceAs (Decidable
    (∀ a ∈ A, ∀ b ∈ A, ∀ q ∈ A, IsSidePositive (a, b) q = decide (0 < cross a b q)))

/-- A vector `(x, y)` that points forward in the canonical order. -/
def lexPos (x y : ℚ) : Prop :=
  0 < x ∨ (x = 0 ∧ 0 < y)

/-- A vector `(x, y)` that points backward in the canonical order. -/
def lexNeg (x y : ℚ) : Prop :=
  lexPos (-x) (-y)

/-- The properties of a set `pos` of "forward" vectors that the chain argument uses:
the forward vectors form an open half-plane together with one of its two boundary
rays. Both traversal directions of `GrahamScan` are instances. -/
structure Direction (pos : ℚ → ℚ → Prop) : Prop where
  add : ∀ x y x' y', pos x y → pos x' y' → pos (x + x') (y + y')
  tri : ∀ x y, pos x y ∨ (x = 0 ∧ y = 0) ∨ pos (-x) (-y)
  asymm : ∀ x y, pos x y → ¬ pos (-x) (-y)
  turn : ∀ ux uy vx vy wx wy, pos ux uy → pos vx vy → pos wx wy →
    0 ≤ vx * uy - vy * ux → 0 ≤ ux * wy - uy * wx → 0 ≤ vx * wy - vy * wx

/-- The point `a` comes before `b` in the traversal whose forward vectors are `pos`. -/
def before (pos : ℚ → ℚ → Prop) (a b : Point) : Prop :=
  pos (b.X - a.X) (b.Y - a.Y)

/-- No three consecutive points of the stack (bottom to top `x, y, z`) make a
strict left turn. -/
def Convex : Stack → Prop
  | z :: y :: x :: rest => cross x y z ≤ 0 ∧ Convex (y :: x :: rest)
  | _ => True

/-- The point `Q` is on or to the right of every edge of the stack (edges directed
from the lower element `x` to the element `y` above it). -/
def Dominates (c : Stack) (Q : Point) : Prop :=
  List.Chain' (fun y x => cross x y Q ≤ 0) c

/-- The state of one chain after the points `P` (in traversal order) were offered:
what the stack `c` is known to satisfy. -/
structure ChainInv (pos : ℚ → ℚ → Prop) (P : List Point) (c : Stack) : Prop where
  sub : c.reverse.Sublist P
  bot : c.getLast? = P.head?
  top : c.head? = P.getLast?
  conv : Convex c
  dom : ∀ Q ∈ P, Dominates c Q
  wit : ∀ p ∈ P, p ∉ c →
    ∃ a ∈ P, ∃ b ∈ P, before pos a p ∧ before pos p b ∧ 0 < cross a p b

/-- The point `p` is not strictly below (on the right-hand side of the traversal) a
segment between two points of `S` that lie before and after it. -/
def Kept (pos : ℚ → ℚ → Prop) (S : List Point) (p : Point) : Prop :=
  ∀ a ∈ S, ∀ b ∈ S, before pos a p → before pos p b → cross a p b ≤ 0

/-- No three consecutive points `A, B, C` of the stack (bottom to top; the stack is
listed top first, so `C` comes first) pass the orientation test
`IsSidePositive(Edge(A, B), C)`. -/
def NoLeftTurn (c : Stack) : Prop :=
  ∀ (i : Nat) (hi : i + 2 < c.length),
    IsSidePositive (c.get ⟨i + 2, hi⟩, c.get ⟨i + 1, by omega⟩) (c.get ⟨i, by omega⟩) = false

/-! ## Basic facts about the embedded functions -/

theorem sortLess_iff (a b : Point) : sortLess a b = true ↔ lexLt a b := by
  unfold sortLess lexLt
  by_cases h : a.X = b.X
  · simp [h]
  · simp only [h, if_false, decide_eq_true_eq, false_and, or_false]

theorem IsSidePositiveStack_cons_cons (top prevTop : Point) (rest : Stack) (Q : Point) :
    IsSidePositiveStack (top :: prevTop :: rest) Q
      = some (IsSidePositive (prevTop, top) Q) := by
  simp [IsSidePositiveStack, stackTop, stackPop]

theorem popInnerBy_exactTest (s : Stack) (target : Point) :
    popInnerBy exactTest s target = popInner s target := by
  induction s with
  | nil => rfl
  | cons top below ih =>
    cases below with
    | nil => rfl
    | cons prevTop rest =>
      unfold popInnerBy popInner
      simp only [exactTest, decide_eq_true_eq]
      split_ifs
      · exact ih
      · rfl

theorem RemoveInnerPoints_eq (s : Stack) (target : Point) :
    RemoveInnerPoints s target = some (target :: popInnerBy floatTest s target) := by
  induction s with
  | nil => simp [RemoveInnerPoints, popInnerBy]
  | cons top below ih =>
    cases below with
    | nil => simp [RemoveInnerPoints, popInnerBy]
    | cons prevTop rest =>
      rw [RemoveInnerPoints, IsSidePositiveStack_cons_cons]
      cases h : IsSidePositive (prevTop, top) target with
      | true => simp [ih, popInnerBy, floatTest, h]
      | false => simp [popInnerBy, floatTest, h]

theorem vecAt_natCast (ps : List Point) (i : Nat) : vecAt ps (i : Int) = ps[i]? := by
  simp [vecAt]

theorem scan_cons (s : Stack) (t : Point) (pts : List Point) :
    scan s (t :: pts) = scan (t :: popInner s t) pts := rfl

theorem scanBy_cons (test : Point → Point → Point → Bool) (s : Stack) (t : Point)
    (pts : List Point) :
    scanBy test s (t :: pts) = scanBy test (t :: popInnerBy test s t) pts := rfl

theorem scanBy_exactTest (s : Stack) (pts : List Point) :
    scanBy exactTest s pts = scan s pts := by
  induction pts generalizing s with
  | nil => rfl
  | cons t pts ih => rw [scanBy_cons, scan_cons, popInnerBy_exactTest, ih]

theorem chainBy_exactTest (S : List Point) : chainBy exactTest S = upperChain S := by
  cases S with
  | nil => rfl
  | cons a rest => exact scanBy_exactTest [a] rest

theorem stitchBy_exactTest (S : List Point) : stitchBy exactTest S = stitch S := by
  rw [stitchBy, stitch, lowerChain, chainBy_exactTest, chainBy_exactTest]

theorem scan_append (s : Stack) (l1 l2 : List Point) :
    scan s (l1 ++ l2) = scan (scan s l1) l2 := by
  simp [scan, List.foldl_append]

theorem runChain_range' (ps : List Point) (m k : Nat) (s : Stack)
    (h : k + m ≤ ps.length) :
    runChain ps (List.range' k m) s = some (scanBy floatTest s ((ps.drop k).take m)) := by
  induction m generalizing k s with
  | zero => simp [runChain, scanBy]
  | succ m ih =>
    have hk : k < ps.length := by omega
    have hstep : runChain ps (List.range' k (m + 1)) s
        = runChain ps (List.range' (k + 1) m) (ps[k] :: popInnerBy floatTest s ps[k]) := by
      simp [runChain, List.range', List.foldlM_cons, vecAt_natCast,
        List.getElem?_eq_getElem hk, RemoveInnerPoints_eq]
    rw [hstep, ih (k + 1) _ (by omega), List.drop_eq_getElem_cons hk, List.take_succ_cons,
      scanBy_cons]

theorem runChain_range_reverse (ps : List Point) (m : Nat) (s : Stack)
    (h : m ≤ ps.length) :
    runChain ps (List.range m).reverse s = some (scanBy floatTest s (ps.take m).reverse) := by
  induction m generalizing s with
  | zero => simp [runChain, scanBy]
  | succ m ih =>
    have hm : m < ps.length := by omega
    have hstep : runChain ps (List.range (m + 1)).reverse s
        = runChain ps (List.range m).reverse (ps[m] :: popInnerBy floatTest s ps[m]) := by
      simp [runChain, List.range_succ, List.foldlM_cons, vecAt_natCast,
        List.getElem?_eq_getElem hm, RemoveInnerPoints_eq]
    rw [hstep, ih _ (by omega), ← List.take_concat_get' ps m hm, List.reverse_append,
      List.reverse_singleton, List.singleton_append, scanBy_cons]

theorem drainUpper_eq (s : Stack) (acc : List Point) :
    drainUpper s acc = acc ++ s.dropLast := by
  induction s generalizing acc with
  | nil => simp [drainUpper]
  | cons top below ih =>
    cases below with
    | nil => simp [drainUpper]
    | cons p rest =>
      rw [drainUpper, if_pos (by simp), ih]
      simp

theorem drainLower_eq (s : Stack) (acc : List Point) :
    drainLower s acc = acc ++ s := by
  induction s generalizing acc with
  | nil => simp [drainLower]
  | cons top below ih => rw [drainLower, ih]; simp

/-- With at least two points in `pointSet`, `GrahamScan` returns the stitched hull
of `pointSet`. -/
theorem GrahamScan_eq_stitch (input : List Point) (h : 2 ≤ (preprocess input).length) :
    GrahamScan input = some (stitchBy floatTest (preprocess input)) := by
  unfold GrahamScan
  generalize preprocess input = ps at h ⊢
  obtain ⟨left, ps1, rfl⟩ : ∃ a l, ps = a :: l := by
    cases ps with
    | nil => simp at h
    | cons a l => exact ⟨a, l, rfl⟩
  obtain ⟨p1, rest, rfl⟩ : ∃ a l, ps1 = a :: l := by
    cases ps1 with
    | nil => simp at h
    | cons a l => exact ⟨a, l, rfl⟩
  set ps := left :: p1 :: rest with hps
  have hlen : ps.length = rest.length + 2 := by simp [hps]
  have e1 : vecAt ps 0 = some left := by simp [vecAt, hps]
  have e2 : vecAt ps 1 = some p1 := by simp [vecAt, hps]
  have hn1 : ((ps.length : Int) - 1) = ((rest.length + 1 : Nat) : Int) := by
    rw [hlen]; push_cast; ring
  have hn2 : ((ps.length : Int) - 2) = ((rest.length : Nat) : Int) := by
    rw [hlen]; push_cast; ring
  have hi1 : rest.length + 1 < ps.length := by omega
  have hi2 : rest.length < ps.length := by omega
  have e3 : vecAt ps ((ps.length : Int) - 1) = some ps[rest.length + 1] := by
    rw [hn1, vecAt_natCast, List.getElem?_eq_getElem hi1]
  have e4 : vecAt ps ((ps.length : Int) - 2) = some ps[rest.length] := by
    rw [hn2, vecAt_natCast, List.getElem?_eq_getElem hi2]
  have eu : runChain ps (upperIndices ps.length) [p1, left] = some (chainBy floatTest ps) := by
    rw [upperIndices, runChain_range' ps _ 2 _ (by omega)]
    have : ps.length - 2 = (ps.drop 2).length := by simp
    rw [this, List.take_length]
    simp [chainBy, hps, scanBy_cons, popInnerBy]
  have el : runChain ps (lowerIndices ps.length) [ps[rest.length], ps[rest.length + 1]]
      = some (chainBy floatTest ps.reverse) := by
    rw [lowerIndices, runChain_range_reverse ps _ _ (by omega)]
    have hl : ps.length - 2 = rest.length := by omega
    have hsplit : ps = ps.take rest.length ++ [ps[rest.length], ps[rest.length + 1]] := by
      have h1 := List.take_concat_get' ps rest.length hi2
      have h2 := List.take_concat_get' ps (rest.length + 1) hi1
      have h3 : ps.take (rest.length + 1 + 1) = ps := by
        apply List.take_of_length_le; omega
      rw [h3, ← h1] at h2
      rw [List.append_assoc] at h2
      exact h2.symm
    have hrev : ps.reverse
        = ps[rest.length + 1] :: ps[rest.length] :: (ps.take rest.length).reverse := by
      conv_lhs => rw [hsplit]
      simp
    rw [hl, hrev, chainBy, scanBy_cons]
    simp [popInnerBy]
  simp only [e1, e2, e3, e4, eu, el, Option.bind_eq_bind, Option.some_bind, Option.pure_def,
    drainUpper_eq, drainLower_eq, stitchBy, List.nil_append, bind_pure_comp, Option.map_some',
    pure_bind]

/-- With fewer than two points in `pointSet`, `GrahamScan` reads `pointSet`
out of range. -/
theorem GrahamScan_eq_none (input : List Point) (h : (preprocess input).length < 2) :
    GrahamScan input = none := by
  unfold GrahamScan
  generalize preprocess input = ps at h ⊢
  cases ps with
  | nil => simp [vecAt]
  | cons a l =>
    cases l with
    | nil => simp [vecAt]
    | cons b l => simp only [List.length_cons] at h; omega

/-! ## Preprocessing: duplicate removal and sort -/

theorem removeDuplicates_concat (l : List Point) (x : Point) :
    removeDuplicates (l ++ [x])
      = if x ∈ removeDuplicates l then removeDuplicates l else removeDuplicates l ++ [x] := by
  simp [removeDuplicates, List.foldl_append]

theorem mem_removeDuplicates (l : List Point) (p : Point) :
    p ∈ removeDuplicates l ↔ p ∈ l := by
  induction l using List.reverseRecOn generalizing p with
  | nil => simp [removeDuplicates]
  | append_singleton l x ih =>
    rw [removeDuplicates_concat]
    by_cases hx : x ∈ removeDuplicates l
    · rw [if_pos hx, ih, List.mem_append, List.mem_singleton]
      constructor
      · exact Or.inl
      · rintro (h | h)
        · exact h
        · rw [h]; exact (ih x).1 hx
    · rw [if_neg hx, List.mem_append, List.mem_append, ih]

theorem nodup_removeDuplicates (l : List Point) : (removeDuplicates l).Nodup := by
  induction l using List.reverseRecOn with
  | nil => simp [removeDuplicates]
  | append_singleton l x ih =>
    rw [removeDuplicates_concat]
    by_cases hx : x ∈ removeDuplicates l
    · rw [if_pos hx]; exact ih
    · rw [if_neg hx]
      exact List.Nodup.append ih (List.nodup_singleton x) (by simpa using hx)

theorem removeDuplicates_foldl (acc l : List Point) :
    l.foldl (fun pointSet point => if point ∈ pointSet then pointSet else pointSet ++ [point])
        acc
      = acc ++ (removeDuplicates l).filter (fun p => decide (p ∉ acc)) := by
  induction l using List.reverseRecOn with
  | nil => simp [removeDuplicates]
  | append_singleton l x ih =>
    rw [List.foldl_append, List.foldl_cons, List.foldl_nil, ih, removeDuplicates_concat]
    by_cases hx : x ∈ removeDuplicates l
    · have : x ∈ acc ++ (removeDuplicates l).filter (fun p => decide (p ∉ acc)) := by
        by_cases ha : x ∈ acc
        · exact List.mem_append_left _ ha
        · exact List.mem_append_right _ (List.mem_filter.2 ⟨hx, by simpa using ha⟩)
      rw [if_pos this, if_pos hx]
    · rw [if_neg hx]
      by_cases ha : x ∈ acc
      · rw [if_pos (List.mem_append_left _ ha), List.filter_append]
        simp [ha]
      · have : x ∉ acc ++ (removeDuplicates l).filter (fun p => decide (p ∉ acc)) := by
          intro h
          rcases List.mem_append.1 h with h | h
          · exact ha h
          · exact hx (List.mem_filter.1 h).1
        rw [if_neg this, List.filter_append]
        simp [ha]

/-- Duplicate removal keeps the head and removes its copies from the rest. -/
theorem removeDuplicates_cons (x : Point) (l : List Point) :
    removeDuplicates (x :: l) = x :: (removeDuplicates l).filter (fun p => decide (p ≠ x)) := by
  have h := removeDuplicates_foldl [x] l
  simp only [removeDuplicates, List.foldl_cons, List.not_mem_nil, if_false, List.nil_append]
  rw [h]
  simp [removeDuplicates]

theorem removeDuplicates_sublist (l : List Point) : (removeDuplicates l).Sublist l := by
  induction l with
  | nil => simp [removeDuplicates]
  | cons x l ih =>
    rw [removeDuplicates_cons]
    exact ((List.filter_sublist _).trans ih).cons₂ x

theorem indexOf_filter_ne (x a b : Point) (m : List Point) (ha : a ≠ x) (hb : b ≠ x)
    (ham : a ∈ m) (hbm : b ∈ m) :
    (List.indexOf a (m.filter (fun p => decide (p ≠ x)))
        < List.indexOf b (m.filter (fun p => decide (p ≠ x)))
      ↔ List.indexOf a m < List.indexOf b m) := by
  induction m with
  | nil => simp at ham
  | cons y m ih =>
    by_cases hy : y = x
    · subst hy
      have ham' : a ∈ m := by
        rcases List.mem_cons.1 ham with h | h
        · exact absurd h ha
        · exact h
      have hbm' : b ∈ m := by
        rcases List.mem_cons.1 hbm with h | h
        · exact absurd h hb
        · exact h
      rw [List.filter_cons_of_neg (by simp), List.indexOf_cons_ne _ (Ne.symm ha),
        List.indexOf_cons_ne _ (Ne.symm hb), ih ham' hbm']
      omega
    · rw [List.filter_cons_of_pos (by simpa using hy)]
      by_cases hya : y = a
      · subst hya
        by_cases hyb : y = b
        · subst hyb; simp
        · rw [List.indexOf_cons_self, List.indexOf_cons_self,
            List.indexOf_cons_ne _ hyb, List.indexOf_cons_ne _ hyb]
          omega
      · by_cases hyb : y = b
        · subst hyb
          rw [List.indexOf_cons_self, List.indexOf_cons_self]
          omega
        · have ham' : a ∈ m := by
            rcases List.mem_cons.1 ham with h | h
            · exact absurd h.symm hya
            · exact h
          have hbm' : b ∈ m := by
            rcases List.mem_cons.1 hbm with h | h
            · exact absurd h.symm hyb
            · exact h
          rw [List.indexOf_cons_ne _ hya, List.indexOf_cons_ne _ hyb,
            List.indexOf_cons_ne _ hya, List.indexOf_cons_ne _ hyb]
          have := ih ham' hbm'
          omega

/-- Duplicate removal lists the points in the order of their first occurrence. -/
theorem removeDuplicates_order (l : List Point) (a b : Point) (ha : a ∈ l) (hb : b ∈ l) :
    (List.indexOf a (removeDuplicates l) < List.indexOf b (removeDuplicates l)
      ↔ List.indexOf a l < List.indexOf b l) := by
  induction l with
  | nil => simp at ha
  | cons x l ih =>
    rw [removeDuplicates_cons]
    by_cases hxa : x = a
    · subst hxa
      by_cases hxb : x = b
      · subst hxb; simp
      · rw [List.indexOf_cons_self, List.indexOf_cons_self,
          List.indexOf_cons_ne _ hxb, List.indexOf_cons_ne _ hxb]
        omega
    · by_cases hxb : x = b
      · subst hxb
        rw [List.indexOf_cons_self, List.indexOf_cons_self]
        omega
      · have ha' : a ∈ l := by
          rcases List.mem_cons.1 ha with h | h
          · exact absurd h.symm hxa
          · exact h
        have hb' : b ∈ l := by
          rcases List.mem_cons.1 hb with h | h
          · exact absurd h.symm hxb
          · exact h
        rw [List.indexOf_cons_ne _ hxa, List.indexOf_cons_ne _ hxb,
          List.indexOf_cons_ne _ hxa, List.indexOf_cons_ne _ hxb]
        have h1 := indexOf_filter_ne x a b (removeDuplicates l) (Ne.symm hxa) (Ne.symm hxb)
          ((mem_removeDuplicates l a).2 ha') ((mem_removeDuplicates l b).2 hb')
        have h2 := ih ha' hb'
        omega

theorem Point.ext_iff' (a b : Point) : a = b ↔ a.X = b.X ∧ a.Y = b.Y := by
  cases a; cases b; simp

theorem lexLt_irrefl (a : Point) : ¬ lexLt a a := by
  simp [lexLt]

theorem lexLt_trans {a b c : Point} (h1 : lexLt a b) (h2 : lexLt b c) : lexLt a c := by
  unfold lexLt at *
  rcases h1 with h1 | ⟨h1, h1'⟩ <;> rcases h2 with h2 | ⟨h2, h2'⟩
  · exact Or.inl (lt_trans h1 h2)
  · exact Or.inl (h2 ▸ h1)
  · exact Or.inl (h1 ▸ h2)
  · exact Or.inr ⟨h1.trans h2, lt_trans h1' h2'⟩

theorem lexLt_asymm {a b : Point} (h1 : lexLt a b) (h2 : lexLt b a) : False :=
  lexLt_irrefl a (lexLt_trans h1 h2)

theorem lexLt_total (a b : Point) : lexLt a b ∨ a = b ∨ lexLt b a := by
  unfold lexLt
  rw [Point.ext_iff']
  rcases lt_trichotomy a.X b.X with h | h | h
  · exact Or.inl (Or.inl h)
  · rcases lt_trichotomy a.Y b.Y with h' | h' | h'
    · exact Or.inl (Or.inr ⟨h, h'⟩)
    · exact Or.inr (Or.inl ⟨h, h'⟩)
    · exact Or.inr (Or.inr (Or.inr ⟨h.symm, h'⟩))
  · exact Or.inr (Or.inr (Or.inl h))

instance lexLt_isAntisymm : IsAntisymm Point lexLt :=
  ⟨fun _ _ h1 h2 => (lexLt_asymm h1 h2).elim⟩

theorem sortInsert_perm (p : Point) (l : List Point) : (sortInsert p l).Perm (p :: l) := by
  induction l with
  | nil => simp [sortInsert]
  | cons q qs ih =>
    unfold sortInsert
    by_cases h : sortLess q p = true
    · rw [if_pos h]
      exact (List.Perm.cons q ih).trans (List.Perm.swap p q qs)
    · rw [if_neg h]

theorem sortPoints_cons (p : Point) (l : List Point) :
    sortPoints (p :: l) = sortInsert p (sortPoints l) := rfl

theorem sortPoints_perm (l : List Point) : (sortPoints l).Perm l := by
  induction l with
  | nil => exact List.Perm.refl _
  | cons p l ih =>
    rw [sortPoints_cons]
    exact (sortInsert_perm p _).trans (List.Perm.cons p ih)

theorem mem_sortPoints (l : List Point) (p : Point) : p ∈ sortPoints l ↔ p ∈ l :=
  (sortPoints_perm l).mem_iff

theorem sortInsert_sorted (p : Point) (l : List Point) (hl : l.Pairwise lexLt)
    (hp : p ∉ l) : (sortInsert p l).Pairwise lexLt := by
  induction l with
  | nil => simp [sortInsert]
  | cons q qs ih =>
    have hq := List.pairwise_cons.1 hl
    have hpq : p ≠ q := fun h => hp (h ▸ List.mem_cons_self _ _)
    have hpqs : p ∉ qs := fun h => hp (List.mem_cons_of_mem _ h)
    unfold sortInsert
    by_cases h : sortLess q p = true
    · rw [if_pos h]
      refine List.pairwise_cons.2 ⟨?_, ih hq.2 hpqs⟩
      intro y hy
      rcases List.mem_cons.1 ((sortInsert_perm p qs).mem_iff.1 hy) with hy | hy
      · rw [hy]; exact (sortLess_iff q p).1 h
      · exact hq.1 y hy
    · rw [if_neg h]
      have hlt : lexLt p q := by
        rcases lexLt_total p q with h1 | h1 | h1
        · exact h1
        · exact absurd h1 hpq
        · exact absurd ((sortLess_iff q p).2 h1) h
      refine List.pairwise_cons.2 ⟨?_, hl⟩
      intro y hy
      rcases List.mem_cons.1 hy with hy | hy
      · rw [hy]; exact hlt
      · exact lexLt_trans hlt (hq.1 y hy)

theorem sortPoints_sorted (l : List Point) (hl : l.Nodup) :
    (sortPoints l).Pairwise lexLt := by
  induction l with
  | nil => simp [sortPoints]
  | cons p l ih =>
    have h := List.nodup_cons.1 hl
    rw [sortPoints_cons]
    exact sortInsert_sorted p _ (ih h.2) (fun hm => h.1 ((mem_sortPoints l p).1 hm))

/-- On a duplicate-free vector the result of sorting is determined by the comparator:
every strictly increasing rearrangement of `l` is `sortPoints l`. -/
theorem sortPoints_unique (l l' : List Point) (hl : l.Nodup) (hperm : l'.Perm l)
    (hsorted : l'.Pairwise lexLt) : l' = sortPoints l :=
  List.eq_of_perm_of_sorted (hperm.trans (sortPoints_perm l).symm) hsorted
    (sortPoints_sorted l hl)

theorem preprocess_sorted (input : List Point) : (preprocess input).Pairwise lexLt :=
  sortPoints_sorted _ (nodup_removeDuplicates input)

theorem mem_preprocess (input : List Point) (p : Point) :
    p ∈ preprocess input ↔ p ∈ input := by
  rw [preprocess, mem_sortPoints, mem_removeDuplicates]

theorem pairwise_lexLt_nodup {l : List Point} (h : l.Pairwise lexLt) : l.Nodup :=
  List.Pairwise.imp (fun {a b} (hab : lexLt a b) (heq : a = b) =>
    lexLt_irrefl b (heq ▸ hab)) h

theorem preprocess_nodup (input : List Point) : (preprocess input).Nodup :=
  pairwise_lexLt_nodup (preprocess_sorted input)

/-- Two strictly increasing vectors with the same points are equal. -/
theorem sorted_ext {l1 l2 : List Point} (h1 : l1.Pairwise lexLt) (h2 : l2.Pairwise lexLt)
    (hmem : ∀ p, p ∈ l1 ↔ p ∈ l2) : l1 = l2 :=
  List.eq_of_perm_of_sorted
    ((List.perm_ext_iff_of_nodup (pairwise_lexLt_nodup h1) (pairwise_lexLt_nodup h2)).2 hmem)
    h1 h2

/-- The vector `pointSet` depends only on the set of input points. -/
theorem preprocess_congr {P P' : List Point} (h : ∀ p, p ∈ P ↔ p ∈ P') :
    preprocess P = preprocess P' :=
  sorted_ext (preprocess_sorted P) (preprocess_sorted P') (fun p => by
    rw [mem_preprocess, mem_preprocess, h])

theorem preprocess_length (input : List Point) :
    (preprocess input).length = input.toFinset.card := by
  rw [← List.toFinset_card_of_nodup (preprocess_nodup input)]
  congr 1
  ext p
  simp [mem_preprocess]

/-! ## Shape of the chains, whatever the orientation test -/

theorem popInnerBy_suffix (test : Point → Point → Point → Bool) (c : Stack) (T : Point) :
    popInnerBy test c T <:+ c := by
  induction c with
  | nil => simp [popInnerBy]
  | cons top below ih =>
    cases below with
    | nil => simp [popInnerBy]
    | cons prevTop rest =>
      unfold popInnerBy
      split_ifs
      · exact ih.trans (List.suffix_cons _ _)
      · exact List.suffix_refl _

theorem popInnerBy_ne_nil (test : Point → Point → Point → Bool) (c : Stack) (T : Point)
    (h : c ≠ []) : popInnerBy test c T ≠ [] := by
  induction c with
  | nil => exact absurd rfl h
  | cons top below ih =>
    cases below with
    | nil => simp [popInnerBy]
    | cons prevTop rest =>
      unfold popInnerBy
      split_ifs
      · exact ih (by simp)
      · simp

theorem popInnerBy_getLast? (test : Point → Point → Point → Bool) (c : Stack) (T : Point) :
    (popInnerBy test c T).getLast? = c.getLast? := by
  induction c with
  | nil => simp [popInnerBy]
  | cons top below ih =>
    cases below with
    | nil => simp [popInnerBy]
    | cons prevTop rest =>
      unfold popInnerBy
      split_ifs
      · rw [ih, List.getLast?_cons_cons]
      · rfl

theorem popInnerBy_convex (test : Point → Point → Point → Bool) (c : Stack) (T : Point)
    (h : ConvexBy test c) : ConvexBy test (T :: popInnerBy test c T) := by
  induction c with
  | nil => simp [popInnerBy, ConvexBy]
  | cons top below ih =>
    cases below with
    | nil => simp [popInnerBy, ConvexBy]
    | cons prevTop rest =>
      unfold popInnerBy
      split_ifs with hc
      · apply ih
        cases rest with
        | nil => simp [ConvexBy]
        | cons w rest' => exact h.2
      · exact ⟨by simpa using hc, h⟩

theorem popInnerBy_witness (test : Point → Point → Point → Bool) (r : Point → Point → Prop)
    (c : Stack) (T : Point) (hsorted : c.Pairwise (fun y x => r x y)) :
    ∀ p ∈ c, p ∉ popInnerBy test c T → ∃ a ∈ c, r a p ∧ test a p T = true := by
  induction c with
  | nil => intro p hp; simp at hp
  | cons top below ih =>
    cases below with
    | nil => intro p hp hn; simp [popInnerBy] at hp hn; exact absurd hp hn
    | cons prevTop rest =>
      intro p hp hn
      unfold popInnerBy at hn
      split_ifs at hn with hc
      · have hs := List.pairwise_cons.1 hsorted
        rcases List.mem_cons.1 hp with rfl | hp'
        · exact ⟨prevTop, by simp, hs.1 _ (by simp), hc⟩
        · obtain ⟨a, ha, hap, hcr⟩ := ih hs.2 p hp' hn
          exact ⟨a, List.mem_cons_of_mem _ ha, hap, hcr⟩
      · exact absurd hp hn

theorem popInnerBy_congr (t1 t2 : Point → Point → Point → Bool) (A : List Point)
    (h : ∀ a ∈ A, ∀ b ∈ A, ∀ q ∈ A, t1 a b q = t2 a b q) (c : Stack) (T : Point)
    (hc : ∀ x ∈ c, x ∈ A) (hT : T ∈ A) : popInnerBy t1 c T = popInnerBy t2 c T := by
  induction c with
  | nil => rfl
  | cons top below ih =>
    cases below with
    | nil => rfl
    | cons prevTop rest =>
      unfold popInnerBy
      rw [h prevTop (hc _ (by simp)) top (hc _ (by simp)) T hT]
      split_ifs
      · exact ih (fun x hx => hc x (List.mem_cons_of_mem _ hx))
      · rfl

theorem scanBy_congr (t1 t2 : Point → Point → Point → Bool) (A : List Point)
    (h : ∀ a ∈ A, ∀ b ∈ A, ∀ q ∈ A, t1 a b q = t2 a b q) (c : Stack) (pts : List Point)
    (hc : ∀ x ∈ c, x ∈ A) (hpts : ∀ x ∈ pts, x ∈ A) : scanBy t1 c pts = scanBy t2 c pts := by
  induction pts generalizing c with
  | nil => rfl
  | cons T pts ih =>
    have hT : T ∈ A := hpts T (by simp)
    rw [scanBy_cons, scanBy_cons, popInnerBy_congr t1 t2 A h c T hc hT]
    apply ih
    · intro x hx
      rcases List.mem_cons.1 hx with e | hx'
      · rw [e]; exact hT
      · exact hc x ((popInnerBy_suffix t2 c T).subset hx')
    · exact fun x hx => hpts x (List.mem_cons_of_mem _ hx)

theorem chainBy_congr (t1 t2 : Point → Point → Point → Bool) (A : List Point)
    (h : ∀ a ∈ A, ∀ b ∈ A, ∀ q ∈ A, t1 a b q = t2 a b q) (S : List Point)
    (hS : ∀ x ∈ S, x ∈ A) : chainBy t1 S = chainBy t2 S := by
  cases S with
  | nil => rfl
  | cons a rest =>
    exact scanBy_congr t1 t2 A h [a] rest
      (fun x hx => hS x (by rw [List.mem_singleton.1 hx]; simp))
      (fun x hx => hS x (List.mem_cons_of_mem _ hx))

/-- Two orientation tests that agree on the points of the vector give the same
stitched hull. -/
theorem stitchBy_congr (t1 t2 : Point → Point → Point → Bool) (S : List Point)
    (h : ∀ a ∈ S, ∀ b ∈ S, ∀ q ∈ S, t1 a b q = t2 a b q) : stitchBy t1 S = stitchBy t2 S := by
  rw [stitchBy, stitchBy, chainBy_congr t1 t2 S h S (fun _ hx => hx),
    chainBy_congr t1 t2 S h S.reverse (fun _ hx => List.mem_reverse.1 hx)]

theorem scanBy_convex (test : Point → Point → Point → Bool) (s : Stack) (pts : List Point)
    (h : ConvexBy test s) : ConvexBy test (scanBy test s pts) := by
  induction pts generalizing s with
  | nil => exact h
  | cons t pts ih => rw [scanBy_cons]; exact ih _ (popInnerBy_convex test s t h)

theorem scanBy_length (test : Point → Point → Point → Bool) (s : Stack) (pts : List Point)
    (h : 2 ≤ s.length) : 2 ≤ (scanBy test s pts).length := by
  induction pts generalizing s with
  | nil => exact h
  | cons t pts ih =>
    rw [scanBy_cons]
    apply ih
    have hne : popInnerBy test s t ≠ [] := popInnerBy_ne_nil test s t (by
      intro e; rw [e] at h; simp at h)
    have : 1 ≤ (popInnerBy test s t).length := List.length_pos.2 hne
    simp only [List.length_cons]
    omega

theorem convexBy_get (test : Point → Point → Point → Bool) {c : Stack}
    (h : ConvexBy test c) (i : Nat) (hi : i + 2 < c.length) :
    test (c.get ⟨i + 2, hi⟩) (c.get ⟨i + 1, by omega⟩) (c.get ⟨i, by omega⟩) = false := by
  induction c generalizing i with
  | nil => simp at hi
  | cons z rest ih =>
    match rest, h, hi, ih with
    | [], _, hi, _ => simp at hi
    | [_], _, hi, _ => simp at hi
    | y :: x :: rest', h, hi, ih =>
      cases i with
      | zero => exact h.1
      | succ i => exact ih h.2 i (by simpa using hi)

theorem chainShape_mem {test : Point → Point → Point → Bool} {r : Point → Point → Prop}
    {P : List Point} {c : Stack} (h : ChainShape test r P c) : ∀ x ∈ c, x ∈ P :=
  fun _ hx => h.sub.subset (List.mem_reverse.2 hx)

theorem chainShape_singleton (test : Point → Point → Point → Bool)
    (r : Point → Point → Prop) (a : Point) : ChainShape test r [a] [a] where
  sub := by simp
  bot := rfl
  top := rfl
  wit := fun p hp hn => absurd hp hn

/-- One call of `RemoveInnerPoints` keeps the shape of the chain. -/
theorem chainShape_step {test : Point → Point → Point → Bool} {r : Point → Point → Prop}
    {P : List Point} {c : Stack} (T : Point)
    (hP : (P ++ [T]).Pairwise r) (hne : P ≠ []) (h : ChainShape test r P c) :
    ChainShape test r (P ++ [T]) (T :: popInnerBy test c T) := by
  have hP' := List.pairwise_append.1 hP
  have hPs : P.Pairwise r := hP'.1
  have hPT : ∀ Q ∈ P, r Q T := fun Q hQ => hP'.2.2 Q hQ T (by simp)
  have hsorted : c.Pairwise (fun y x => r x y) := by
    have := hPs.sublist h.sub
    rwa [List.pairwise_reverse] at this
  have hcP := chainShape_mem h
  have hcne : c ≠ [] := by
    intro hc
    have := h.top
    rw [hc] at this
    cases P with
    | nil => exact hne rfl
    | cons a l =>
      have h2 : (a :: l).getLast? ≠ none := by
        rw [Ne, List.getLast?_eq_none_iff]; simp
      exact h2 this.symm
  have hsuf := popInnerBy_suffix test c T
  refine ⟨?_, ?_, ?_, ?_⟩
  · rw [List.reverse_cons]
    exact List.Sublist.append (List.IsPrefix.sublist ( List.reverse_prefix.2 hsuf) |>.trans h.sub)
      (List.Sublist.refl _)
  · have hne' := popInnerBy_ne_nil test c T hcne
    obtain ⟨y, l, hyl⟩ : ∃ y l, popInnerBy test c T = y :: l := by
      cases hpi : popInnerBy test c T with
      | nil => exact absurd hpi hne'
      | cons y l => exact ⟨y, l, rfl⟩
    rw [hyl, List.getLast?_cons_cons, ← hyl, popInnerBy_getLast?, h.bot,
      List.head?_append_of_ne_nil _ hne]
  · rw [List.getLast?_concat]; rfl
  · intro p hp hn
    have hpT : p ≠ T := fun e => hn (e ▸ List.mem_cons_self _ _)
    have hpc' : p ∉ popInnerBy test c T := fun e => hn (List.mem_cons_of_mem _ e)
    have hpP : p ∈ P := by
      rcases List.mem_append.1 hp with h1 | h1
      · exact h1
      · exact absurd (List.mem_singleton.1 h1) hpT
    by_cases hpc : p ∈ c
    · obtain ⟨a, ha, hap, hcr⟩ := popInnerBy_witness test r c T hsorted p hpc hpc'
      exact ⟨a, List.mem_append_left _ (hcP a ha), T, by simp, hap, hPT p hpP, hcr⟩
    · obtain ⟨a, ha, b, hb, hap, hpb, hcr⟩ := h.wit p hpP hpc
      exact ⟨a, List.mem_append_left _ ha, b, List.mem_append_left _ hb, hap, hpb, hcr⟩

theorem chainShape_scanBy {test : Point → Point → Point → Bool} {r : Point → Point → Prop}
    (pts : List Point) {P : List Point} {c : Stack}
    (hP : (P ++ pts).Pairwise r) (hne : P ≠ []) (h : ChainShape test r P c) :
    ChainShape test r (P ++ pts) (scanBy test c pts) := by
  induction pts generalizing P c with
  | nil => simpa [scanBy] using h
  | cons T pts ih =>
    rw [scanBy_cons]
    have e : P ++ T :: pts = (P ++ [T]) ++ pts := by simp
    rw [e] at hP ⊢
    exact ih hP (by simp) (chainShape_step T (List.pairwise_append.1 hP).1 hne h)

theorem chainShape_chainBy (test : Point → Point → Point → Bool) (r : Point → Point → Prop)
    (S : List Point) (hS : S.Pairwise r) : ChainShape test r S (chainBy test S) := by
  cases S with
  | nil =>
    exact ⟨by simp [chainBy], rfl, rfl, fun p hp => absurd hp (List.not_mem_nil _)⟩
  | cons a rest =>
    exact chainShape_scanBy rest (P := [a]) hS (by simp) (chainShape_singleton test r a)

theorem upperBy_shape (test : Point → Point → Point → Bool) {S : List Point}
    (hS : S.Pairwise lexLt) : ChainShape test lexLt S (chainBy test S) :=
  chainShape_chainBy test lexLt S hS

theorem lowerBy_shape (test : Point → Point → Point → Bool) {S : List Point}
    (hS : S.Pairwise lexLt) :
    ChainShape test (fun a b => lexLt b a) S.reverse (chainBy test S.reverse) :=
  chainShape_chainBy test (fun a b => lexLt b a) S.reverse (by
    rw [List.pairwise_reverse]; exact hS)

/-! ## Ends, lengths and members of the chains, whatever the orientation test -/

theorem upperBy_nodup (test : Point → Point → Point → Bool)
    {S : List Point} (hS : S.Pairwise lexLt) :
    (chainBy test S).Nodup := by
  have h := (List.reverse_sublist.2 (upperBy_shape test hS).sub)
  rw [List.reverse_reverse] at h
  exact (List.nodup_reverse.2 (pairwise_lexLt_nodup hS)).sublist h

theorem lowerBy_nodup (test : Point → Point → Point → Bool)
    {S : List Point} (hS : S.Pairwise lexLt) :
    (chainBy test S.reverse).Nodup := by
  have h := (List.reverse_sublist.2 (lowerBy_shape test hS).sub)
  rw [List.reverse_reverse, List.reverse_reverse] at h
  exact (pairwise_lexLt_nodup hS).sublist h

theorem mem_upperBy (test : Point → Point → Point → Bool)
    {S : List Point} (hS : S.Pairwise lexLt) {p : Point}
    (hp : p ∈ chainBy test S) : p ∈ S :=
  chainShape_mem (upperBy_shape test hS) p hp

theorem mem_lowerBy (test : Point → Point → Point → Bool)
    {S : List Point} (hS : S.Pairwise lexLt) {p : Point}
    (hp : p ∈ chainBy test S.reverse) : p ∈ S :=
  List.mem_reverse.1 (chainShape_mem (lowerBy_shape test hS) p hp)

theorem upperBy_getLast? (test : Point → Point → Point → Bool)
    {S : List Point} (hS : S.Pairwise lexLt) :
    (chainBy test S).getLast? = S.head? := (upperBy_shape test hS).bot

theorem upperBy_head? (test : Point → Point → Point → Bool)
    {S : List Point} (hS : S.Pairwise lexLt) :
    (chainBy test S).head? = S.getLast? := (upperBy_shape test hS).top

theorem lowerBy_getLast? (test : Point → Point → Point → Bool)
    {S : List Point} (hS : S.Pairwise lexLt) :
    (chainBy test S.reverse).getLast? = S.getLast? := by
  rw [(lowerBy_shape test hS).bot, List.head?_reverse]

theorem lowerBy_head? (test : Point → Point → Point → Bool)
    {S : List Point} (hS : S.Pairwise lexLt) :
    (chainBy test S.reverse).head? = S.head? := by
  rw [(lowerBy_shape test hS).top, List.getLast?_reverse]

theorem mem_stitchBy (test : Point → Point → Point → Bool)
    {S : List Point} (hS : S.Pairwise lexLt) {p : Point}
    (hp : p ∈ stitchBy test S) : p ∈ S := by
  rcases List.mem_append.1 hp with h | h
  · exact mem_upperBy test hS (List.mem_of_mem_dropLast h)
  · exact mem_lowerBy test hS h

theorem upperBy_length (test : Point → Point → Point → Bool)
    {S : List Point} (hS : S.Pairwise lexLt) (hlen : 2 ≤ S.length) :
    2 ≤ (chainBy test S).length := by
  have h1 := upperBy_getLast? test hS
  have h2 := upperBy_head? test hS
  obtain ⟨a, b, rest, rfl⟩ : ∃ a b rest, S = a :: b :: rest := by
    match S, hlen with
    | a :: b :: rest, _ => exact ⟨a, b, rest, rfl⟩
  have hab : (a :: b :: rest).head? ≠ (a :: b :: rest).getLast? := by
    intro e
    have hmem : a ∈ (b :: rest) := by
      have : a ∈ (b :: rest).getLast? := by
        rw [List.getLast?_cons_cons] at e
        simpa using e.symm
      exact List.mem_of_mem_getLast? this
    exact lexLt_irrefl a ((List.pairwise_cons.1 hS).1 a hmem)
  match hU : chainBy test (a :: b :: rest) with
  | [] => rw [hU] at h1; simp at h1
  | [x] =>
    rw [hU] at h1 h2
    exact absurd (h1.symm.trans h2) hab
  | x :: y :: l => simp

theorem lowerBy_length (test : Point → Point → Point → Bool)
    {S : List Point} (hS : S.Pairwise lexLt) (hlen : 2 ≤ S.length) :
    2 ≤ (chainBy test S.reverse).length := by
  have h1 := lowerBy_getLast? test hS
  have h2 := lowerBy_head? test hS
  obtain ⟨a, b, rest, rfl⟩ : ∃ a b rest, S = a :: b :: rest := by
    match S, hlen with
    | a :: b :: rest, _ => exact ⟨a, b, rest, rfl⟩
  have hab : (a :: b :: rest).head? ≠ (a :: b :: rest).getLast? := by
    intro e
    have hmem : a ∈ (b :: rest) := by
      have : a ∈ (b :: rest).getLast? := by
        rw [List.getLast?_cons_cons] at e
        simpa using e.symm
      exact List.mem_of_mem_getLast? this
    exact lexLt_irrefl a ((List.pairwise_cons.1 hS).1 a hmem)
  match hL : chainBy test (a :: b :: rest).reverse with
  | [] => rw [hL] at h2; simp at h2
  | [x] =>
    rw [hL] at h1 h2
    exact absurd (h2.symm.trans h1) hab
  | x :: y :: l => simp

theorem stitchBy_head? (test : Point → Point → Point → Bool)
    {S : List Point} (hS : S.Pairwise lexLt) (hlen : 2 ≤ S.length) :
    (stitchBy test S).head? = S.getLast? := by
  have hU := upperBy_length test hS hlen
  rw [stitchBy, List.head?_append, List.head?_dropLast, if_pos (by omega), upperBy_head? test hS]
  cases h : S.getLast? with
  | none =>
    rw [List.getLast?_eq_none_iff] at h
    rw [h] at hlen; simp at hlen
  | some r => rfl

theorem stitchBy_getLast? (test : Point → Point → Point → Bool)
    {S : List Point} (hS : S.Pairwise lexLt) (hlen : 2 ≤ S.length) :
    (stitchBy test S).getLast? = S.getLast? := by
  rw [stitchBy, List.getLast?_append, lowerBy_getLast? test hS]
  cases h : S.getLast? with
  | none =>
    rw [List.getLast?_eq_none_iff] at h
    rw [h] at hlen; simp at hlen
  | some r => rfl

theorem stitchBy_length (test : Point → Point → Point → Bool)
    {S : List Point} (hS : S.Pairwise lexLt) (hlen : 2 ≤ S.length) :
    3 ≤ (stitchBy test S).length := by
  have hU := upperBy_length test hS hlen
  have hL : 2 ≤ (chainBy test S.reverse).length := by
    have hne : (chainBy test S.reverse).head? ≠ (chainBy test S.reverse).getLast? := by
      rw [lowerBy_head? test hS, lowerBy_getLast? test hS]
      obtain ⟨a, b, rest, rfl⟩ : ∃ a b rest, S = a :: b :: rest := by
        match S, hlen with
        | a :: b :: rest, _ => exact ⟨a, b, rest, rfl⟩
      intro e
      have hmem : a ∈ (b :: rest) := by
        have : a ∈ (b :: rest).getLast? := by
          rw [List.getLast?_cons_cons] at e
          simpa using e.symm
        exact List.mem_of_mem_getLast? this
      exact lexLt_irrefl a ((List.pairwise_cons.1 hS).1 a hmem)
    match hLc : chainBy test S.reverse with
    | [] =>
      have h1 := lowerBy_head? test hS
      rw [hLc] at h1
      obtain ⟨a, b, rest, rfl⟩ : ∃ a b rest, S = a :: b :: rest := by
        match S, hlen with
        | a :: b :: rest, _ => exact ⟨a, b, rest, rfl⟩
      simp at h1
    | [x] => rw [hLc] at hne; exact absurd rfl hne
    | x :: y :: l => simp
  rw [stitchBy, List.length_append, List.length_dropLast]
  omega

theorem stitchBy_count_left (test : Point → Point → Point → Bool)
    {S : List Point} (hS : S.Pairwise lexLt) {left : Point}
    (hleft : S.head? = some left) : (stitchBy test S).count left = 1 := by
  have hUl : left ∈ (chainBy test S).getLast? := by
    rw [upperBy_getLast? test hS, hleft]; rfl
  have hsplit := List.dropLast_append_getLast? left hUl
  have hnd := upperBy_nodup test hS
  rw [← hsplit] at hnd
  have hnot : left ∉ (chainBy test S).dropLast := by
    intro hm
    exact (List.nodup_append.1 hnd).2.2 hm (by simp)
  have hL : left ∈ chainBy test S.reverse := by
    apply List.mem_of_mem_head?
    rw [lowerBy_head? test hS, hleft]; rfl
  rw [stitchBy, List.count_append, List.count_eq_zero_of_not_mem hnot,
    List.count_eq_one_of_mem (lowerBy_nodup test hS) hL]

theorem stitchBy_count_right (test : Point → Point → Point → Bool)
    {S : List Point} (hS : S.Pairwise lexLt) (hlen : 2 ≤ S.length)
    {right : Point} (hright : S.getLast? = some right) : (stitchBy test S).count right = 2 := by
  have hU := upperBy_length test hS hlen
  have hUr : right ∈ (chainBy test S).dropLast := by
    apply List.mem_of_mem_head?
    rw [List.head?_dropLast, if_pos (by omega), upperBy_head? test hS, hright]; rfl
  have hnd : ((chainBy test S).dropLast).Nodup :=
    (upperBy_nodup test hS).sublist (List.IsPrefix.sublist ( List.dropLast_prefix _))
  have hL : right ∈ chainBy test S.reverse := by
    apply List.mem_of_mem_getLast?
    rw [lowerBy_getLast? test hS, hright]; rfl
  rw [stitchBy, List.count_append, List.count_eq_one_of_mem hnd hUr,
    List.count_eq_one_of_mem (lowerBy_nodup test hS) hL]

theorem mem_stitchBy_of_upper (test : Point → Point → Point → Bool)
    {S : List Point} (hS : S.Pairwise lexLt) {p : Point}
    (hp : p ∈ chainBy test S) : p ∈ stitchBy test S := by
  obtain ⟨bot, hbot⟩ : ∃ bot, (chainBy test S).getLast? = some bot := by
    cases h : (chainBy test S).getLast? with
    | none =>
      rw [List.getLast?_eq_none_iff] at h
      rw [h] at hp; simp at hp
    | some b => exact ⟨b, rfl⟩
  have hsplit := List.dropLast_append_getLast? bot hbot
  rw [← hsplit] at hp
  rcases List.mem_append.1 hp with h | h
  · exact List.mem_append_left _ h
  · rw [List.mem_singleton] at h
    subst h
    apply List.mem_append_right
    apply List.mem_of_mem_head?
    rw [lowerBy_head? test hS, ← upperBy_getLast? test hS, hbot]; rfl

theorem mem_stitchBy_of_lower (test : Point → Point → Point → Bool) {S : List Point}
    {p : Point} (hp : p ∈ chainBy test S.reverse) : p ∈ stitchBy test S :=
  List.mem_append_right _ hp


/-! ## Arithmetic of `float` -/

theorem log2Fuel_le (fuel n m : Nat) (h : n < 2 ^ (m + 1)) : log2Fuel fuel n ≤ m := by
  induction fuel generalizing n m with
  | zero => simp [log2Fuel]
  | succ f ih =>
    unfold log2Fuel
    split_ifs with h2
    · omega
    · cases m with
      | zero => simp at h; omega
      | succ m =>
        have : n / 2 < 2 ^ (m + 1) := by
          rw [Nat.div_lt_iff_lt_mul (by norm_num)]
          calc n < 2 ^ (m + 1 + 1) := h
            _ = 2 ^ (m + 1) * 2 := by ring
        have := ih (n / 2) m this
        omega

theorem pow2_nonpos (e : Int) (h : e ≤ 0) : ∃ j : Nat, pow2 e = 1 / ((2 : ℚ) ^ j) := by
  unfold pow2
  by_cases h0 : 0 ≤ e
  · have : e = 0 := le_antisymm h h0
    subst this
    exact ⟨0, by simp⟩
  · rw [if_neg h0]
    exact ⟨(-e).toNat, by push_cast; rfl⟩

theorem roundHalfEven_intCast (z : Int) : roundHalfEven (z : ℚ) = z := by
  unfold roundHalfEven
  simp

theorem roundMagnitude_natCast (n : Nat) (h : n < 2 ^ 24) :
    roundMagnitude (n : ℚ) = n := by
  unfold roundMagnitude
  have he : exponentOf (n : ℚ) ≤ 23 := by
    unfold exponentOf
    have h1 : log2 n ≤ 23 := log2Fuel_le n n 23 (by simpa using h)
    have h2 : log2 1 = 0 := by decide
    simp only [Rat.num_natCast, Rat.den_natCast, Int.natAbs_ofNat, h2]
    split_ifs <;> omega
  obtain ⟨j, hj⟩ := pow2_nonpos (max (exponentOf (n : ℚ)) (-126) - 23) (by
    have : max (exponentOf (n : ℚ)) (-126) ≤ 23 := max_le he (by norm_num)
    omega)
  simp only [hj]
  have e1 : (n : ℚ) / (1 / (2 : ℚ) ^ j) = ((n * 2 ^ j : Int) : ℚ) := by
    push_cast; field_simp
  rw [e1, roundHalfEven_intCast]
  push_cast
  field_simp

theorem roundToFloat_intCast (z : Int) (h : |z| < 2 ^ 24) :
    roundToFloat (z : ℚ) = Float32.finite z := by
  unfold roundToFloat
  by_cases h0 : z = 0
  · simp [h0]
  · have hz : ¬ ((z : ℚ) = 0) := by simp [h0]
    simp only [hz, if_false]
    have habs : |(z : ℚ)| = ((z.natAbs : Nat) : ℚ) := by
      rw [← Int.cast_abs, Int.abs_eq_natAbs]; rfl
    have hn : z.natAbs < 2 ^ 24 := by
      have := Int.abs_eq_natAbs z
      omega
    rw [habs, roundMagnitude_natCast _ hn]
    have hbig : ¬ pow2 128 ≤ ((z.natAbs : Nat) : ℚ) := by
      rw [not_le]
      have : ((z.natAbs : Nat) : ℚ) < ((2 ^ 24 : Nat) : ℚ) := by exact_mod_cast hn
      calc ((z.natAbs : Nat) : ℚ) < ((2 ^ 24 : Nat) : ℚ) := this
        _ ≤ pow2 128 := by
          have e : pow2 128 = ((2 ^ 128 : Nat) : ℚ) := by decide!
          rw [e]
          exact_mod_cast (by norm_num : (2 ^ 24 : Nat) ≤ 2 ^ 128)
    simp only [hbig, if_false]
    congr 1
    by_cases hneg : (z : ℚ) < 0
    · rw [if_pos hneg, ← habs, abs_of_neg hneg]; ring
    · rw [if_neg hneg, ← habs, abs_of_nonneg (not_lt.1 hneg)]

theorem IsSidePositive_of_exactAt (P0 P1 Q : Point) (h : ExactAt P0 P1 Q) :
    IsSidePositive (P0, P1) Q = decide (0 < cross P0 P1 Q) := by
  obtain ⟨h1, h2, h3, h4, h5, h6, h7⟩ := h
  unfold IsFloat32 at *
  unfold cross at h7
  simp only [IsSidePositive, Float32.sub, Float32.mul, h1, h2, h3, h4, h5, h6, h7,
    Float32.gtZero, cross, gt_iff_lt]

theorem exactAt_of_small (P0 P1 Q : Point) (h0 : SmallPoint P0) (h1 : SmallPoint P1)
    (hq : SmallPoint Q) : ExactAt P0 P1 Q := by
  obtain ⟨⟨x0, ex0, bx0⟩, ⟨y0, ey0, by0⟩⟩ := h0
  obtain ⟨⟨x1, ex1, bx1⟩, ⟨y1, ey1, by1⟩⟩ := h1
  obtain ⟨⟨xq, exq, bxq⟩, ⟨yq, eyq, byq⟩⟩ := hq
  have hd : ∀ a b : Int, |a| ≤ 1024 → |b| ≤ 1024 → |a - b| ≤ 2048 := by
    intro a b ha hb
    rw [abs_le] at *
    constructor <;> omega
  have hm : ∀ a b : Int, |a| ≤ 2048 → |b| ≤ 2048 → |a * b| ≤ 4194304 := by
    intro a b ha hb
    rw [abs_mul]
    calc |a| * |b| ≤ 2048 * 2048 := mul_le_mul ha hb (abs_nonneg _) (by norm_num)
      _ = 4194304 := by norm_num
  have hs : ∀ a b : Int, |a| ≤ 4194304 → |b| ≤ 4194304 → |a - b| ≤ 8388608 := by
    intro a b ha hb
    rw [abs_le] at *
    constructor <;> omega
  have d1 := hd x1 x0 bx1 bx0
  have d2 := hd y1 y0 by1 by0
  have d3 := hd xq x1 bxq bx1
  have d4 := hd yq y1 byq by1
  have m1 := hm _ _ d1 d4
  have m2 := hm _ _ d2 d3
  have s1 := hs _ _ m1 m2
  unfold ExactAt IsFloat32 cross
  rw [ex0, ey0, ex1, ey1, exq, eyq]
  refine ⟨?_, ?_, ?_, ?_, ?_, ?_, ?_⟩
  · have := roundToFloat_intCast (x1 - x0) (by omega)
    push_cast at this; exact this
  · have := roundToFloat_intCast (y1 - y0) (by omega)
    push_cast at this; exact this
  · have := roundToFloat_intCast (xq - x1) (by omega)
    push_cast at this; exact this
  · have := roundToFloat_intCast (yq - y1) (by omega)
    push_cast at this; exact this
  · have := roundToFloat_intCast ((x1 - x0) * (yq - y1)) (by omega)
    push_cast at this; exact this
  · have := roundToFloat_intCast ((y1 - y0) * (xq - x1)) (by omega)
    push_cast at this; exact this
  · have := roundToFloat_intCast ((x1 - x0) * (yq - y1) - (y1 - y0) * (xq - x1)) (by omega)
    push_cast at this; exact this

theorem roundToFloat_zero : roundToFloat 0 = Float32.finite 0 := by
  simp [roundToFloat]

theorem Float32.mul_zero_left (v : Float32) :
    Float32.mul (Float32.finite 0) v = Float32.finite 0
      ∨ Float32.mul (Float32.finite 0) v = Float32.nan := by
  cases v with
  | finite b => left; simp [Float32.mul, roundToFloat_zero]
  | infinity s => right; simp [Float32.mul]
  | nan => right; simp [Float32.mul]

theorem IsSidePositive_zero_edge (P0 Q : Point) : IsSidePositive (P0, P0) Q = false := by
  simp only [IsSidePositive, Float32.sub, sub_self, roundToFloat_zero]
  rcases Float32.mul_zero_left (roundToFloat (Q.Y - P0.Y)) with h1 | h1 <;>
    rcases Float32.mul_zero_left (roundToFloat (Q.X - P0.X)) with h2 | h2 <;>
    simp [h1, h2, Float32.sub, Float32.gtZero, roundToFloat_zero]

theorem roundToFloat_neg (q : ℚ) : roundToFloat (-q) = Float32.neg (roundToFloat q) := by
  unfold roundToFloat
  by_cases h0 : q = 0
  · simp [h0, Float32.neg]
  · have h0' : ¬ (-q = 0) := by simpa using h0
    simp only [h0, h0', if_false, abs_neg]
    by_cases hbig : pow2 128 ≤ roundMagnitude |q|
    · simp only [hbig, if_true, Float32.neg]
      congr 1
      rcases lt_or_gt_of_ne h0 with h | h
      · simp [h, h.le]
      · simp [h, h.le, not_lt.2 h.le]
    · simp only [hbig, if_false, Float32.neg]
      congr 1
      rcases lt_or_gt_of_ne h0 with h | h
      · have : ¬ (0 < q) := not_lt.2 h.le
        simp [h, this]
      · have : ¬ (q < 0) := not_lt.2 h.le
        simp [h, this]

theorem Float32.sub_swap (a b : Float32) :
    Float32.sub a b = Float32.neg (Float32.sub b a) := by
  cases a with
  | finite x =>
    cases b with
    | finite y =>
      simp only [Float32.sub]
      rw [← roundToFloat_neg]
      congr 1; ring
    | infinity t => simp [Float32.sub, Float32.neg]
    | nan => simp [Float32.sub, Float32.neg]
  | infinity s =>
    cases b with
    | finite y => simp [Float32.sub, Float32.neg]
    | infinity t =>
      simp only [Float32.sub]
      by_cases h : s = t
      · subst h; simp [Float32.neg]
      · have h' : ¬ t = s := fun e => h e.symm
        simp only [h, h', if_false, Float32.neg]
        cases s <;> cases t <;> simp at h ⊢
    | nan => simp [Float32.sub, Float32.neg]
  | nan => cases b <;> simp [Float32.sub, Float32.neg]

theorem Float32.mul_comm (a b : Float32) : Float32.mul a b = Float32.mul b a := by
  cases a with
  | finite x =>
    cases b with
    | finite y => simp only [Float32.mul]; congr 1; ring
    | infinity t => simp [Float32.mul, Bool.xor_comm]
    | nan => simp [Float32.mul]
  | infinity s =>
    cases b with
    | finite y => simp [Float32.mul, Bool.xor_comm]
    | infinity t => simp only [Float32.mul]; congr 1; exact Bool.xor_comm s t
    | nan => simp [Float32.mul]
  | nan => cases b <;> simp [Float32.mul]

theorem Float32.mul_neg_neg (a b : Float32) :
    Float32.mul (Float32.neg a) (Float32.neg b) = Float32.mul a b := by
  cases a with
  | finite x =>
    cases b with
    | finite y => simp only [Float32.mul, Float32.neg]; congr 1; ring
    | infinity t =>
      simp only [Float32.mul, Float32.neg, neg_eq_zero]
      by_cases h : x = 0
      · simp [h]
      · simp only [h, if_false]
        congr 1
        rcases lt_or_gt_of_ne h with h1 | h1
        · have : ¬ (0 < x) := not_lt.2 h1.le
          simp [h1, this]
        · have : ¬ (x < 0) := not_lt.2 h1.le
          simp [h1, this]
    | nan => simp [Float32.mul, Float32.neg]
  | infinity s =>
    cases b with
    | finite y =>
      simp only [Float32.mul, Float32.neg, neg_eq_zero]
      by_cases h : y = 0
      · simp [h]
      · simp only [h, if_false]
        congr 1
        rcases lt_or_gt_of_ne h with h1 | h1
        · have : ¬ (0 < y) := not_lt.2 h1.le
          simp [h1, this]
        · have : ¬ (y < 0) := not_lt.2 h1.le
          simp [h1, this]
    | infinity t => simp [Float32.mul, Float32.neg]
    | nan => simp [Float32.mul, Float32.neg]
  | nan => cases b <;> simp [Float32.mul, Float32.neg]

theorem Float32.gtZero_neg (a : Float32) (h : Float32.gtZero a = true) :
    Float32.gtZero (Float32.neg a) = false := by
  cases a with
  | finite x =>
    simp only [Float32.gtZero, Float32.neg, decide_eq_true_eq, decide_eq_false_iff_not] at *
    linarith
  | infinity s => simp [Float32.gtZero, Float32.neg] at *; exact h
  | nan => simp [Float32.gtZero] at h

/-- The orientation test cannot hold for a triple and for the reversed triple. -/
theorem IsSidePositive_reverse (A B C : Point) (h : IsSidePositive (A, B) C = true) :
    IsSidePositive (C, B) A = false := by
  unfold IsSidePositive at *
  simp only at *
  rw [Float32.sub_swap (Float32.finite B.X) (Float32.finite C.X),
    Float32.sub_swap (Float32.finite B.Y) (Float32.finite C.Y),
    Float32.sub_swap (Float32.finite A.X) (Float32.finite B.X),
    Float32.sub_swap (Float32.finite A.Y) (Float32.finite B.Y),
    Float32.mul_neg_neg, Float32.mul_neg_neg, Float32.sub_swap,
    Float32.mul_comm (Float32.sub (Float32.finite C.Y) (Float32.finite B.Y)),
    Float32.mul_comm (Float32.sub (Float32.finite C.X) (Float32.finite B.X))]
  exact Float32.gtZero_neg _ h

theorem exactOn_of_exactAt (A : List Point)
    (h : ∀ a ∈ A, ∀ b ∈ A, ∀ q ∈ A, ExactAt a b q) : ExactOn A :=
  fun a ha b hb q hq => IsSidePositive_of_exactAt a b q (h a ha b hb q hq)

theorem exactOn_of_small (A : List Point) (h : ∀ p ∈ A, SmallPoint p) : ExactOn A :=
  fun a ha b hb q hq =>
    IsSidePositive_of_exactAt a b q (exactAt_of_small a b q (h a ha) (h b hb) (h q hq))

theorem floatTest_eq_exactTest {A : List Point} (h : ExactOn A) :
    ∀ a ∈ A, ∀ b ∈ A, ∀ q ∈ A, floatTest a b q = exactTest a b q :=
  fun a ha b hb q hq => h a ha b hb q hq

/-! ## Geometry of forward vectors -/

theorem lexPos_direction : Direction lexPos where
  add := by
    intro x y x' y' h h'
    unfold lexPos at *
    rcases h with h | ⟨h, h2⟩ <;> rcases h' with h' | ⟨h', h2'⟩
    · left; linarith
    · left; linarith
    · left; linarith
    · right; exact ⟨by linarith, by linarith⟩
  tri := by
    intro x y
    unfold lexPos
    rcases lt_trichotomy x 0 with h | h | h
    · right; right; left; linarith
    · rcases lt_trichotomy y 0 with h' | h' | h'
      · right; right; right; exact ⟨by linarith, by linarith⟩
      · right; left; exact ⟨h, h'⟩
      · left; right; exact ⟨h, h'⟩
    · left; left; exact h
  asymm := by
    intro x y h h'
    unfold lexPos at *
    rcases h with h | ⟨h, h2⟩ <;> rcases h' with h' | ⟨h', h2'⟩ <;> linarith
  turn := by
    intro ux uy vx vy wx wy hu hv hw h1 h2
    unfold lexPos at *
    have hvx : 0 ≤ vx := by rcases hv with h | ⟨h, _⟩ <;> linarith
    have hwx : 0 ≤ wx := by rcases hw with h | ⟨h, _⟩ <;> linarith
    rcases hu with hu | ⟨hu, hu'⟩
    · have key : (vx * wy - vy * wx) * ux
          = (vx * uy - vy * ux) * wx + (ux * wy - uy * wx) * vx := by ring
      have hnn : 0 ≤ (vx * wy - vy * wx) * ux := by
        rw [key]; positivity
      by_contra hneg
      have hneg' : vx * wy - vy * wx < 0 := not_le.1 hneg
      have := mul_neg_of_neg_of_pos hneg' hu
      linarith
    · subst hu
      have hwx0 : wx = 0 := by
        have : 0 ≤ -(uy * wx) := by linarith
        have h3 : uy * wx ≤ 0 := by linarith
        have h4 : 0 ≤ uy * wx := mul_nonneg hu'.le hwx
        have h5 : uy * wx = 0 := le_antisymm h3 h4
        rcases mul_eq_zero.1 h5 with h6 | h6
        · linarith
        · exact h6
      subst hwx0
      have hwy : 0 < wy := by rcases hw with h | ⟨_, h⟩ <;> linarith
      have : 0 ≤ vx * wy := mul_nonneg hvx hwy.le
      linarith

theorem lexNeg_direction : Direction lexNeg where
  add := by
    intro x y x' y' h h'
    unfold lexNeg at *
    have := lexPos_direction.add _ _ _ _ h h'
    rwa [← neg_add, ← neg_add] at this
  tri := by
    intro x y
    unfold lexNeg
    rcases lexPos_direction.tri x y with h | h | h
    · right; right; simpa using h
    · right; left; exact h
    · left; exact h
  asymm := by
    intro x y h h'
    unfold lexNeg at *
    exact lexPos_direction.asymm _ _ h h'
  turn := by
    intro ux uy vx vy wx wy hu hv hw h1 h2
    unfold lexNeg at *
    have := lexPos_direction.turn _ _ _ _ _ _ hu hv hw (by linarith) (by linarith)
    linarith

theorem before_lexPos (a b : Point) : before lexPos a b ↔ lexLt a b := by
  unfold before lexPos lexLt
  constructor
  · rintro (h | ⟨h, h'⟩)
    · left; linarith
    · right; exact ⟨by linarith, by linarith⟩
  · rintro (h | ⟨h, h'⟩)
    · left; linarith
    · right; exact ⟨by linarith, by linarith⟩

theorem before_lexNeg (a b : Point) : before lexNeg a b ↔ lexLt b a := by
  unfold before lexNeg lexPos lexLt
  constructor
  · rintro (h | ⟨h, h'⟩)
    · left; linarith
    · right; exact ⟨by linarith, by linarith⟩
  · rintro (h | ⟨h, h'⟩)
    · left; linarith
    · right; exact ⟨by linarith, by linarith⟩

section Geometry

variable {pos : ℚ → ℚ → Prop} (D : Direction pos)
include D

theorem before_irrefl (a : Point) : ¬ before pos a a := by
  intro h
  unfold before at h
  have h' := D.asymm _ _ h
  simp only [sub_self, neg_zero] at h h'
  exact h' h

theorem before_trans {a b c : Point} (h1 : before pos a b) (h2 : before pos b c) :
    before pos a c := by
  unfold before at *
  have := D.add _ _ _ _ h1 h2
  have e1 : b.X - a.X + (c.X - b.X) = c.X - a.X := by ring
  have e2 : b.Y - a.Y + (c.Y - b.Y) = c.Y - a.Y := by ring
  rwa [e1, e2] at this

theorem before_asymm {a b : Point} (h1 : before pos a b) (h2 : before pos b a) : False :=
  before_irrefl D a (before_trans D h1 h2)

theorem before_total (a b : Point) : before pos a b ∨ a = b ∨ before pos b a := by
  unfold before
  rcases D.tri (b.X - a.X) (b.Y - a.Y) with h | h | h
  · exact Or.inl h
  · right; left
    rw [Point.ext_iff']
    exact ⟨by linarith [h.1], by linarith [h.2]⟩
  · right; right
    rwa [neg_sub, neg_sub] at h

/-- Chain edges keep dominating later points: with `a, b, c` consecutive on a convex
chain and `t` at or after `c`. -/
theorem turn_later {a b c t : Point} (hab : before pos a b) (hbc : before pos b c)
    (hct : c = t ∨ before pos c t) (h1 : cross a b c ≤ 0) (h2 : cross b c t ≤ 0) :
    cross a b t ≤ 0 := by
  rcases hct with rfl | hct
  · exact h1
  · unfold before cross at *
    have := D.turn (c.X - b.X) (c.Y - b.Y) (t.X - c.X) (t.Y - c.Y) (b.X - a.X) (b.Y - a.Y)
      hbc hct hab (by linarith) (by linarith)
    linarith

/-- Popping the top `c` (strict left turn `p → c → t`): points at or after `c` that
are dominated by `c → t` are dominated by `p → t`. -/
theorem turn_pop_after {p c q t : Point} (hpc : before pos p c)
    (hcq : c = q ∨ before pos c q) (hqt : before pos q t) (h1 : 0 < cross p c t)
    (h2 : cross c t q ≤ 0) : cross p t q ≤ 0 := by
  have hct : before pos c t := by
    rcases hcq with rfl | hcq
    · exact hqt
    · exact before_trans D hcq hqt
  have hpt : before pos p t := before_trans D hpc hct
  unfold before cross at *
  have := D.turn (t.X - c.X) (t.Y - c.Y) (t.X - p.X) (t.Y - p.Y) (t.X - q.X) (t.Y - q.Y)
    hct hpt hqt (by linarith) (by linarith)
  linarith

/-- Popping the top `c` (strict left turn `p → c → t`): points between `p` and `c`
that are dominated by `p → c` are dominated by `p → t`. -/
theorem turn_pop_before {p c q t : Point} (hpc : before pos p c)
    (hpq : p = q ∨ before pos p q) (hct : before pos c t) (h1 : cross p c q ≤ 0)
    (h2 : 0 < cross p c t) : cross p t q ≤ 0 := by
  have hpt : before pos p t := before_trans D hpc hct
  rcases hpq with rfl | hpq
  · unfold cross; linarith
  · unfold before cross at *
    have := D.turn (c.X - p.X) (c.Y - p.Y) (q.X - p.X) (q.Y - p.Y) (t.X - p.X) (t.Y - p.Y)
      hpc hpq hpt (by linarith) (by linarith)
    linarith

/-- Pushing `t` on top of `b` (no left turn `a → b → t`): points before `b` that are
dominated by `a → b` are dominated by `b → t`. -/
theorem turn_push {a b q t : Point} (hqb : before pos q b) (hab : before pos a b)
    (hbt : before pos b t) (h1 : cross a b q ≤ 0) (h2 : cross a b t ≤ 0) :
    cross b t q ≤ 0 := by
  unfold before cross at *
  have := D.turn (b.X - a.X) (b.Y - a.Y) (t.X - b.X) (t.Y - b.Y) (b.X - q.X) (b.Y - q.Y)
    hab hbt hqb (by linarith) (by linarith)
  linarith

/-- An end point `x` of an edge that dominates `a` and `b` is not strictly below
the segment from `a` to `b`. -/
theorem turn_vertex {u v x a b : Point} (huv : before pos u v) (hx : x = u ∨ x = v)
    (hax : before pos a x) (hxb : before pos x b) (h1 : cross u v a ≤ 0)
    (h2 : cross u v b ≤ 0) : cross a x b ≤ 0 := by
  unfold before cross at *
  have := D.turn (v.X - u.X) (v.Y - u.Y) (b.X - x.X) (b.Y - x.Y) (x.X - a.X) (x.Y - a.Y)
    huv hxb hax
  rcases hx with rfl | rfl
  · have := this (by linarith) (by linarith)
    linarith
  · have := this (by linarith) (by linarith)
    linarith

/-- A point strictly below the segment from `a` to `b` is strictly below every edge
that dominates `a` and `b`. -/
theorem turn_strict {u v a p b : Point} (huv : before pos u v) (hap : before pos a p)
    (hpb : before pos p b) (h0 : 0 < cross a p b) (h1 : cross u v a ≤ 0)
    (h2 : cross u v b ≤ 0) : cross u v p < 0 := by
  by_contra hneg
  have hneg' : 0 ≤ cross u v p := not_lt.1 hneg
  unfold before cross at *
  have := D.turn (v.X - u.X) (v.Y - u.Y) (b.X - p.X) (b.Y - p.Y) (p.X - a.X) (p.Y - a.Y)
    huv hpb hap (by linarith) (by linarith)
  linarith

end Geometry

/-! ## The chain loop -/

theorem cross_self_right (a b : Point) : cross a b b = 0 := by
  unfold cross; ring

theorem cross_self_left (a b : Point) : cross a a b = 0 := by
  unfold cross; ring

theorem cross_swap (a b q : Point) : cross b a q = - cross a b q := by
  unfold cross; ring

theorem cross_mid (a q b : Point) : cross a q b = - cross a b q := by
  unfold cross; ring

theorem popInner_suffix (c : Stack) (T : Point) : popInner c T <:+ c := by
  induction c with
  | nil => simp [popInner]
  | cons top below ih =>
    cases below with
    | nil => simp [popInner]
    | cons prevTop rest =>
      unfold popInner
      split_ifs
      · exact ih.trans (List.suffix_cons _ _)
      · exact List.suffix_refl _

theorem popInner_ne_nil (c : Stack) (T : Point) (h : c ≠ []) : popInner c T ≠ [] := by
  induction c with
  | nil => exact absurd rfl h
  | cons top below ih =>
    cases below with
    | nil => simp [popInner]
    | cons prevTop rest =>
      unfold popInner
      split_ifs
      · exact ih (by simp)
      · simp

theorem popInner_getLast? (c : Stack) (T : Point) :
    (popInner c T).getLast? = c.getLast? := by
  induction c with
  | nil => simp [popInner]
  | cons top below ih =>
    cases below with
    | nil => simp [popInner]
    | cons prevTop rest =>
      unfold popInner
      split_ifs
      · rw [ih, List.getLast?_cons_cons]
      · rfl

theorem popInner_convex (c : Stack) (T : Point) (h : Convex c) :
    Convex (T :: popInner c T) := by
  induction c with
  | nil => simp [popInner, Convex]
  | cons top below ih =>
    cases below with
    | nil => simp [popInner, Convex]
    | cons prevTop rest =>
      unfold popInner
      split_ifs with hc
      · apply ih
        cases rest with
        | nil => simp [Convex]
        | cons w rest' => exact h.2
      · exact ⟨not_lt.1 hc, h⟩

theorem popInner_witness (pos : ℚ → ℚ → Prop) (c : Stack) (T : Point)
    (hsorted : c.Pairwise (fun y x => before pos x y)) :
    ∀ p ∈ c, p ∉ popInner c T → ∃ a ∈ c, before pos a p ∧ 0 < cross a p T := by
  induction c with
  | nil => intro p hp; simp at hp
  | cons top below ih =>
    cases below with
    | nil => intro p hp hn; simp [popInner] at hp hn; exact absurd hp hn
    | cons prevTop rest =>
      intro p hp hn
      unfold popInner at hn
      split_ifs at hn with hc
      · have hs := List.pairwise_cons.1 hsorted
        rcases List.mem_cons.1 hp with rfl | hp'
        · exact ⟨prevTop, by simp, hs.1 _ (by simp), hc⟩
        · obtain ⟨a, ha, hap, hcr⟩ := ih hs.2 p hp' hn
          exact ⟨a, List.mem_cons_of_mem _ ha, hap, hcr⟩
      · exact absurd hp hn

theorem chainInv_sorted {pos : ℚ → ℚ → Prop} {P : List Point} {c : Stack} (hP : P.Pairwise (before pos))
    (h : ChainInv pos P c) : c.Pairwise (fun y x => before pos x y) := by
  have := hP.sublist h.sub
  rwa [List.pairwise_reverse] at this

theorem chainInv_mem {pos : ℚ → ℚ → Prop} {P : List Point} {c : Stack} (h : ChainInv pos P c) :
    ∀ x ∈ c, x ∈ P := fun _ hx =>
  h.sub.subset (List.mem_reverse.2 hx)

theorem chainInv_singleton (pos : ℚ → ℚ → Prop) (a : Point) : ChainInv pos [a] [a] where
  sub := by simp
  bot := rfl
  top := rfl
  conv := by simp [Convex]
  dom := fun _ _ => List.chain'_singleton _
  wit := fun p hp hn => absurd hp hn

section Chain

variable {pos : ℚ → ℚ → Prop} (D : Direction pos)
include D

theorem popInner_dominates (P : List Point) (T : Point) (c : Stack)
    (hsorted : c.Pairwise (fun y x => before pos x y))
    (hcP : ∀ x ∈ c, x ∈ P)
    (hPT : ∀ Q ∈ P, before pos Q T)
    (hmin : ∀ bot ∈ c.getLast?, ∀ Q ∈ P, bot = Q ∨ before pos bot Q)
    (hdom : ∀ Q ∈ P, Dominates c Q)
    (hL : ∀ top ∈ c.head?, ∀ Q ∈ P, (top = Q ∨ before pos top Q) → cross top T Q ≤ 0) :
    ∀ top' ∈ (popInner c T).head?, ∀ Q ∈ P, cross top' T Q ≤ 0 := by
  induction c with
  | nil => intro top' h; simp [popInner] at h
  | cons top below ih =>
    cases below with
    | nil =>
      intro top' h Q hQ
      simp only [popInner, List.head?_cons, Option.mem_def, Option.some.injEq] at h
      subst h
      exact hL top (by simp) Q hQ (hmin top (by simp) Q hQ)
    | cons prevTop rest =>
      have hs := List.pairwise_cons.1 hsorted
      have hpt : before pos prevTop top := hs.1 _ (by simp)
      have htopP : top ∈ P := hcP top (by simp)
      have hedge : ∀ Q ∈ P, cross prevTop top Q ≤ 0 := fun Q hQ =>
        (List.chain'_cons.1 (hdom Q hQ)).1
      unfold popInner
      split_ifs with hc
      · apply ih hs.2 (fun x hx => hcP x (List.mem_cons_of_mem _ hx))
        · intro bot hb
          exact hmin bot (by rwa [List.getLast?_cons_cons])
        · intro Q hQ
          exact (List.chain'_cons.1 (hdom Q hQ)).2
        · intro top2 h2 Q hQ hrel
          simp only [List.head?_cons, Option.mem_def, Option.some.injEq] at h2
          subst h2
          rcases before_total D top Q with h | h | h
          · exact turn_pop_after D hpt (Or.inr h) (hPT Q hQ) hc
              (hL top (by simp) Q hQ (Or.inr h))
          · exact turn_pop_after D hpt (Or.inl h) (hPT Q hQ) hc
              (hL top (by simp) Q hQ (Or.inl h))
          · exact turn_pop_before D hpt hrel (hPT top htopP) (hedge Q hQ) hc
      · intro top' h Q hQ
        simp only [List.head?_cons, Option.mem_def, Option.some.injEq] at h
        subst h
        rcases before_total D top Q with h | h | h
        · exact hL top (by simp) Q hQ (Or.inr h)
        · exact hL top (by simp) Q hQ (Or.inl h)
        · exact turn_push D h hpt (hPT top htopP) (hedge Q hQ) (not_lt.1 hc)

theorem convex_dominates (t : Point) (c : Stack) (hconv : Convex (t :: c))
    (hsorted : c.Pairwise (fun y x => before pos x y))
    (hhead : ∀ y ∈ c.head?, y = t ∨ before pos y t) : Dominates c t := by
  induction c with
  | nil => exact List.chain'_nil
  | cons y below ih =>
    cases below with
    | nil => exact List.chain'_singleton _
    | cons x rest =>
      have hs := List.pairwise_cons.1 hsorted
      have hxy : before pos x y := hs.1 _ (by simp)
      have hyt : y = t ∨ before pos y t := hhead y (by simp)
      have hxt : before pos x t := by
        rcases hyt with rfl | h
        · exact hxy
        · exact before_trans D hxy h
      have h1 : cross x y t ≤ 0 := hconv.1
      refine List.chain'_cons.2 ⟨h1, ih ?_ hs.2 ?_⟩
      · cases rest with
        | nil => simp [Convex]
        | cons w rest' =>
          have hs2 := List.pairwise_cons.1 hs.2
          have hwx : before pos w x := hs2.1 _ (by simp)
          have h2 : cross w x y ≤ 0 := hconv.2.1
          exact ⟨turn_later D hwx hxy hyt h2 h1, hconv.2.2⟩
      · intro y' hy'
        simp only [List.head?_cons, Option.mem_def, Option.some.injEq] at hy'
        subst hy'
        exact Or.inr hxt

/-- One call of `RemoveInnerPoints` keeps the chain invariant. -/
theorem chainInv_step {P : List Point} {c : Stack} (T : Point)
    (hP : (P ++ [T]).Pairwise (before pos)) (hne : P ≠ []) (h : ChainInv pos P c) :
    ChainInv pos (P ++ [T]) (T :: popInner c T) := by
  have hP' := List.pairwise_append.1 hP
  have hPs : P.Pairwise (before pos) := hP'.1
  have hPT : ∀ Q ∈ P, before pos Q T := fun Q hQ => hP'.2.2 Q hQ T (by simp)
  have hsorted := chainInv_sorted hPs h
  have hcP := chainInv_mem h
  have hcne : c ≠ [] := by
    intro hc
    have := h.top
    rw [hc] at this
    cases P with
    | nil => exact hne rfl
    | cons a l =>
      have h2 : (a :: l).getLast? ≠ none := by
        rw [Ne, List.getLast?_eq_none_iff]; simp
      exact h2 this.symm
  have hsuf := popInner_suffix c T
  have hsorted' : (popInner c T).Pairwise (fun y x => before pos x y) :=
    hsorted.sublist hsuf.sublist
  have hmem' : ∀ x ∈ popInner c T, x ∈ P := fun x hx => hcP x (hsuf.subset hx)
  have hconv' : Convex (T :: popInner c T) := popInner_convex c T h.conv
  -- the top of the old stack is the last point of `P`, hence maximal
  have hmax : ∀ top ∈ c.head?, ∀ Q ∈ P, (top = Q ∨ before pos top Q) → top = Q := by
    intro top htop Q hQ hrel
    rcases hrel with h1 | h1
    · exact h1
    · exfalso
      rw [h.top] at htop
      obtain ⟨l, hl⟩ : ∃ l, P = l ++ [top] := by
        refine ⟨P.dropLast, ?_⟩
        have := List.dropLast_append_getLast? top htop
        exact this.symm
      rw [hl] at hPs hQ
      have hpa := List.pairwise_append.1 hPs
      rcases List.mem_append.1 hQ with hQ' | hQ'
      · exact before_asymm D h1 (hpa.2.2 Q hQ' top (by simp))
      · rw [List.mem_singleton] at hQ'
        rw [hQ'] at h1
        exact before_irrefl D top h1
  -- the bottom of the stack is the first point of `P`, hence minimal
  have hmin : ∀ bot ∈ c.getLast?, ∀ Q ∈ P, bot = Q ∨ before pos bot Q := by
    intro bot hbot Q hQ
    rw [h.bot] at hbot
    cases P with
    | nil => simp at hQ
    | cons a l =>
      simp only [List.head?_cons, Option.mem_def, Option.some.injEq] at hbot
      subst hbot
      rcases List.mem_cons.1 hQ with hQ' | hQ'
      · exact Or.inl hQ'.symm
      · exact Or.inr ((List.pairwise_cons.1 hPs).1 Q hQ')
  have hnew : ∀ top' ∈ (popInner c T).head?, ∀ Q ∈ P, cross top' T Q ≤ 0 := by
    apply popInner_dominates D P T c hsorted hcP hPT hmin h.dom
    intro top htop Q hQ hrel
    have := hmax top htop Q hQ hrel
    subst this
    unfold cross; linarith [mul_comm (T.X - top.X) (top.Y - T.Y)]
  refine ⟨?_, ?_, ?_, hconv', ?_, ?_⟩
  · rw [List.reverse_cons]
    exact List.Sublist.append (List.IsPrefix.sublist ( List.reverse_prefix.2 hsuf) |>.trans h.sub)
      (List.Sublist.refl _)
  · have hne' := popInner_ne_nil c T hcne
    obtain ⟨y, l, hyl⟩ : ∃ y l, popInner c T = y :: l := by
      cases hpi : popInner c T with
      | nil => exact absurd hpi hne'
      | cons y l => exact ⟨y, l, rfl⟩
    rw [hyl, List.getLast?_cons_cons, ← hyl, popInner_getLast?, h.bot,
      List.head?_append_of_ne_nil _ hne]
  · rw [List.getLast?_concat]; rfl
  · intro Q hQ
    rcases List.mem_append.1 hQ with hQ' | hQ'
    · refine List.chain'_cons'.2 ⟨fun y hy => hnew y hy Q hQ', ?_⟩
      exact (h.dom Q hQ').suffix hsuf
    · rw [List.mem_singleton] at hQ'
      subst hQ'
      refine List.chain'_cons'.2 ⟨fun y _ => (cross_self_right y Q).le, ?_⟩
      apply convex_dominates D Q _ hconv' hsorted'
      intro y hy
      exact Or.inr (hPT y (hmem' y (List.mem_of_mem_head? hy)))
  · intro p hp hn
    have hpT : p ≠ T := fun e => hn (e ▸ List.mem_cons_self _ _)
    have hpc' : p ∉ popInner c T := fun e => hn (List.mem_cons_of_mem _ e)
    have hpP : p ∈ P := by
      rcases List.mem_append.1 hp with h1 | h1
      · exact h1
      · exact absurd (List.mem_singleton.1 h1) hpT
    by_cases hpc : p ∈ c
    · obtain ⟨a, ha, hap, hcr⟩ := popInner_witness pos c T hsorted p hpc hpc'
      exact ⟨a, List.mem_append_left _ (hcP a ha), T, by simp, hap, hPT p hpP, hcr⟩
    · obtain ⟨a, ha, b, hb, hap, hpb, hcr⟩ := h.wit p hpP hpc
      exact ⟨a, List.mem_append_left _ ha, b, List.mem_append_left _ hb, hap, hpb, hcr⟩

/-- The chain invariant holds after the whole loop of a worker thread. -/
theorem chainInv_scan (pts : List Point) {P : List Point} {c : Stack}
    (hP : (P ++ pts).Pairwise (before pos)) (hne : P ≠ []) (h : ChainInv pos P c) :
    ChainInv pos (P ++ pts) (scan c pts) := by
  induction pts generalizing P c with
  | nil => simpa [scan] using h
  | cons T pts ih =>
    rw [scan_cons]
    have e : P ++ T :: pts = (P ++ [T]) ++ pts := by simp
    rw [e] at hP ⊢
    exact ih hP (by simp) (chainInv_step D T (List.pairwise_append.1 hP).1 hne h)

/-- The chain built over a vector `S` that is increasing in the traversal order. -/
theorem chainInv_upperChain (S : List Point) (hS : S.Pairwise (before pos)) :
    ChainInv pos S (upperChain S) := by
  cases S with
  | nil =>
    exact ⟨by simp [upperChain], rfl, rfl, by simp [upperChain, Convex],
      fun Q hQ => absurd hQ (List.not_mem_nil _), fun p hp => absurd hp (List.not_mem_nil _)⟩
  | cons a rest =>
    exact chainInv_scan D rest (P := [a]) hS (by simp) (chainInv_singleton pos a)

end Chain

/-! ## Which points a chain keeps -/

theorem dominates_pair {c : Stack} {Q : Point} (h : Dominates c Q) {l1 l2 : List Point}
    {x y : Point} (hc : c = l1 ++ y :: x :: l2) : cross x y Q ≤ 0 := by
  unfold Dominates at h
  rw [hc] at h
  exact (List.chain'_cons.1 (List.chain'_append.1 h).2.1).1

theorem sorted_pair {pos : ℚ → ℚ → Prop} {c : Stack}
    (h : c.Pairwise (fun y x => before pos x y)) {l1 l2 : List Point}
    {x y : Point} (hc : c = l1 ++ y :: x :: l2) : before pos x y := by
  rw [hc] at h
  exact (List.pairwise_cons.1 (List.pairwise_append.1 h).2.1).1 x (by simp)

theorem head_min {pos : ℚ → ℚ → Prop} {S : List Point} (hS : S.Pairwise (before pos)) {m p : Point}
    (hm : S.head? = some m) (hp : p ∈ S) : m = p ∨ before pos m p := by
  cases S with
  | nil => simp at hp
  | cons a l =>
    simp only [List.head?_cons, Option.some.injEq] at hm
    subst hm
    rcases List.mem_cons.1 hp with h | h
    · exact Or.inl h.symm
    · exact Or.inr ((List.pairwise_cons.1 hS).1 p h)

theorem last_max {pos : ℚ → ℚ → Prop} {S : List Point} (hS : S.Pairwise (before pos)) {m p : Point}
    (hm : S.getLast? = some m) (hp : p ∈ S) : p = m ∨ before pos p m := by
  have hsplit := List.dropLast_append_getLast? m hm
  rw [← hsplit] at hS hp
  rcases List.mem_append.1 hp with h | h
  · exact Or.inr ((List.pairwise_append.1 hS).2.2 p h m (by simp))
  · exact Or.inl (List.mem_singleton.1 h)

section Kept

variable {pos : ℚ → ℚ → Prop} (D : Direction pos)
include D

/-- A point between the bottom and the top of a chain that is not on the chain lies
between two consecutive chain points. -/
theorem spanning_edge (c : Stack) (p : Point)
    (hsorted : c.Pairwise (fun y x => before pos x y)) (hp : p ∉ c)
    (hbot : ∀ bot ∈ c.getLast?, before pos bot p)
    (htop : ∀ top ∈ c.head?, before pos p top) (hne : c ≠ []) :
    ∃ l1 l2 x y, c = l1 ++ y :: x :: l2 ∧ before pos x p ∧ before pos p y := by
  induction c with
  | nil => exact absurd rfl hne
  | cons y below ih =>
    cases below with
    | nil =>
      exact (before_asymm D (hbot y (by simp)) (htop y (by simp))).elim
    | cons x rest =>
      have hpy : before pos p y := htop y (by simp)
      rcases before_total D x p with h | h | h
      · exact ⟨[], rest, x, y, rfl, h, hpy⟩
      · exact absurd (h ▸ (by simp : x ∈ y :: x :: rest)) hp
      · obtain ⟨l1, l2, x', y', hc, h1, h2⟩ :=
          ih (List.pairwise_cons.1 hsorted).2 (fun hm => hp (List.mem_cons_of_mem _ hm))
            (fun bot hb => hbot bot (by rwa [List.getLast?_cons_cons]))
            (fun top ht => by
              simp only [List.head?_cons, Option.mem_def, Option.some.injEq] at ht
              subst ht; exact h)
            (by simp)
        exact ⟨y :: l1, l2, x', y', by rw [hc]; rfl, h1, h2⟩

/-- The chain over `S` consists of exactly the points of `S` that are `Kept`. -/
theorem mem_chain_iff_kept {S : List Point} (hS : S.Pairwise (before pos)) {p : Point}
    (hp : p ∈ S) : p ∈ upperChain S ↔ Kept pos S p := by
  have inv := chainInv_upperChain D S hS
  have hsorted := chainInv_sorted hS inv
  constructor
  · intro hpc a ha b hb hap hpb
    obtain ⟨l1, l2, hc⟩ := List.append_of_mem hpc
    -- an edge of the chain that ends or starts at `p`
    have hedge : ∃ u v, before pos u v ∧ (p = u ∨ p = v) ∧
        cross u v a ≤ 0 ∧ cross u v b ≤ 0 := by
      cases l2 with
      | cons x l2' =>
        exact ⟨x, p, sorted_pair hsorted hc, Or.inr rfl,
          dominates_pair (inv.dom a ha) hc, dominates_pair (inv.dom b hb) hc⟩
      | nil =>
        rcases List.eq_nil_or_concat l1 with h1 | ⟨l1', y, h1⟩
        · -- the chain is `[p]`: then `p` is the first point of `S`, but `a` is before it
          exfalso
          rw [h1] at hc
          have hbot := inv.bot
          rw [hc] at hbot
          simp only [List.nil_append, List.getLast?_singleton] at hbot
          rcases head_min hS hbot.symm ha with h | h
          · rw [h] at hap; exact before_irrefl D a hap
          · exact before_asymm D h hap
        · have hc' : upperChain S = l1' ++ y :: p :: [] := by
            rw [hc, h1]; simp
          exact ⟨p, y, sorted_pair hsorted hc', Or.inl rfl,
            dominates_pair (inv.dom a ha) hc', dominates_pair (inv.dom b hb) hc'⟩
    obtain ⟨u, v, huv, hx, h1, h2⟩ := hedge
    exact turn_vertex D huv hx hap hpb h1 h2
  · intro hk
    by_contra hpc
    obtain ⟨a, ha, b, hb, hap, hpb, hcr⟩ := inv.wit p hp hpc
    exact absurd (hk a ha b hb hap hpb) (not_le.2 hcr)

/-- A chain does not change when points that are not on it are removed from the
vector. -/
theorem upperChain_stable {S S' : List Point} (hS : S.Pairwise (before pos))
    (hS' : S'.Pairwise (before pos)) (hsub : ∀ p ∈ S', p ∈ S)
    (hchain : ∀ p ∈ upperChain S, p ∈ S') : upperChain S' = upperChain S := by
  have inv := chainInv_upperChain D S hS
  have inv' := chainInv_upperChain D S' hS'
  have hsorted := chainInv_sorted hS inv
  have hmem : ∀ p, p ∈ upperChain S' ↔ p ∈ upperChain S := by
    intro p
    constructor
    · intro hp'
      have hpS' : p ∈ S' := chainInv_mem inv' p hp'
      have hpS : p ∈ S := hsub p hpS'
      have hk' : Kept pos S' p := (mem_chain_iff_kept D hS' hpS').1 hp'
      by_contra hpc
      obtain ⟨a, ha, b, hb, hap, hpb, hcr⟩ := inv.wit p hpS hpc
      have hne : upperChain S ≠ [] := by
        intro hnil
        have := inv.top
        rw [hnil] at this
        have h2 : S.getLast? = none := this.symm
        rw [List.getLast?_eq_none_iff] at h2
        rw [h2] at hpS
        simp at hpS
      have hbot : ∀ bot ∈ (upperChain S).getLast?, before pos bot p := by
        intro bot hbot
        rw [inv.bot] at hbot
        rcases head_min hS hbot hpS with h | h
        · exact absurd (h ▸ List.mem_of_mem_getLast? (inv.bot ▸ hbot)) hpc
        · exact h
      have htop : ∀ top ∈ (upperChain S).head?, before pos p top := by
        intro top htop
        rw [inv.top] at htop
        rcases last_max hS htop hpS with h | h
        · exact absurd (h ▸ List.mem_of_mem_head? (inv.top ▸ htop)) hpc
        · exact h
      obtain ⟨l1, l2, x, y, hc, hxp, hpy⟩ :=
        spanning_edge D (upperChain S) p hsorted hpc hbot htop hne
      have hxy := sorted_pair hsorted hc
      have hstrict := turn_strict D hxy hap hpb hcr
        (dominates_pair (inv.dom a ha) hc) (dominates_pair (inv.dom b hb) hc)
      have hx : x ∈ S' := hchain x (by rw [hc]; simp)
      have hy : y ∈ S' := hchain y (by rw [hc]; simp)
      have := hk' x hx y hy hxp hpy
      rw [cross_mid] at this
      linarith
    · intro hp
      have hpS' : p ∈ S' := hchain p hp
      have hpS : p ∈ S := chainInv_mem inv p hp
      have hk : Kept pos S p := (mem_chain_iff_kept D hS hpS).1 hp
      exact (mem_chain_iff_kept D hS' hpS').2
        (fun a ha b hb => hk a (hsub a ha) b (hsub b hb))
  have hnd : ∀ {T : List Point}, T.Pairwise (before pos) → T.Nodup := fun hT =>
    List.Pairwise.imp (fun {a b} (hab : before pos a b) (heq : a = b) =>
      before_irrefl D b (heq ▸ hab)) hT
  haveI : IsAntisymm Point (before pos) :=
    ⟨fun _ _ h1 h2 => (before_asymm D h1 h2).elim⟩
  have h1 : (upperChain S').reverse.Pairwise (before pos) := hS'.sublist inv'.sub
  have h2 : (upperChain S).reverse.Pairwise (before pos) := hS.sublist inv.sub
  have hperm : (upperChain S').reverse.Perm (upperChain S).reverse :=
    (List.perm_ext_iff_of_nodup (hnd h1) (hnd h2)).2 (fun p => by
      rw [List.mem_reverse, List.mem_reverse]; exact hmem p)
  have := List.eq_of_perm_of_sorted hperm h1 h2
  exact List.reverse_injective this

end Kept

/-! ## The two chains of `GrahamScan` and the stitched hull -/

theorem sorted_before_lexPos {S : List Point} (hS : S.Pairwise lexLt) :
    S.Pairwise (before lexPos) :=
  hS.imp (fun h => (before_lexPos _ _).2 h)

theorem sorted_before_lexNeg {S : List Point} (hS : S.Pairwise lexLt) :
    S.reverse.Pairwise (before lexNeg) := by
  rw [List.pairwise_reverse]
  exact hS.imp (fun h => (before_lexNeg _ _).2 h)

theorem upperChain_inv {S : List Point} (hS : S.Pairwise lexLt) :
    ChainInv lexPos S (upperChain S) :=
  chainInv_upperChain lexPos_direction S (sorted_before_lexPos hS)

theorem lowerChain_inv {S : List Point} (hS : S.Pairwise lexLt) :
    ChainInv lexNeg S.reverse (lowerChain S) :=
  chainInv_upperChain lexNeg_direction S.reverse (sorted_before_lexNeg hS)

theorem upperChain_nodup {S : List Point} (hS : S.Pairwise lexLt) :
    (upperChain S).Nodup := by
  have h := (List.reverse_sublist.2 (upperChain_inv hS).sub)
  rw [List.reverse_reverse] at h
  exact (List.nodup_reverse.2 (pairwise_lexLt_nodup hS)).sublist h

theorem lowerChain_nodup {S : List Point} (hS : S.Pairwise lexLt) :
    (lowerChain S).Nodup := by
  have h := (List.reverse_sublist.2 (lowerChain_inv hS).sub)
  rw [List.reverse_reverse, List.reverse_reverse] at h
  exact (pairwise_lexLt_nodup hS).sublist h

theorem mem_upperChain {S : List Point} (hS : S.Pairwise lexLt) {p : Point}
    (hp : p ∈ upperChain S) : p ∈ S :=
  chainInv_mem (upperChain_inv hS) p hp

theorem mem_lowerChain {S : List Point} (hS : S.Pairwise lexLt) {p : Point}
    (hp : p ∈ lowerChain S) : p ∈ S :=
  List.mem_reverse.1 (chainInv_mem (lowerChain_inv hS) p hp)

theorem upperChain_getLast? {S : List Point} (hS : S.Pairwise lexLt) :
    (upperChain S).getLast? = S.head? := (upperChain_inv hS).bot

theorem upperChain_head? {S : List Point} (hS : S.Pairwise lexLt) :
    (upperChain S).head? = S.getLast? := (upperChain_inv hS).top

theorem lowerChain_getLast? {S : List Point} (hS : S.Pairwise lexLt) :
    (lowerChain S).getLast? = S.getLast? := by
  rw [(lowerChain_inv hS).bot, List.head?_reverse]

theorem lowerChain_head? {S : List Point} (hS : S.Pairwise lexLt) :
    (lowerChain S).head? = S.head? := by
  rw [(lowerChain_inv hS).top, List.getLast?_reverse]

theorem mem_stitch {S : List Point} (hS : S.Pairwise lexLt) {p : Point}
    (hp : p ∈ stitch S) : p ∈ S := by
  rcases List.mem_append.1 hp with h | h
  · exact mem_upperChain hS (List.mem_of_mem_dropLast h)
  · exact mem_lowerChain hS h

/-- Every point of the vector is on or to the right of every edge of the stitched
stack (edges directed from an element to the one listed before it). -/
theorem stitch_dominates {S : List Point} (hS : S.Pairwise lexLt) (Q : Point) (hQ : Q ∈ S) :
    Dominates (stitch S) Q := by
  have hU := (upperChain_inv hS).dom Q hQ
  have hL := (lowerChain_inv hS).dom Q (List.mem_reverse.2 hQ)
  unfold Dominates stitch at *
  refine List.chain'_append.2 ⟨ List.Chain'.prefix hU ( List.dropLast_prefix _), hL, ?_⟩
  intro x hx y hy
  rw [lowerChain_head? hS, ← upperChain_getLast? hS] at hy
  have hsplit := List.dropLast_append_getLast? y hy
  rw [← hsplit] at hU
  exact (List.chain'_append.1 hU).2.2 x hx y (by simp)

theorem dominates_get {c : Stack} {Q : Point} (h : Dominates c Q) (i : Nat)
    (hi : i + 1 < c.length) :
    0 ≤ cross (c.get ⟨i, by omega⟩) (c.get ⟨i + 1, hi⟩) Q := by
  have := List.chain'_iff_get.1 h i (by omega)
  rw [cross_swap]
  linarith

theorem upperChain_length {S : List Point} (hS : S.Pairwise lexLt) (hlen : 2 ≤ S.length) :
    2 ≤ (upperChain S).length := by
  have h1 := upperChain_getLast? hS
  have h2 := upperChain_head? hS
  obtain ⟨a, b, rest, rfl⟩ : ∃ a b rest, S = a :: b :: rest := by
    match S, hlen with
    | a :: b :: rest, _ => exact ⟨a, b, rest, rfl⟩
  have hab : (a :: b :: rest).head? ≠ (a :: b :: rest).getLast? := by
    intro e
    have hmem : a ∈ (b :: rest) := by
      have : a ∈ (b :: rest).getLast? := by
        rw [List.getLast?_cons_cons] at e
        simpa using e.symm
      exact List.mem_of_mem_getLast? this
    exact lexLt_irrefl a ((List.pairwise_cons.1 hS).1 a hmem)
  match hU : upperChain (a :: b :: rest) with
  | [] => rw [hU] at h1; simp at h1
  | [x] =>
    rw [hU] at h1 h2
    exact absurd (h1.symm.trans h2) hab
  | x :: y :: l => simp

theorem stitch_head? {S : List Point} (hS : S.Pairwise lexLt) (hlen : 2 ≤ S.length) :
    (stitch S).head? = S.getLast? := by
  have hU := upperChain_length hS hlen
  rw [stitch, List.head?_append, List.head?_dropLast, if_pos (by omega), upperChain_head? hS]
  cases h : S.getLast? with
  | none =>
    rw [List.getLast?_eq_none_iff] at h
    rw [h] at hlen; simp at hlen
  | some r => rfl

theorem stitch_getLast? {S : List Point} (hS : S.Pairwise lexLt) (hlen : 2 ≤ S.length) :
    (stitch S).getLast? = S.getLast? := by
  rw [stitch, List.getLast?_append, lowerChain_getLast? hS]
  cases h : S.getLast? with
  | none =>
    rw [List.getLast?_eq_none_iff] at h
    rw [h] at hlen; simp at hlen
  | some r => rfl

theorem stitch_length {S : List Point} (hS : S.Pairwise lexLt) (hlen : 2 ≤ S.length) :
    3 ≤ (stitch S).length := by
  have hU := upperChain_length hS hlen
  have hL : 2 ≤ (lowerChain S).length := by
    have hne : (lowerChain S).head? ≠ (lowerChain S).getLast? := by
      rw [lowerChain_head? hS, lowerChain_getLast? hS]
      obtain ⟨a, b, rest, rfl⟩ : ∃ a b rest, S = a :: b :: rest := by
        match S, hlen with
        | a :: b :: rest, _ => exact ⟨a, b, rest, rfl⟩
      intro e
      have hmem : a ∈ (b :: rest) := by
        have : a ∈ (b :: rest).getLast? := by
          rw [List.getLast?_cons_cons] at e
          simpa using e.symm
        exact List.mem_of_mem_getLast? this
      exact lexLt_irrefl a ((List.pairwise_cons.1 hS).1 a hmem)
    match hLc : lowerChain S with
    | [] =>
      have h1 := lowerChain_head? hS
      rw [hLc] at h1
      obtain ⟨a, b, rest, rfl⟩ : ∃ a b rest, S = a :: b :: rest := by
        match S, hlen with
        | a :: b :: rest, _ => exact ⟨a, b, rest, rfl⟩
      simp at h1
    | [x] => rw [hLc] at hne; exact absurd rfl hne
    | x :: y :: l => simp
  rw [stitch, List.length_append, List.length_dropLast]
  omega

/-- Every input point is on or to the left of each directed edge of the stitched
hull, listed in output order. -/
theorem stitch_containment (input : List Point) (Q : Point) (hQ : Q ∈ input) (i : Nat)
    (hi : i + 1 < (stitch (preprocess input)).length) :
    0 ≤ cross ((stitch (preprocess input)).get ⟨i, by omega⟩)
      ((stitch (preprocess input)).get ⟨i + 1, hi⟩) Q :=
  dominates_get
    (stitch_dominates (preprocess_sorted input) Q ((mem_preprocess input Q).2 hQ)) i hi

theorem stitch_turn (input : List Point) (i : Nat)
    (hi : i + 2 < (stitch (preprocess input)).length) :
    0 ≤ cross ((stitch (preprocess input)).get ⟨i, by omega⟩)
      ((stitch (preprocess input)).get ⟨i + 1, by omega⟩)
      ((stitch (preprocess input)).get ⟨i + 2, hi⟩) := by
  apply stitch_containment input _ _ i
  exact (mem_preprocess input _).1 (mem_stitch (preprocess_sorted input) (List.get_mem _ _ _))

theorem get_zero_eq_get_last {H : List Point} (hc : H.head? = H.getLast?)
    (h0 : 0 < H.length) : H.get ⟨0, h0⟩ = H.get ⟨H.length - 1, by omega⟩ := by
  cases H with
  | nil => simp at h0
  | cons a l =>
    have h1 : (a :: l).getLast? = some ((a :: l).get ⟨(a :: l).length - 1, by simp⟩) := by
      rw [List.getLast?_eq_getElem?]
      simp
    rw [h1] at hc
    simpa using hc

/-- In a closed list (first element repeated at the end) whose consecutive triples
never turn right, the wrap-around triples never turn right either. -/
theorem cyclic_turn {H : List Point} (hc : H.head? = H.getLast?)
    (hreg : ∀ (i : Nat) (hi : i + 2 < H.length),
      0 ≤ cross (H.get ⟨i, by omega⟩) (H.get ⟨i + 1, by omega⟩) (H.get ⟨i + 2, hi⟩))
    (i : Nat) (hi : i < H.length) :
    0 ≤ cross (H.get ⟨i, hi⟩) (H.get ⟨(i + 1) % H.length, Nat.mod_lt _ (by omega)⟩)
      (H.get ⟨(i + 2) % H.length, Nat.mod_lt _ (by omega)⟩) := by
  have hclosed := get_zero_eq_get_last hc (by omega)
  have key : ∀ (j k : Nat) (hj : j < H.length) (hk : k < H.length),
      j = (i + 1) % H.length → k = (i + 2) % H.length →
      0 ≤ cross (H.get ⟨i, hi⟩) (H.get ⟨j, hj⟩) (H.get ⟨k, hk⟩) := by
    intro j k hj hk ej ek
    by_cases h2 : i + 2 < H.length
    · rw [Nat.mod_eq_of_lt (by omega)] at ej ek
      subst ej ek
      exact hreg i h2
    · by_cases h1 : i + 1 < H.length
      · have hk0 : k = 0 := by
          have : i + 2 = H.length := by omega
          rw [ek, this, Nat.mod_self]
        rw [Nat.mod_eq_of_lt h1] at ej
        subst ej hk0
        have hlast : (⟨i + 1, hj⟩ : Fin H.length) = ⟨H.length - 1, by omega⟩ :=
          Fin.ext (by simp only; omega)
        rw [hclosed, hlast, cross_self_right]
      · have hj0 : j = 0 := by
          have : i + 1 = H.length := by omega
          rw [ej, this, Nat.mod_self]
        subst hj0
        have hlast : (⟨i, hi⟩ : Fin H.length) = ⟨H.length - 1, by omega⟩ :=
          Fin.ext (by simp only; omega)
        rw [hclosed, hlast, cross_self_left]
  exact key _ _ _ _ rfl rfl

theorem stitch_count_left {S : List Point} (hS : S.Pairwise lexLt) {left : Point}
    (hleft : S.head? = some left) : (stitch S).count left = 1 := by
  have hUl : left ∈ (upperChain S).getLast? := by
    rw [upperChain_getLast? hS, hleft]; rfl
  have hsplit := List.dropLast_append_getLast? left hUl
  have hnd := upperChain_nodup hS
  rw [← hsplit] at hnd
  have hnot : left ∉ (upperChain S).dropLast := by
    intro hm
    exact (List.nodup_append.1 hnd).2.2 hm (by simp)
  have hL : left ∈ lowerChain S := by
    apply List.mem_of_mem_head?
    rw [lowerChain_head? hS, hleft]; rfl
  rw [stitch, List.count_append, List.count_eq_zero_of_not_mem hnot,
    List.count_eq_one_of_mem (lowerChain_nodup hS) hL]

theorem stitch_count_right {S : List Point} (hS : S.Pairwise lexLt) (hlen : 2 ≤ S.length)
    {right : Point} (hright : S.getLast? = some right) : (stitch S).count right = 2 := by
  have hU := upperChain_length hS hlen
  have hUr : right ∈ (upperChain S).dropLast := by
    apply List.mem_of_mem_head?
    rw [List.head?_dropLast, if_pos (by omega), upperChain_head? hS, hright]; rfl
  have hnd : ((upperChain S).dropLast).Nodup :=
    (upperChain_nodup hS).sublist (List.IsPrefix.sublist ( List.dropLast_prefix _))
  have hL : right ∈ lowerChain S := by
    apply List.mem_of_mem_getLast?
    rw [lowerChain_getLast? hS, hright]; rfl
  rw [stitch, List.count_append, List.count_eq_one_of_mem hnd hUr,
    List.count_eq_one_of_mem (lowerChain_nodup hS) hL]

theorem mem_stitch_of_upper {S : List Point} (hS : S.Pairwise lexLt) {p : Point}
    (hp : p ∈ upperChain S) : p ∈ stitch S := by
  obtain ⟨bot, hbot⟩ : ∃ bot, (upperChain S).getLast? = some bot := by
    cases h : (upperChain S).getLast? with
    | none =>
      rw [List.getLast?_eq_none_iff] at h
      rw [h] at hp; simp at hp
    | some b => exact ⟨b, rfl⟩
  have hsplit := List.dropLast_append_getLast? bot hbot
  rw [← hsplit] at hp
  rcases List.mem_append.1 hp with h | h
  · exact List.mem_append_left _ h
  · rw [List.mem_singleton] at h
    subst h
    apply List.mem_append_right
    apply List.mem_of_mem_head?
    rw [lowerChain_head? hS, ← upperChain_getLast? hS, hbot]; rfl

theorem mem_stitch_of_lower {S : List Point} {p : Point}
    (hp : p ∈ lowerChain S) : p ∈ stitch S :=
  List.mem_append_right _ hp

/-- The stitched hull of the sorted points of a stitched hull is that hull. -/
theorem stitch_preprocess_stitch (input : List Point)
    (hlen : 2 ≤ (preprocess input).length) :
    2 ≤ (preprocess (stitch (preprocess input))).length ∧
      stitch (preprocess (stitch (preprocess input))) = stitch (preprocess input) := by
  have hS := preprocess_sorted input
  have hS' := preprocess_sorted (stitch (preprocess input))
  have hsub : ∀ p ∈ preprocess (stitch (preprocess input)), p ∈ preprocess input :=
    fun p hp => mem_stitch hS ((mem_preprocess _ p).1 hp)
  have hup : ∀ p ∈ upperChain (preprocess input),
      p ∈ preprocess (stitch (preprocess input)) :=
    fun p hp => (mem_preprocess _ p).2 (mem_stitch_of_upper hS hp)
  have hlow : ∀ p ∈ lowerChain (preprocess input),
      p ∈ preprocess (stitch (preprocess input)) :=
    fun p hp => (mem_preprocess _ p).2 (mem_stitch_of_lower hp)
  constructor
  · have h1 := upperChain_length hS hlen
    have h2 := (List.subperm_of_subset (upperChain_nodup hS) hup).length_le
    omega
  · have e1 : upperChain (preprocess (stitch (preprocess input)))
        = upperChain (preprocess input) :=
      upperChain_stable lexPos_direction (sorted_before_lexPos hS)
        (sorted_before_lexPos hS') hsub hup
    have e2 : lowerChain (preprocess (stitch (preprocess input)))
        = lowerChain (preprocess input) :=
      upperChain_stable lexNeg_direction (sorted_before_lexNeg hS)
        (sorted_before_lexNeg hS')
        (fun p hp => List.mem_reverse.2 (hsub p (List.mem_reverse.1 hp)))
        (fun p hp => List.mem_reverse.2 (hlow p hp))
    rw [stitch, e1, e2, ← stitch]

theorem cross_reverse (A B C : Point) : cross C B A = - cross A B C := by
  unfold cross; ring

/-- In a closed list (first element repeated at the end) with every element on or to
the left of every edge, the polygon of the list without its last element turns
nowhere to the right, the two vertices at the junction included. -/
theorem cyclic_turn_open {H : List Point} (hc : H.head? = H.getLast?) (h3 : 3 ≤ H.length)
    (hedge : ∀ Q ∈ H, ∀ (i : Nat) (hi : i + 1 < H.length),
      0 ≤ cross (H.get ⟨i, by omega⟩) (H.get ⟨i + 1, hi⟩) Q)
    (i : Nat) (hi : i < H.dropLast.length) :
    0 ≤ cross (H.dropLast.get ⟨i, hi⟩)
      (H.dropLast.get ⟨(i + 1) % H.dropLast.length, Nat.mod_lt _ (by omega)⟩)
      (H.dropLast.get ⟨(i + 2) % H.dropLast.length, Nat.mod_lt _ (by omega)⟩) := by
  have hclosed := get_zero_eq_get_last hc (by omega)
  have hn : H.dropLast.length = H.length - 1 := List.length_dropLast H
  have hget : ∀ (j : Nat) (hj : j < H.dropLast.length),
      H.dropLast.get ⟨j, hj⟩ = H.get ⟨j, by omega⟩ := by
    intro j hj
    simp only [List.get_eq_getElem]
    exact List.getElem_dropLast H j hj
  have key : ∀ (j k : Nat) (hj : j < H.dropLast.length) (hk : k < H.dropLast.length),
      j = (i + 1) % H.dropLast.length → k = (i + 2) % H.dropLast.length →
      0 ≤ cross (H.dropLast.get ⟨i, hi⟩) (H.dropLast.get ⟨j, hj⟩)
        (H.dropLast.get ⟨k, hk⟩) := by
    intro j k hj hk ej ek
    rw [hget i hi, hget j hj, hget k hk]
    by_cases h1 : i + 1 < H.dropLast.length
    · rw [Nat.mod_eq_of_lt h1] at ej
      subst ej
      exact hedge _ (List.get_mem _ _ _) i (by omega)
    · have hi1 : i + 1 = H.dropLast.length := by omega
      have hj0 : j = 0 := by rw [ej, hi1, Nat.mod_self]
      have hk1 : k = 1 := by
        have e : i + 2 = H.dropLast.length + 1 := by omega
        rw [ek, e, Nat.add_mod_left, Nat.mod_eq_of_lt (by omega)]
      subst hj0 hk1
      have hlast : (⟨i + 1, by omega⟩ : Fin H.length) = ⟨H.length - 1, by omega⟩ :=
        Fin.ext (by simp only; omega)
      rw [hclosed, ← hlast]
      exact hedge _ (List.get_mem _ _ _) i (by omega)
  exact key _ _ _ _ rfl rfl

/-- Every point of the stitched hull is on or to the left of each of its edges. -/
theorem stitch_edges (input : List Point) :
    ∀ Q ∈ stitch (preprocess input), ∀ (i : Nat)
      (hi : i + 1 < (stitch (preprocess input)).length),
      0 ≤ cross ((stitch (preprocess input)).get ⟨i, by omega⟩)
        ((stitch (preprocess input)).get ⟨i + 1, hi⟩) Q :=
  fun Q hQ i hi => stitch_containment input Q
    ((mem_preprocess input Q).1 (mem_stitch (preprocess_sorted input) hQ)) i hi

/-- Where the turn value of `A → B → C` is not negative and the test of the code is
exact, the test on the reversed triple fails. -/
theorem IsSidePositive_reverse_of_exactOn {input : List Point} (hex : ExactOn input)
    {A B C : Point} (hA : A ∈ input) (hB : B ∈ input) (hC : C ∈ input)
    (h : 0 ≤ cross A B C) : IsSidePositive (C, B) A = false := by
  rw [hex C hC B hB A hA, cross_reverse]
  simp
  linarith

/-! ## What `GrahamScan` returns -/

/-- What `GrahamScan` returns, in terms of the sorted vector. -/
theorem GrahamScan_some (input : List Point) (h : 2 ≤ input.toFinset.card) :
    GrahamScan input = some (stitchBy floatTest (preprocess input)) :=
  GrahamScan_eq_stitch input (by rw [preprocess_length]; exact h)

theorem GrahamScan_some_inv {input H : List Point} (h : GrahamScan input = some H) :
    2 ≤ (preprocess input).length ∧ H = stitchBy floatTest (preprocess input) := by
  by_cases hlen : 2 ≤ (preprocess input).length
  · rw [GrahamScan_eq_stitch input hlen] at h
    exact ⟨hlen, (Option.some.inj h).symm⟩
  · rw [GrahamScan_eq_none input (by omega)] at h
    exact absurd h (by simp)

theorem exactOn_preprocess {input : List Point} (h : ExactOn input) :
    ExactOn (preprocess input) :=
  fun a ha b hb q hq => h a ((mem_preprocess input a).1 ha) b ((mem_preprocess input b).1 hb)
    q ((mem_preprocess input q).1 hq)

/-- Where the `float` test is exact on the input points, the stitched hull of the code
is the one of the exact test. -/
theorem stitchBy_floatTest_of_exactOn {input : List Point} (h : ExactOn input) :
    stitchBy floatTest (preprocess input) = stitch (preprocess input) := by
  rw [← stitchBy_exactTest]
  exact stitchBy_congr floatTest exactTest _ (floatTest_eq_exactTest (exactOn_preprocess h))

theorem GrahamScan_exact (input : List Point) (h : 2 ≤ input.toFinset.card)
    (hex : ExactOn input) : GrahamScan input = some (stitch (preprocess input)) := by
  rw [GrahamScan_some input h, stitchBy_floatTest_of_exactOn hex]

/-! ## Claims -/

/-- C1, as stated, fails: the three points `(-1,0)`, `(16777216,1)`, `(33554432,2)` have
`float` coordinates, the difference `16777216 - (-1)` rounds to `16777216`, the
orientation test finds no turn, nothing is popped, and the input point `(-1,0)` is
strictly to the right of the first edge `(33554432,2) → (16777216,1)` of the output:
the turn value is `-1`. -/
theorem GrahamScan_containment_counterexample :
    (∀ p ∈ ([⟨-1, 0⟩, ⟨16777216, 1⟩, ⟨33554432, 2⟩] : List Point), FloatPoint p) ∧
    3 ≤ ([⟨-1, 0⟩, ⟨16777216, 1⟩, ⟨33554432, 2⟩] : List Point).toFinset.card ∧
    ∃ H, GrahamScan [⟨-1, 0⟩, ⟨16777216, 1⟩, ⟨33554432, 2⟩] = some H ∧
      H = [⟨33554432, 2⟩, ⟨16777216, 1⟩, ⟨-1, 0⟩, ⟨16777216, 1⟩, ⟨33554432, 2⟩] ∧
      ∃ Q ∈ ([⟨-1, 0⟩, ⟨16777216, 1⟩, ⟨33554432, 2⟩] : List Point),
        ∃ (i : Nat) (hi : i + 1 < H.length),
          cross (H.get ⟨i, by omega⟩) (H.get ⟨i + 1, hi⟩) Q < 0 :=
  ⟨by decide!, by decide!,
    [⟨33554432, 2⟩, ⟨16777216, 1⟩, ⟨-1, 0⟩, ⟨16777216, 1⟩, ⟨33554432, 2⟩],
    by decide!, rfl, ⟨-1, 0⟩, by simp, 0, by decide, by decide!⟩

/-- C1 (amended): for an input with at least 3 distinct points on which the
orientation test of the code returns the exact sign of the turn value (as it does when
no `float` operation of the test rounds, for instance for integer coordinates of
absolute value at most 1024), `GrahamScan` returns a hull `H`, and every input point
`Q` is on or to the left of every directed edge `H[i] → H[i+1]` of consecutive output
points: the turn value `(B.X-A.X)*(Q.Y-B.Y) - (B.Y-A.Y)*(Q.X-B.X)` is non-negative. -/
theorem GrahamScan_containment (input : List Point) (h : 3 ≤ input.toFinset.card)
    (hex : ExactOn input) :
    ∃ H, GrahamScan input = some H ∧
      ∀ Q ∈ input, ∀ (i : Nat) (hi : i + 1 < H.length),
        0 ≤ cross (H.get ⟨i, by omega⟩) (H.get ⟨i + 1, hi⟩) Q :=
  ⟨stitch (preprocess input), GrahamScan_exact input (by omega) hex,
    fun Q hQ i hi => stitch_containment input Q hQ i hi⟩

theorem GrahamScan_containment_witness :
    3 ≤ ([⟨0, 0⟩, ⟨4, 0⟩, ⟨2, 1⟩, ⟨2, 3⟩, ⟨1/2, 1/2⟩] : List Point).toFinset.card ∧
    ExactOn [⟨0, 0⟩, ⟨4, 0⟩, ⟨2, 1⟩, ⟨2, 3⟩, ⟨1/2, 1/2⟩] ∧
    ∃ H, GrahamScan [⟨0, 0⟩, ⟨4, 0⟩, ⟨2, 1⟩, ⟨2, 3⟩, ⟨1/2, 1/2⟩] = some H ∧
      ∀ Q ∈ ([⟨0, 0⟩, ⟨4, 0⟩, ⟨2, 1⟩, ⟨2, 3⟩, ⟨1/2, 1/2⟩] : List Point),
        ∀ (i : Nat) (hi : i + 1 < H.length),
          0 ≤ cross (H.get ⟨i, by omega⟩) (H.get ⟨i + 1, hi⟩) Q :=
  ⟨by decide!, by decide!, GrahamScan_containment _ (by decide!) (by decide!)⟩

/-- C2, as stated, fails: on the `float` points `(-1,0)`, `(16777216,1)`,
`(33554432,2)` the output is `(33554432,2), (16777216,1), (-1,0), (16777216,1),
(33554432,2)`, and its first three points make a clockwise turn: the turn value of
`(33554432,2) → (16777216,1) → (-1,0)` is `-1`. -/
theorem GrahamScan_counterClockwise_counterexample :
    (∀ p ∈ ([⟨-1, 0⟩, ⟨16777216, 1⟩, ⟨33554432, 2⟩] : List Point), FloatPoint p) ∧
    3 ≤ ([⟨-1, 0⟩, ⟨16777216, 1⟩, ⟨33554432, 2⟩] : List Point).toFinset.card ∧
    ∃ H, GrahamScan [⟨-1, 0⟩, ⟨16777216, 1⟩, ⟨33554432, 2⟩] = some H ∧
      ∃ (i : Nat) (hi : i + 2 < H.length),
        cross (H.get ⟨i, by omega⟩) (H.get ⟨i + 1, by omega⟩) (H.get ⟨i + 2, hi⟩) = -1 :=
  ⟨by decide!, by decide!,
    [⟨33554432, 2⟩, ⟨16777216, 1⟩, ⟨-1, 0⟩, ⟨16777216, 1⟩, ⟨33554432, 2⟩],
    by decide!, 0, by decide, by decide!⟩

/-- C2 (amended): for an input with at least 3 distinct points on which the
orientation test of the code returns the exact sign of the turn value, `GrahamScan`
returns a sequence `H` in which no three consecutive points `H[i], H[i+1], H[i+2]`
make a clockwise turn: the turn value is non-negative. -/
theorem GrahamScan_counterClockwise (input : List Point) (h : 3 ≤ input.toFinset.card)
    (hex : ExactOn input) :
    ∃ H, GrahamScan input = some H ∧
      ∀ (i : Nat) (hi : i + 2 < H.length),
        0 ≤ cross (H.get ⟨i, by omega⟩) (H.get ⟨i + 1, by omega⟩) (H.get ⟨i + 2, hi⟩) :=
  ⟨stitch (preprocess input), GrahamScan_exact input (by omega) hex,
    fun i hi => stitch_turn input i hi⟩

theorem GrahamScan_counterClockwise_witness :
    3 ≤ ([⟨0, 0⟩, ⟨1, 0⟩, ⟨1, 1⟩, ⟨0, 1⟩, ⟨1/2, 1/4⟩] : List Point).toFinset.card ∧
    ExactOn [⟨0, 0⟩, ⟨1, 0⟩, ⟨1, 1⟩, ⟨0, 1⟩, ⟨1/2, 1/4⟩] ∧
    ∃ H, GrahamScan [⟨0, 0⟩, ⟨1, 0⟩, ⟨1, 1⟩, ⟨0, 1⟩, ⟨1/2, 1/4⟩] = some H ∧
      ∀ (i : Nat) (hi : i + 2 < H.length),
        0 ≤ cross (H.get ⟨i, by omega⟩) (H.get ⟨i + 1, by omega⟩) (H.get ⟨i + 2, hi⟩) :=
  ⟨by decide!, by decide!, GrahamScan_counterClockwise _ (by decide!) (by decide!)⟩

/-- C3, as stated, fails: on the unit square the output hull has 5 points and its
consecutive triple `(1,1), (0,1), (0,0)` at positions 0, 1, 2 is a strict left turn
under the orientation test. -/
theorem GrahamScan_leftTurn_counterexample :
    ∃ H, GrahamScan [⟨0, 0⟩, ⟨1, 0⟩, ⟨1, 1⟩, ⟨0, 1⟩] = some H ∧ 3 ≤ H.length ∧
      ∃ (i : Nat) (hi : i + 2 < H.length),
        IsSidePositive (H.get ⟨i, by omega⟩, H.get ⟨i + 1, by omega⟩) (H.get ⟨i + 2, hi⟩)
          = true :=
  ⟨[⟨1, 1⟩, ⟨0, 1⟩, ⟨0, 0⟩, ⟨1, 0⟩, ⟨1, 1⟩], by decide!, by decide, 0, by decide,
    by decide!⟩

/-- C3 (amended): for every input on which the orientation test of the code returns
the exact sign of the turn value and whose output hull `H` has at least 3 points, no
cyclically consecutive triple `(A, B, C)` is a strict right turn: the turn value of
`A → B → C` is non-negative and the orientation test `IsSidePositive(Edge(C, B), A)`
on the reversed triple is false. This holds for the triples of `H` as it is returned
(closed: the last point repeats the first) and for the triples of the polygon itself,
`H` without its repeated last point, the two triples around the junction of the last
vertex and the first one included. -/
theorem GrahamScan_cyclic_no_right_turn (input H : List Point)
    (hH : GrahamScan input = some H) (h3 : 3 ≤ H.length) (hex : ExactOn input) :
    (∀ (i : Nat) (hi : i < H.length),
      0 ≤ cross (H.get ⟨i, hi⟩) (H.get ⟨(i + 1) % H.length, Nat.mod_lt _ (by omega)⟩)
          (H.get ⟨(i + 2) % H.length, Nat.mod_lt _ (by omega)⟩) ∧
        IsSidePositive (H.get ⟨(i + 2) % H.length, Nat.mod_lt _ (by omega)⟩,
          H.get ⟨(i + 1) % H.length, Nat.mod_lt _ (by omega)⟩) (H.get ⟨i, hi⟩) = false) ∧
    (∀ (i : Nat) (hi : i < H.dropLast.length),
      0 ≤ cross (H.dropLast.get ⟨i, hi⟩)
          (H.dropLast.get ⟨(i + 1) % H.dropLast.length, Nat.mod_lt _ (by omega)⟩)
          (H.dropLast.get ⟨(i + 2) % H.dropLast.length, Nat.mod_lt _ (by omega)⟩) ∧
        IsSidePositive
          (H.dropLast.get ⟨(i + 2) % H.dropLast.length, Nat.mod_lt _ (by omega)⟩,
            H.dropLast.get ⟨(i + 1) % H.dropLast.length, Nat.mod_lt _ (by omega)⟩)
          (H.dropLast.get ⟨i, hi⟩) = false) := by
  obtain ⟨hlen, hHf⟩ := GrahamScan_some_inv hH
  have hHe : H = stitch (preprocess input) := by
    rw [hHf, stitchBy_floatTest_of_exactOn hex]
  subst hHe
  have hS := preprocess_sorted input
  have hc : (stitch (preprocess input)).head? = (stitch (preprocess input)).getLast? := by
    rw [stitch_head? hS hlen, stitch_getLast? hS hlen]
  have hmem : ∀ p ∈ stitch (preprocess input), p ∈ input := fun p hp =>
    (mem_preprocess input p).1 (mem_stitch hS hp)
  have hmemd : ∀ p ∈ (stitch (preprocess input)).dropLast, p ∈ input := fun p hp =>
    hmem p (List.mem_of_mem_dropLast hp)
  constructor
  · intro i hi
    have hcyc := cyclic_turn hc (fun i hi => stitch_turn input i hi) i hi
    exact ⟨hcyc, IsSidePositive_reverse_of_exactOn hex (hmem _ (List.get_mem _ _ _))
      (hmem _ (List.get_mem _ _ _)) (hmem _ (List.get_mem _ _ _)) hcyc⟩
  · intro i hi
    have hcyc := cyclic_turn_open hc h3 (stitch_edges input) i hi
    exact ⟨hcyc, IsSidePositive_reverse_of_exactOn hex (hmemd _ (List.get_mem _ _ _))
      (hmemd _ (List.get_mem _ _ _)) (hmemd _ (List.get_mem _ _ _)) hcyc⟩

theorem GrahamScan_cyclic_no_right_turn_witness :
    GrahamScan [⟨0, 0⟩, ⟨1, 0⟩, ⟨1, 1⟩, ⟨0, 1⟩]
        = some [⟨1, 1⟩, ⟨0, 1⟩, ⟨0, 0⟩, ⟨1, 0⟩, ⟨1, 1⟩] ∧
      3 ≤ ([⟨1, 1⟩, ⟨0, 1⟩, ⟨0, 0⟩, ⟨1, 0⟩, ⟨1, 1⟩] : List Point).length ∧
      ExactOn [⟨0, 0⟩, ⟨1, 0⟩, ⟨1, 1⟩, ⟨0, 1⟩] ∧
      (0 ≤ cross ⟨1, 0⟩ ⟨1, 1⟩ ⟨0, 1⟩ ∧
        IsSidePositive (⟨0, 1⟩, ⟨1, 1⟩) ⟨1, 0⟩ = false) ∧
      (0 ≤ cross ⟨0, 0⟩ ⟨1, 0⟩ ⟨1, 1⟩ ∧
        IsSidePositive (⟨1, 1⟩, ⟨1, 0⟩) ⟨0, 0⟩ = false) :=
  ⟨by decide!, by decide, by decide!,
    (GrahamScan_cyclic_no_right_turn [⟨0, 0⟩, ⟨1, 0⟩, ⟨1, 1⟩, ⟨0, 1⟩]
      [⟨1, 1⟩, ⟨0, 1⟩, ⟨0, 0⟩, ⟨1, 0⟩, ⟨1, 1⟩] (by decide!) (by decide) (by decide!)).2
        3 (by decide),
    (GrahamScan_cyclic_no_right_turn [⟨0, 0⟩, ⟨1, 0⟩, ⟨1, 1⟩, ⟨0, 1⟩]
      [⟨1, 1⟩, ⟨0, 1⟩, ⟨0, 0⟩, ⟨1, 0⟩, ⟨1, 1⟩] (by decide!) (by decide) (by decide!)).2
        2 (by decide)⟩

/-- C4, as stated, fails: on a triangle the first and the last element of the output
are the same point `(2,0)`, the rightmost point, which occurs twice. -/
theorem GrahamScan_junction_counterexample :
    GrahamScan [⟨0, 0⟩, ⟨2, 0⟩, ⟨1, 1⟩] = some [⟨2, 0⟩, ⟨1, 1⟩, ⟨0, 0⟩, ⟨2, 0⟩] ∧
      ([⟨2, 0⟩, ⟨1, 1⟩, ⟨0, 0⟩, ⟨2, 0⟩] : List Point).head?
        = ([⟨2, 0⟩, ⟨1, 1⟩, ⟨0, 0⟩, ⟨2, 0⟩] : List Point).getLast? ∧
      ([⟨2, 0⟩, ⟨1, 1⟩, ⟨0, 0⟩, ⟨2, 0⟩] : List Point).count ⟨2, 0⟩ = 2 := by
  decide!

/-- C4 (amended): for an input with at least 3 distinct points the sequence returned
by `GrahamScan` is closed explicitly: its first and its last element are both the
rightmost point `sorted[last]`, which occurs exactly twice in it, and the leftmost
point `sorted[0]` occurs exactly once. -/
theorem GrahamScan_closed (input : List Point) (h : 3 ≤ input.toFinset.card) :
    ∃ H left right, GrahamScan input = some H ∧
      (preprocess input).head? = some left ∧ (preprocess input).getLast? = some right ∧
      H.head? = some right ∧ H.getLast? = some right ∧
      H.count left = 1 ∧ H.count right = 2 := by
  have hlen : 2 ≤ (preprocess input).length := by rw [preprocess_length]; omega
  have hS := preprocess_sorted input
  obtain ⟨left, hleft⟩ : ∃ left, (preprocess input).head? = some left := by
    cases hps : preprocess input with
    | nil => rw [hps] at hlen; simp at hlen
    | cons a l => exact ⟨a, rfl⟩
  obtain ⟨right, hright⟩ : ∃ right, (preprocess input).getLast? = some right := by
    cases hr : (preprocess input).getLast? with
    | none =>
      rw [List.getLast?_eq_none_iff] at hr
      rw [hr] at hlen; simp at hlen
    | some r => exact ⟨r, rfl⟩
  refine ⟨stitchBy floatTest (preprocess input), left, right, GrahamScan_some input (by omega),
    hleft, hright, ?_, ?_, stitchBy_count_left floatTest hS hleft, stitchBy_count_right floatTest hS hlen hright⟩
  · rw [stitchBy_head? floatTest hS hlen, hright]
  · rw [stitchBy_getLast? floatTest hS hlen, hright]

theorem GrahamScan_closed_witness :
    3 ≤ ([⟨0, 0⟩, ⟨2, 0⟩, ⟨1, 1⟩, ⟨1, 1/2⟩] : List Point).toFinset.card ∧
    ∃ H left right, GrahamScan [⟨0, 0⟩, ⟨2, 0⟩, ⟨1, 1⟩, ⟨1, 1/2⟩] = some H ∧
      (preprocess [⟨0, 0⟩, ⟨2, 0⟩, ⟨1, 1⟩, ⟨1, 1/2⟩]).head? = some left ∧
      (preprocess [⟨0, 0⟩, ⟨2, 0⟩, ⟨1, 1⟩, ⟨1, 1/2⟩]).getLast? = some right ∧
      H.head? = some right ∧ H.getLast? = some right ∧
      H.count left = 1 ∧ H.count right = 2 :=
  ⟨by decide!, GrahamScan_closed _ (by decide!)⟩

/-- C5, as stated, fails: on the unit square `GrahamScan` does not return the
four-element sequence that starts at `(0,0)`. -/
theorem GrahamScan_square_counterexample :
    GrahamScan [⟨0, 0⟩, ⟨1, 0⟩, ⟨1, 1⟩, ⟨0, 1⟩]
      ≠ some [⟨0, 0⟩, ⟨1, 0⟩, ⟨1, 1⟩, ⟨0, 1⟩] := by
  decide!

/-- C5 (amended): on the unit square `GrahamScan` returns the five-element sequence
`(1,1), (0,1), (0,0), (1,0), (1,1)`: the four corners in counter-clockwise order
starting from the rightmost-highest point `(1,1)`, which is repeated at the end. -/
theorem GrahamScan_square :
    GrahamScan [⟨0, 0⟩, ⟨1, 0⟩, ⟨1, 1⟩, ⟨0, 1⟩]
      = some [⟨1, 1⟩, ⟨0, 1⟩, ⟨0, 0⟩, ⟨1, 0⟩, ⟨1, 1⟩] := by
  decide!

/-- C6 (order independence): for an input `P` with at least 2 distinct points and
every permutation `P'` of `P`, `GrahamScan` returns a hull on `P`, and the same hull
(same points, same order) on `P'`. -/
theorem GrahamScan_perm (P P' : List Point) (h : 2 ≤ P.toFinset.card) (hperm : P'.Perm P) :
    ∃ H, GrahamScan P = some H ∧ GrahamScan P' = some H := by
  have hpre : preprocess P' = preprocess P := preprocess_congr (fun p => hperm.mem_iff)
  refine ⟨stitchBy floatTest (preprocess P), GrahamScan_some P h, ?_⟩
  rw [← hpre]
  apply GrahamScan_eq_stitch
  rw [hpre, preprocess_length]
  exact h

theorem GrahamScan_perm_witness :
    2 ≤ ([⟨0, 0⟩, ⟨2, 0⟩, ⟨1, 1⟩, ⟨1, -1⟩] : List Point).toFinset.card ∧
    ([⟨1, -1⟩, ⟨1, 1⟩, ⟨0, 0⟩, ⟨2, 0⟩] : List Point).Perm
      [⟨0, 0⟩, ⟨2, 0⟩, ⟨1, 1⟩, ⟨1, -1⟩] ∧
    ∃ H, GrahamScan [⟨0, 0⟩, ⟨2, 0⟩, ⟨1, 1⟩, ⟨1, -1⟩] = some H ∧
      GrahamScan [⟨1, -1⟩, ⟨1, 1⟩, ⟨0, 0⟩, ⟨2, 0⟩] = some H :=
  ⟨by decide!, by decide!, GrahamScan_perm _ _ (by decide!) (by decide!)⟩

/-- C7 (duplicate insensitivity): for an input `P` with at least 2 distinct points
and every list `P'` obtained from `P` by inserting further copies of points of `P`
(`P` is a sublist of `P'` and every element of `P'` occurs in `P`), `GrahamScan`
returns a hull on `P`, and the same hull on `P'`. -/
theorem GrahamScan_duplicates (P P' : List Point) (h : 2 ≤ P.toFinset.card)
    (hsub : P.Sublist P') (hmem : ∀ p ∈ P', p ∈ P) :
    ∃ H, GrahamScan P = some H ∧ GrahamScan P' = some H := by
  have hpre : preprocess P' = preprocess P :=
    preprocess_congr (fun p => ⟨hmem p, fun hp => hsub.subset hp⟩)
  refine ⟨stitchBy floatTest (preprocess P), GrahamScan_some P h, ?_⟩
  rw [← hpre]
  apply GrahamScan_eq_stitch
  rw [hpre, preprocess_length]
  exact h

theorem GrahamScan_duplicates_witness :
    2 ≤ ([⟨0, 0⟩, ⟨2, 0⟩, ⟨1, 1⟩] : List Point).toFinset.card ∧
    ([⟨0, 0⟩, ⟨2, 0⟩, ⟨1, 1⟩] : List Point).Sublist
      [⟨1, 1⟩, ⟨0, 0⟩, ⟨2, 0⟩, ⟨2, 0⟩, ⟨1, 1⟩, ⟨0, 0⟩] ∧
    (∀ p ∈ ([⟨1, 1⟩, ⟨0, 0⟩, ⟨2, 0⟩, ⟨2, 0⟩, ⟨1, 1⟩, ⟨0, 0⟩] : List Point),
      p ∈ ([⟨0, 0⟩, ⟨2, 0⟩, ⟨1, 1⟩] : List Point)) ∧
    ∃ H, GrahamScan [⟨0, 0⟩, ⟨2, 0⟩, ⟨1, 1⟩] = some H ∧
      GrahamScan [⟨1, 1⟩, ⟨0, 0⟩, ⟨2, 0⟩, ⟨2, 0⟩, ⟨1, 1⟩, ⟨0, 0⟩] = some H :=
  ⟨by decide!, by decide!, by decide!,
    GrahamScan_duplicates _ _ (by decide!) (by decide!) (by decide!)⟩

/-- C8, as stated, fails: on four points with `float` coordinates `GrahamScan`
returns the hull `(33554432,2), (-1,0), (16777216,1), (33554432,2)`, and on that hull
it returns the five points `(33554432,2), (16777216,1), (-1,0), (16777216,1),
(33554432,2)`: with the fourth point gone, the rounded orientation test no longer pops
`(16777216,1)` from the upper stack. -/
theorem GrahamScan_idempotent_counterexample :
    (∀ p ∈ ([⟨-1, 0⟩, ⟨16777216, 1⟩, ⟨33554432, 2⟩, ⟨7340031, 14680063/33554432⟩] : List Point),
      FloatPoint p) ∧
    3 ≤ ([⟨-1, 0⟩, ⟨16777216, 1⟩, ⟨33554432, 2⟩, ⟨7340031, 14680063/33554432⟩] : List Point).toFinset.card ∧
    GrahamScan [⟨-1, 0⟩, ⟨16777216, 1⟩, ⟨33554432, 2⟩, ⟨7340031, 14680063/33554432⟩]
      = some [⟨33554432, 2⟩, ⟨-1, 0⟩, ⟨16777216, 1⟩, ⟨33554432, 2⟩] ∧
    GrahamScan [⟨33554432, 2⟩, ⟨-1, 0⟩, ⟨16777216, 1⟩, ⟨33554432, 2⟩]
      ≠ some [⟨33554432, 2⟩, ⟨-1, 0⟩, ⟨16777216, 1⟩, ⟨33554432, 2⟩] := by
  decide!

/-- C8 (amended): for an input `P` with at least 3 distinct points on which the
orientation test of the code returns the exact sign of the turn value, `GrahamScan`
returns a hull `H`, and `GrahamScan` applied to `H` returns exactly `H`. -/
theorem GrahamScan_idempotent (P : List Point) (h : 3 ≤ P.toFinset.card)
    (hex : ExactOn P) :
    ∃ H, GrahamScan P = some H ∧ GrahamScan H = some H := by
  have hlen : 2 ≤ (preprocess P).length := by rw [preprocess_length]; omega
  obtain ⟨h2, he⟩ := stitch_preprocess_stitch P hlen
  have hsub : ∀ p ∈ stitch (preprocess P), p ∈ P := fun p hp =>
    (mem_preprocess P p).1 (mem_stitch (preprocess_sorted P) hp)
  have hexH : ExactOn (stitch (preprocess P)) := fun a ha b hb q hq =>
    hex a (hsub a ha) b (hsub b hb) q (hsub q hq)
  refine ⟨stitch (preprocess P), GrahamScan_exact P (by omega) hex, ?_⟩
  rw [GrahamScan_exact _ (by rw [← preprocess_length]; exact h2) hexH, he]

theorem GrahamScan_idempotent_witness :
    3 ≤ ([⟨0, 0⟩, ⟨4, 0⟩, ⟨2, 1⟩, ⟨2, 3⟩, ⟨2, 0⟩, ⟨1, 3/2⟩] : List Point).toFinset.card ∧
    ExactOn [⟨0, 0⟩, ⟨4, 0⟩, ⟨2, 1⟩, ⟨2, 3⟩, ⟨2, 0⟩, ⟨1, 3/2⟩] ∧
    ∃ H, GrahamScan [⟨0, 0⟩, ⟨4, 0⟩, ⟨2, 1⟩, ⟨2, 3⟩, ⟨2, 0⟩, ⟨1, 3/2⟩] = some H ∧
      GrahamScan H = some H :=
  ⟨by decide!, by decide!, GrahamScan_idempotent _ (by decide!) (by decide!)⟩

/-- C9 (code defect): a loaded list of three copies of one point passes the size
check of `main` (3 elements), and `GrahamScan` then reads `pointSet[1]` of a
one-element vector; a loaded list with two distinct points among three runs the hull
algorithm instead of exiting early. -/
theorem mainFrom_few_unique_points :
    mainFrom [⟨0, 0⟩, ⟨0, 0⟩, ⟨0, 0⟩] = Outcome.undefinedBehaviour ∧
      mainFrom [⟨0, 0⟩, ⟨0, 0⟩, ⟨1, 1⟩]
        = Outcome.printed [⟨1, 1⟩, ⟨0, 0⟩, ⟨1, 1⟩] := by
  decide!

/-- C10 (preprocessing postcondition): the vector built by the dedup-then-sort step
contains exactly the input points, each once, and is strictly increasing in the
canonical order; the deduplicated list before the sort contains exactly the input
points, each once, in the order of their first occurrence in the input. -/
theorem preprocess_postcondition (input : List Point) :
    ((∀ p, p ∈ preprocess input ↔ p ∈ input) ∧
      (preprocess input).Nodup ∧
      (preprocess input).Pairwise
        (fun a b => a.X < b.X ∨ (a.X = b.X ∧ a.Y < b.Y))) ∧
    ((∀ p, p ∈ removeDuplicates input ↔ p ∈ input) ∧
      (removeDuplicates input).Nodup ∧
      (removeDuplicates input).Sublist input ∧
      ∀ a ∈ input, ∀ b ∈ input,
        (List.indexOf a (removeDuplicates input) < List.indexOf b (removeDuplicates input)
          ↔ List.indexOf a input < List.indexOf b input)) :=
  ⟨⟨mem_preprocess input, preprocess_nodup input, preprocess_sorted input⟩,
    mem_removeDuplicates input, nodup_removeDuplicates input, removeDuplicates_sublist input,
    fun a ha b hb => removeDuplicates_order input a b ha hb⟩

/-! ## The stacks step by step -/

theorem runChain_nil (ps : List Point) (s : Stack) : runChain ps [] s = some s := rfl

theorem runChain_cons (ps : List Point) (i : Nat) (idx : List Nat) (s : Stack)
    (hi : i < ps.length) :
    runChain ps (i :: idx) s = runChain ps idx (ps[i] :: popInnerBy floatTest s ps[i]) := by
  simp [runChain, List.foldlM_cons, vecAt_natCast, List.getElem?_eq_getElem hi,
    RemoveInnerPoints_eq]

theorem runChain_cons_none (ps : List Point) (i : Nat) (idx : List Nat) (s : Stack)
    (hi : ps.length ≤ i) : runChain ps (i :: idx) s = none := by
  simp [runChain, List.foldlM_cons, vecAt_natCast, List.getElem?_eq_none hi]

/-- A worker loop over indices within bounds returns a stack, which is the pure scan
of the points read. -/
theorem runChain_some (ps : List Point) (idx : List Nat) (s : Stack)
    (h : ∀ i ∈ idx, i < ps.length) :
    runChain ps idx s = some (scanBy floatTest s (idx.filterMap (fun i => ps[i]?))) := by
  induction idx generalizing s with
  | nil => rfl
  | cons i idx ih =>
    have hi : i < ps.length := h i (by simp)
    rw [runChain_cons ps i idx s hi, ih _ (fun j hj => h j (List.mem_cons_of_mem _ hj))]
    simp [List.filterMap_cons, List.getElem?_eq_getElem hi, scanBy_cons]

theorem mem_upperIndices {n i : Nat} (h : i ∈ upperIndices n) : 2 ≤ i ∧ i < n := by
  unfold upperIndices at h
  rw [List.mem_range'_1] at h
  omega

theorem mem_lowerIndices {n i : Nat} (h : i ∈ lowerIndices n) : i + 2 < n := by
  unfold lowerIndices at h
  rw [List.mem_reverse, List.mem_range] at h
  omega

theorem vecAt_seeds (S : List Point) (h : 2 ≤ S.length) :
    vecAt S 0 = some (S.get ⟨0, by omega⟩) ∧ vecAt S 1 = some (S.get ⟨1, by omega⟩) ∧
      vecAt S ((S.length : Int) - 1) = some (S.get ⟨S.length - 1, by omega⟩) ∧
      vecAt S ((S.length : Int) - 2) = some (S.get ⟨S.length - 2, by omega⟩) := by
  have e1 : ((S.length : Int) - 1) = ((S.length - 1 : Nat) : Int) := by omega
  have e2 : ((S.length : Int) - 2) = ((S.length - 2 : Nat) : Int) := by omega
  refine ⟨?_, ?_, ?_, ?_⟩
  · simp [vecAt, List.getElem?_eq_getElem (show 0 < S.length by omega)]
  · simp [vecAt, List.getElem?_eq_getElem (show 1 < S.length by omega)]
  · rw [e1, vecAt_natCast, List.getElem?_eq_getElem (by omega)]; rfl
  · rw [e2, vecAt_natCast, List.getElem?_eq_getElem (by omega)]; rfl

/-- After any number of loop iterations the upper stack exists, has at least two
points and is convex. -/
theorem upperHullAfter_spec (S : List Point) (h : 2 ≤ S.length) (k : Nat) :
    ∃ c, upperHullAfter k S = some c ∧ 2 ≤ c.length ∧ ConvexBy floatTest c := by
  obtain ⟨h0, h1, -, -⟩ := vecAt_seeds S h
  have hidx : ∀ i ∈ (upperIndices S.length).take k, i < S.length := fun i hi =>
    (mem_upperIndices (List.mem_of_mem_take hi)).2
  refine ⟨scanBy floatTest [S.get ⟨1, by omega⟩, S.get ⟨0, by omega⟩]
    (((upperIndices S.length).take k).filterMap (fun i => S[i]?)), ?_,
    scanBy_length floatTest _ _ (by simp), scanBy_convex floatTest _ _ (by simp [ConvexBy])⟩
  simp only [upperHullAfter, h0, h1, Option.bind_eq_bind, Option.some_bind]
  exact runChain_some S _ _ hidx

/-- After any number of loop iterations the lower stack exists, has at least two
points and is convex. -/
theorem lowerHullAfter_spec (S : List Point) (h : 2 ≤ S.length) (k : Nat) :
    ∃ c, lowerHullAfter k S = some c ∧ 2 ≤ c.length ∧ ConvexBy floatTest c := by
  obtain ⟨-, -, h2, h3⟩ := vecAt_seeds S h
  have hidx : ∀ i ∈ (lowerIndices S.length).take k, i < S.length := fun i hi => by
    have := mem_lowerIndices (List.mem_of_mem_take hi)
    omega
  refine ⟨scanBy floatTest [S.get ⟨S.length - 2, by omega⟩, S.get ⟨S.length - 1, by omega⟩]
    (((lowerIndices S.length).take k).filterMap (fun i => S[i]?)), ?_,
    scanBy_length floatTest _ _ (by simp), scanBy_convex floatTest _ _ (by simp [ConvexBy])⟩
  simp only [lowerHullAfter, h2, h3, Option.bind_eq_bind, Option.some_bind]
  exact runChain_some S _ _ hidx

theorem upperHull_eq_after (S : List Point) : upperHull S = upperHullAfter S.length S := by
  unfold upperHull upperHullAfter
  rw [List.take_of_length_le (by simp [upperIndices])]

theorem lowerHull_eq_after (S : List Point) : lowerHull S = lowerHullAfter S.length S := by
  unfold lowerHull lowerHullAfter
  rw [List.take_of_length_le (by simp [lowerIndices])]

theorem upperHull_eq (S : List Point) (h : 2 ≤ S.length) :
    upperHull S = some (chainBy floatTest S) := by
  obtain ⟨h0, h1, -, -⟩ := vecAt_seeds S h
  simp only [upperHull, h0, h1, Option.bind_eq_bind, Option.some_bind]
  rw [upperIndices, runChain_range' S _ 2 _ (by omega)]
  have hl : S.length - 2 = (S.drop 2).length := by simp
  rw [hl, List.take_length]
  match S, h with
  | left :: p1 :: rest, _ => simp [chainBy, scanBy_cons, popInnerBy]

theorem lowerHull_eq (S : List Point) (h : 2 ≤ S.length) :
    lowerHull S = some (chainBy floatTest S.reverse) := by
  obtain ⟨-, -, h2, h3⟩ := vecAt_seeds S h
  simp only [lowerHull, h2, h3, Option.bind_eq_bind, Option.some_bind]
  rw [lowerIndices, runChain_range_reverse S _ _ (by omega)]
  have hi2 : S.length - 2 < S.length := by omega
  have hi1 : S.length - 2 + 1 < S.length := by omega
  have hsplit : S = S.take (S.length - 2)
      ++ [S.get ⟨S.length - 2, hi2⟩, S.get ⟨S.length - 1, by omega⟩] := by
    have a1 := List.take_concat_get' S (S.length - 2) hi2
    have a2 := List.take_concat_get' S (S.length - 2 + 1) hi1
    have a3 : S.take (S.length - 2 + 1 + 1) = S := by
      apply List.take_of_length_le; omega
    rw [a3, ← a1, List.append_assoc] at a2
    have e : S.length - 2 + 1 = S.length - 1 := by omega
    simp only [e] at a2
    exact a2.symm
  have hrev : S.reverse = S.get ⟨S.length - 1, by omega⟩ :: S.get ⟨S.length - 2, hi2⟩
      :: (S.take (S.length - 2)).reverse := by
    conv_lhs => rw [hsplit]
    simp
  rw [hrev, chainBy, scanBy_cons]
  simp [popInnerBy]

/-- The result of `GrahamScan` in terms of its two stacks. -/
theorem GrahamScan_eq_hulls (input : List Point) (h : 2 ≤ (preprocess input).length) :
    ∃ u l, upperHull (preprocess input) = some u ∧ lowerHull (preprocess input) = some l ∧
      GrahamScan input = some (drainLower l (drainUpper u [])) ∧
      u = chainBy floatTest (preprocess input) ∧ l = chainBy floatTest (preprocess input).reverse :=
  ⟨_, _, upperHull_eq _ h, lowerHull_eq _ h, by
    rw [GrahamScan_eq_stitch input h, drainLower_eq, drainUpper_eq, stitchBy, List.nil_append],
    rfl, rfl⟩

theorem noLeftTurn_of_convex {c : Stack} (h : ConvexBy floatTest c) : NoLeftTurn c :=
  fun i hi => convexBy_get floatTest h i hi

/-- C11 (chain invariant): for a point sequence `S` with at least 2 points (sorted or
not), after the initial pushes and any number `k` of `RemoveInnerPoints` steps, and
when the threads have finished, the upper and the lower stack exist and have no three
consecutive points `A, B, C` (bottom to top) with `IsSidePositive(Edge(A, B), C)`. -/
theorem chain_invariant (S : List Point) (h : 2 ≤ S.length) :
    (∀ k, ∃ c, upperHullAfter k S = some c ∧ NoLeftTurn c) ∧
    (∀ k, ∃ c, lowerHullAfter k S = some c ∧ NoLeftTurn c) ∧
    (∃ c, upperHull S = some c ∧ NoLeftTurn c) ∧
    (∃ c, lowerHull S = some c ∧ NoLeftTurn c) := by
  have hu : ∀ k, ∃ c, upperHullAfter k S = some c ∧ NoLeftTurn c := fun k => by
    obtain ⟨c, hc, -, hconv⟩ := upperHullAfter_spec S h k
    exact ⟨c, hc, noLeftTurn_of_convex hconv⟩
  have hl : ∀ k, ∃ c, lowerHullAfter k S = some c ∧ NoLeftTurn c := fun k => by
    obtain ⟨c, hc, -, hconv⟩ := lowerHullAfter_spec S h k
    exact ⟨c, hc, noLeftTurn_of_convex hconv⟩
  refine ⟨hu, hl, ?_, ?_⟩
  · rw [upperHull_eq_after]; exact hu _
  · rw [lowerHull_eq_after]; exact hl _

theorem chain_invariant_witness :
    2 ≤ ([⟨0, 0⟩, ⟨1, 2⟩, ⟨2, 1⟩, ⟨3, 3⟩, ⟨4, 0⟩] : List Point).length ∧
    ((∀ k, ∃ c, upperHullAfter k [⟨0, 0⟩, ⟨1, 2⟩, ⟨2, 1⟩, ⟨3, 3⟩, ⟨4, 0⟩] = some c ∧
        NoLeftTurn c) ∧
      (∀ k, ∃ c, lowerHullAfter k [⟨0, 0⟩, ⟨1, 2⟩, ⟨2, 1⟩, ⟨3, 3⟩, ⟨4, 0⟩] = some c ∧
        NoLeftTurn c) ∧
      (∃ c, upperHull [⟨0, 0⟩, ⟨1, 2⟩, ⟨2, 1⟩, ⟨3, 3⟩, ⟨4, 0⟩] = some c ∧ NoLeftTurn c) ∧
      (∃ c, lowerHull [⟨0, 0⟩, ⟨1, 2⟩, ⟨2, 1⟩, ⟨3, 3⟩, ⟨4, 0⟩] = some c ∧ NoLeftTurn c)) :=
  ⟨by decide, chain_invariant _ (by decide)⟩

/-- C12, as stated, fails, in both directions. For the `float` points `(-1,0)`,
`(16777216,1)`, `(33554432,2)` the formula has the value 1, but the difference
`16777216 - (-1)` rounds to `16777216` and the test returns false. For the `float`
points `(-4,0)`, `(16777213,-1)`, `(67108864,-4)`, which are collinear (the formula has
the value 0), the differences `16777213 - (-4)` and `67108864 - 16777213` round and
the test returns true. -/
theorem IsSidePositive_rounding_counterexample :
    (∃ P0 P1 Q : Point, FloatPoint P0 ∧ FloatPoint P1 ∧ FloatPoint Q ∧
      (P1.X - P0.X) * (Q.Y - P1.Y) - (P1.Y - P0.Y) * (Q.X - P1.X) > 0 ∧
      IsSidePositive (P0, P1) Q = false) ∧
    (∃ P0 P1 Q : Point, FloatPoint P0 ∧ FloatPoint P1 ∧ FloatPoint Q ∧
      (P1.X - P0.X) * (Q.Y - P1.Y) - (P1.Y - P0.Y) * (Q.X - P1.X) = 0 ∧
      IsSidePositive (P0, P1) Q = true) :=
  ⟨⟨⟨-1, 0⟩, ⟨16777216, 1⟩, ⟨33554432, 2⟩, by decide!⟩,
    ⟨⟨-4, 0⟩, ⟨16777213, -1⟩, ⟨67108864, -4⟩, by decide!⟩⟩

/-- C12 (amended): where none of the seven `float` operations of the test rounds (the
four coordinate differences, the two products and their difference are values of
`float`), `IsSidePositive(Edge(P0, P1), Q)` is true exactly when
`(P1.X-P0.X)*(Q.Y-P1.Y) - (P1.Y-P0.Y)*(Q.X-P1.X) > 0`, and it is false when the three
points are collinear (the value is 0); no operation rounds when the coordinates of the
three points are integers of absolute value at most 1024; on an edge of zero length
the test is false whatever the coordinates. -/
theorem IsSidePositive_spec (P0 P1 Q : Point) :
    (ExactAt P0 P1 Q →
      (IsSidePositive (P0, P1) Q = true
        ↔ (P1.X - P0.X) * (Q.Y - P1.Y) - (P1.Y - P0.Y) * (Q.X - P1.X) > 0) ∧
      ((P1.X - P0.X) * (Q.Y - P1.Y) - (P1.Y - P0.Y) * (Q.X - P1.X) = 0
        → IsSidePositive (P0, P1) Q = false)) ∧
    (SmallPoint P0 → SmallPoint P1 → SmallPoint Q → ExactAt P0 P1 Q) ∧
    IsSidePositive (P0, P0) Q = false := by
  refine ⟨fun hex => ?_, exactAt_of_small P0 P1 Q, IsSidePositive_zero_edge P0 Q⟩
  have e := IsSidePositive_of_exactAt P0 P1 Q hex
  have hc : cross P0 P1 Q
      = (P1.X - P0.X) * (Q.Y - P1.Y) - (P1.Y - P0.Y) * (Q.X - P1.X) := rfl
  rw [e, ← hc]
  constructor
  · simp
  · intro h0
    simp [h0]

theorem IsSidePositive_spec_witness :
    ExactAt ⟨0, 0⟩ ⟨4, 1⟩ ⟨1/2, 3⟩ ∧
    ((IsSidePositive (⟨0, 0⟩, ⟨4, 1⟩) ⟨1/2, 3⟩ = true
        ↔ ((4 : ℚ) - 0) * (3 - 1) - (1 - 0) * (1/2 - 4) > 0) ∧
      (((4 : ℚ) - 0) * (3 - 1) - (1 - 0) * (1/2 - 4) = 0
        → IsSidePositive (⟨0, 0⟩, ⟨4, 1⟩) ⟨1/2, 3⟩ = false)) :=
  ⟨by decide!, (IsSidePositive_spec ⟨0, 0⟩ ⟨4, 1⟩ ⟨1/2, 3⟩).1 (by decide!)⟩

theorem popInner_collinear (A : List Point)
    (hcol : ∀ a ∈ A, ∀ b ∈ A, ∀ c ∈ A, cross a b c = 0) (s : Stack) (T : Point)
    (hs : ∀ x ∈ s, x ∈ A) (hT : T ∈ A) : popInner s T = s := by
  match s, hs with
  | [], _ => rfl
  | [_], _ => rfl
  | top :: prevTop :: rest, hs =>
    have h0 : cross prevTop top T = 0 := hcol _ (hs _ (by simp)) _ (hs _ (by simp)) _ hT
    simp [popInner, h0]

theorem scan_collinear (A : List Point)
    (hcol : ∀ a ∈ A, ∀ b ∈ A, ∀ c ∈ A, cross a b c = 0) (s : Stack) (pts : List Point)
    (hs : ∀ x ∈ s, x ∈ A) (hpts : ∀ x ∈ pts, x ∈ A) : scan s pts = pts.reverse ++ s := by
  induction pts generalizing s with
  | nil => rfl
  | cons t pts ih =>
    have ht : t ∈ A := hpts t (by simp)
    rw [scan_cons, popInner_collinear A hcol s t hs ht,
      ih (t :: s) (fun x hx => by
        rcases List.mem_cons.1 hx with h | h
        · rw [h]; exact ht
        · exact hs x h) (fun x hx => hpts x (List.mem_cons_of_mem _ hx))]
    simp

theorem upperChain_collinear (S : List Point)
    (hcol : ∀ a ∈ S, ∀ b ∈ S, ∀ c ∈ S, cross a b c = 0) : upperChain S = S.reverse := by
  cases S with
  | nil => rfl
  | cons a rest =>
    rw [upperChain, scan_collinear (a :: rest) hcol [a] rest (by simp)
      (fun x hx => List.mem_cons_of_mem _ hx)]
    simp

theorem stitch_collinear (S : List Point)
    (hcol : ∀ a ∈ S, ∀ b ∈ S, ∀ c ∈ S, cross a b c = 0) :
    stitch S = S.tail.reverse ++ S := by
  have hrev : ∀ a ∈ S.reverse, ∀ b ∈ S.reverse, ∀ c ∈ S.reverse, cross a b c = 0 :=
    fun a ha b hb c hc =>
      hcol a (List.mem_reverse.1 ha) b (List.mem_reverse.1 hb) c (List.mem_reverse.1 hc)
  rw [stitch, lowerChain, upperChain_collinear S hcol, upperChain_collinear S.reverse hrev,
    List.reverse_reverse, List.dropLast_reverse]

theorem popInnerBy_floatTest_collinear (A : List Point) (hex : ExactOn A)
    (hcol : ∀ a ∈ A, ∀ b ∈ A, ∀ c ∈ A, cross a b c = 0) (s : Stack) (T : Point)
    (hs : ∀ x ∈ s, x ∈ A) (hT : T ∈ A) : popInnerBy floatTest s T = s := by
  rw [popInnerBy_congr floatTest exactTest A (floatTest_eq_exactTest hex) s T hs hT,
    popInnerBy_exactTest, popInner_collinear A hcol s T hs hT]

/-- C15, as stated, fails: the `float` points `(-4,0)`, `(16777213,-1)`,
`(67108864,-4)` are collinear, the rounded orientation test of the first two against
the third is true, `RemoveInnerPoints` pops `(16777213,-1)` from the upper stack, and
`GrahamScan` returns 4 points, not the back-and-forth sequence of 5. -/
theorem GrahamScan_collinear_counterexample :
    (∀ p ∈ ([⟨-4, 0⟩, ⟨16777213, -1⟩, ⟨67108864, -4⟩] : List Point), FloatPoint p) ∧
    2 ≤ ([⟨-4, 0⟩, ⟨16777213, -1⟩, ⟨67108864, -4⟩] : List Point).toFinset.card ∧
    (∀ a ∈ ([⟨-4, 0⟩, ⟨16777213, -1⟩, ⟨67108864, -4⟩] : List Point),
      ∀ b ∈ ([⟨-4, 0⟩, ⟨16777213, -1⟩, ⟨67108864, -4⟩] : List Point),
      ∀ c ∈ ([⟨-4, 0⟩, ⟨16777213, -1⟩, ⟨67108864, -4⟩] : List Point), cross a b c = 0) ∧
    RemoveInnerPoints [⟨16777213, -1⟩, ⟨-4, 0⟩] ⟨67108864, -4⟩
      = some [⟨67108864, -4⟩, ⟨-4, 0⟩] ∧
    GrahamScan [⟨-4, 0⟩, ⟨16777213, -1⟩, ⟨67108864, -4⟩]
      = some [⟨67108864, -4⟩, ⟨-4, 0⟩, ⟨16777213, -1⟩, ⟨67108864, -4⟩] ∧
    ([⟨67108864, -4⟩, ⟨-4, 0⟩, ⟨16777213, -1⟩, ⟨67108864, -4⟩] : List Point)
      ≠ (preprocess [⟨-4, 0⟩, ⟨16777213, -1⟩, ⟨67108864, -4⟩]).tail.reverse
        ++ preprocess [⟨-4, 0⟩, ⟨16777213, -1⟩, ⟨67108864, -4⟩] := by
  decide!

/-- C15 (amended): when the n >= 2 distinct input points are all collinear and the
orientation test of the code returns the exact sign of the turn value on them,
`RemoveInnerPoints` never pops (it returns the stack with the target pushed), and
`GrahamScan` returns the sorted points backwards from `s_(n-1)` to `s_1` followed by
the sorted points forwards from `s_0` to `s_(n-1)`: a sequence of length `2n-1` that
contains every input point. -/
theorem GrahamScan_collinear (input : List Point) (h : 2 ≤ input.toFinset.card)
    (hcol : ∀ a ∈ input, ∀ b ∈ input, ∀ c ∈ input, cross a b c = 0)
    (hex : ExactOn input) :
    ∃ H, GrahamScan input = some H ∧
      H = (preprocess input).tail.reverse ++ preprocess input ∧
      H.length = 2 * input.toFinset.card - 1 ∧
      (∀ p ∈ input, p ∈ H) ∧
      ∀ s : Stack, (∀ x ∈ s, x ∈ input) → ∀ t ∈ input,
        RemoveInnerPoints s t = some (t :: s) := by
  have hS : ∀ a ∈ preprocess input, ∀ b ∈ preprocess input, ∀ c ∈ preprocess input,
      cross a b c = 0 := fun a ha b hb c hc =>
    hcol a ((mem_preprocess input a).1 ha) b ((mem_preprocess input b).1 hb) c
      ((mem_preprocess input c).1 hc)
  refine ⟨_, GrahamScan_exact input h hex, stitch_collinear _ hS, ?_, ?_, ?_⟩
  · rw [stitch_collinear _ hS, List.length_append, List.length_reverse, List.length_tail,
      preprocess_length]
    omega
  · intro p hp
    rw [stitch_collinear _ hS]
    exact List.mem_append_right _ ((mem_preprocess input p).2 hp)
  · intro s hs t ht
    rw [RemoveInnerPoints_eq, popInnerBy_floatTest_collinear input hex hcol s t hs ht]

theorem GrahamScan_collinear_witness :
    2 ≤ ([⟨0, 0⟩, ⟨1, 0⟩, ⟨2, 0⟩, ⟨3, 0⟩] : List Point).toFinset.card ∧
    (∀ a ∈ ([⟨0, 0⟩, ⟨1, 0⟩, ⟨2, 0⟩, ⟨3, 0⟩] : List Point),
      ∀ b ∈ ([⟨0, 0⟩, ⟨1, 0⟩, ⟨2, 0⟩, ⟨3, 0⟩] : List Point),
      ∀ c ∈ ([⟨0, 0⟩, ⟨1, 0⟩, ⟨2, 0⟩, ⟨3, 0⟩] : List Point), cross a b c = 0) ∧
    ExactOn [⟨0, 0⟩, ⟨1, 0⟩, ⟨2, 0⟩, ⟨3, 0⟩] ∧
    ∃ H, GrahamScan [⟨0, 0⟩, ⟨1, 0⟩, ⟨2, 0⟩, ⟨3, 0⟩] = some H ∧
      H = (preprocess [⟨0, 0⟩, ⟨1, 0⟩, ⟨2, 0⟩, ⟨3, 0⟩]).tail.reverse
        ++ preprocess [⟨0, 0⟩, ⟨1, 0⟩, ⟨2, 0⟩, ⟨3, 0⟩] ∧
      H.length = 2 * ([⟨0, 0⟩, ⟨1, 0⟩, ⟨2, 0⟩, ⟨3, 0⟩] : List Point).toFinset.card - 1 ∧
      (∀ p ∈ ([⟨0, 0⟩, ⟨1, 0⟩, ⟨2, 0⟩, ⟨3, 0⟩] : List Point), p ∈ H) ∧
      ∀ s : Stack, (∀ x ∈ s, x ∈ ([⟨0, 0⟩, ⟨1, 0⟩, ⟨2, 0⟩, ⟨3, 0⟩] : List Point)) →
        ∀ t ∈ ([⟨0, 0⟩, ⟨1, 0⟩, ⟨2, 0⟩, ⟨3, 0⟩] : List Point),
          RemoveInnerPoints s t = some (t :: s) :=
  ⟨by decide!, by decide!, by decide!,
    GrahamScan_collinear _ (by decide!) (by decide!) (by decide!)⟩

/-! ## Three points -/

/-- In a strictly increasing vector of three points, a point with a point before it
and a point after it is the middle one: nothing else is before or after it. -/
theorem three_points_middle {S : List Point} (hlen : S.length = 3)
    {a p b x : Point} (ha : a ∈ S) (hp : p ∈ S) (hb : b ∈ S) (hx : x ∈ S)
    (hap : lexLt a p) (hpb : lexLt p b) : x = a ∨ x = p ∨ x = b := by
  have hnd : ([a, p, b] : List Point).Nodup := by
    have h1 : a ≠ p := fun e => lexLt_irrefl p (e ▸ hap)
    have h2 : p ≠ b := fun e => lexLt_irrefl b (e ▸ hpb)
    have h3 : a ≠ b := fun e => by
      rw [e] at hap
      exact lexLt_asymm hap hpb
    simp [h1, h2, h3]
  have hsub : ([a, p, b] : List Point) ⊆ S := by
    intro y hy
    simp only [List.mem_cons, List.mem_singleton, List.not_mem_nil, or_false] at hy
    rcases hy with rfl | rfl | rfl
    · exact ha
    · exact hp
    · exact hb
  have hperm := (List.subperm_of_subset hnd hsub).perm_of_length_le (by simp [hlen])
  have := hperm.mem_iff.2 hx
  simpa using this

/-- With three points in the vector every point is on the upper or on the lower chain
of the code: the rounded orientation test never passes on a triple and on its
reverse. -/
theorem mem_stitchBy_three {S : List Point} (hS : S.Pairwise lexLt) (hlen : S.length = 3)
    {p : Point} (hp : p ∈ S) : p ∈ stitchBy floatTest S := by
  by_cases hu : p ∈ chainBy floatTest S
  · exact mem_stitchBy_of_upper floatTest hS hu
  by_cases hl : p ∈ chainBy floatTest S.reverse
  · exact mem_stitchBy_of_lower floatTest hl
  exfalso
  obtain ⟨a, ha, b, hb, hap, hpb, hcr⟩ := (upperBy_shape floatTest hS).wit p hp hu
  obtain ⟨a', ha', b', hb', hap', hpb', hcr'⟩ :=
    (lowerBy_shape floatTest hS).wit p (List.mem_reverse.2 hp) hl
  have hap' : lexLt p a' := hap'
  have hpb' : lexLt b' p := hpb'
  have ha' := List.mem_reverse.1 ha'
  have hb' := List.mem_reverse.1 hb'
  have e1 : a' = b := by
    rcases three_points_middle hlen ha hp hb ha' hap hpb with h | h | h
    · exact (lexLt_asymm hap (h ▸ hap')).elim
    · exact (lexLt_irrefl p (h ▸ hap')).elim
    · exact h
  have e2 : b' = a := by
    rcases three_points_middle hlen ha hp hb hb' hap hpb with h | h | h
    · exact h
    · exact (lexLt_irrefl p (h ▸ hpb')).elim
    · exact (lexLt_asymm hpb (h ▸ hpb')).elim
  subst e1 e2
  have hrev := IsSidePositive_reverse b' p a' hcr
  rw [floatTest, hrev] at hcr'
  exact absurd hcr' (by simp)

/-- C16, as stated, fails: the input `(-1,0)`, `(16777216,1)`, `(33554432,2)` has
exactly 3 distinct points, all with `float` coordinates, and the first three points of
the output, `(33554432,2), (16777216,1), (-1,0)`, make a clockwise turn. -/
theorem GrahamScan_three_points_counterexample :
    (∀ p ∈ ([⟨-1, 0⟩, ⟨16777216, 1⟩, ⟨33554432, 2⟩] : List Point), FloatPoint p) ∧
    ([⟨-1, 0⟩, ⟨16777216, 1⟩, ⟨33554432, 2⟩] : List Point).toFinset.card = 3 ∧
    GrahamScan [⟨-1, 0⟩, ⟨16777216, 1⟩, ⟨33554432, 2⟩]
      = some [⟨33554432, 2⟩, ⟨16777216, 1⟩, ⟨-1, 0⟩, ⟨16777216, 1⟩, ⟨33554432, 2⟩] ∧
    cross ⟨33554432, 2⟩ ⟨16777216, 1⟩ ⟨-1, 0⟩ < 0 := by
  decide!

/-- C16 (amended): for an input with exactly 3 distinct points the upper and the lower
stack each end with 2 or 3 points and the sequence returned by `GrahamScan` contains
each input point; where the orientation test of the code returns the exact sign of the
turn value on the input, the sequence has no clockwise turn at three consecutive
points. -/
theorem GrahamScan_three_points (input : List Point) (h : input.toFinset.card = 3) :
    ∃ u l H, upperHull (preprocess input) = some u ∧ lowerHull (preprocess input) = some l ∧
      GrahamScan input = some H ∧
      (u.length = 2 ∨ u.length = 3) ∧ (l.length = 2 ∨ l.length = 3) ∧
      (∀ p ∈ input, p ∈ H) ∧
      (ExactOn input → ∀ (i : Nat) (hi : i + 2 < H.length),
        0 ≤ cross (H.get ⟨i, by omega⟩) (H.get ⟨i + 1, by omega⟩) (H.get ⟨i + 2, hi⟩)) := by
  have hlen : (preprocess input).length = 3 := by rw [preprocess_length, h]
  have hS := preprocess_sorted input
  have hu1 := upperBy_length floatTest hS (by omega)
  have hu2 := (upperBy_shape floatTest hS).sub.length_le
  have hl2 := (lowerBy_shape floatTest hS).sub.length_le
  have hl1 := lowerBy_length floatTest hS (by omega)
  rw [List.length_reverse] at hu2 hl2
  rw [List.length_reverse] at hl2
  refine ⟨chainBy floatTest (preprocess input), chainBy floatTest (preprocess input).reverse,
    stitchBy floatTest (preprocess input), upperHull_eq _ (by omega),
    lowerHull_eq _ (by omega), GrahamScan_eq_stitch input (by omega), by omega, by omega,
    ?_, ?_⟩
  · intro p hp
    exact mem_stitchBy_three hS hlen ((mem_preprocess input p).2 hp)
  · intro hex
    rw [stitchBy_floatTest_of_exactOn hex]
    exact fun i hi => stitch_turn input i hi

theorem GrahamScan_three_points_witness :
    ([⟨0, 0⟩, ⟨2, 1⟩, ⟨1, 3⟩, ⟨2, 1⟩] : List Point).toFinset.card = 3 ∧
    ExactOn [⟨0, 0⟩, ⟨2, 1⟩, ⟨1, 3⟩, ⟨2, 1⟩] ∧
    ∃ u l H, upperHull (preprocess [⟨0, 0⟩, ⟨2, 1⟩, ⟨1, 3⟩, ⟨2, 1⟩]) = some u ∧
      lowerHull (preprocess [⟨0, 0⟩, ⟨2, 1⟩, ⟨1, 3⟩, ⟨2, 1⟩]) = some l ∧
      GrahamScan [⟨0, 0⟩, ⟨2, 1⟩, ⟨1, 3⟩, ⟨2, 1⟩] = some H ∧
      (u.length = 2 ∨ u.length = 3) ∧ (l.length = 2 ∨ l.length = 3) ∧
      (∀ p ∈ ([⟨0, 0⟩, ⟨2, 1⟩, ⟨1, 3⟩, ⟨2, 1⟩] : List Point), p ∈ H) ∧
      (ExactOn [⟨0, 0⟩, ⟨2, 1⟩, ⟨1, 3⟩, ⟨2, 1⟩] → ∀ (i : Nat) (hi : i + 2 < H.length),
        0 ≤ cross (H.get ⟨i, by omega⟩) (H.get ⟨i + 1, by omega⟩) (H.get ⟨i + 2, hi⟩)) :=
  ⟨by decide!, by decide!, GrahamScan_three_points _ (by decide!)⟩

/-! ## Access safety and the shape of the result -/

/-- C17 (stack overload of the orientation test): `IsSidePositive(stack, Q)` returns
false on a stack with fewer than 2 elements, and on a stack with top `t` and `p`
directly below it returns `IsSidePositive(Edge(p, t), Q)`; the caller's stack is not
changed by the call: when the test is false `RemoveInnerPoints` pushes `Q` on the whole
stack, and when it is true `RemoveInnerPoints` goes on with the stack minus the one
element it pops itself. -/
theorem IsSidePositiveStack_spec (s : Stack) (Q : Point) :
    (s.length < 2 → IsSidePositiveStack s Q = some false) ∧
    (∀ t p rest, s = t :: p :: rest →
      IsSidePositiveStack s Q = some (IsSidePositive (p, t) Q) ∧
      (IsSidePositive (p, t) Q = false → RemoveInnerPoints s Q = some (Q :: s)) ∧
      (IsSidePositive (p, t) Q = true →
        RemoveInnerPoints s Q = RemoveInnerPoints (p :: rest) Q)) := by
  constructor
  · intro h
    simp [IsSidePositiveStack, h]
  · rintro t p rest rfl
    refine ⟨IsSidePositiveStack_cons_cons t p rest Q, ?_, ?_⟩
    · intro hf
      rw [RemoveInnerPoints, IsSidePositiveStack_cons_cons, hf]
      simp
    · intro ht
      rw [RemoveInnerPoints, IsSidePositiveStack_cons_cons, ht]
      simp

theorem RemoveInnerPoints_length (s : Stack) (t : Point) (hs : s ≠ []) :
    ∃ r, RemoveInnerPoints s t = some r ∧ 2 ≤ r.length := by
  refine ⟨_, RemoveInnerPoints_eq s t, ?_⟩
  have : 1 ≤ (popInnerBy floatTest s t).length := List.length_pos.2 (popInnerBy_ne_nil floatTest s t hs)
  simp only [List.length_cons]
  omega

theorem IsSidePositiveStack_isSome (s : Stack) (Q : Point) :
    ∃ b, IsSidePositiveStack s Q = some b := by
  match s with
  | [] => exact ⟨false, by simp [IsSidePositiveStack]⟩
  | [_] => exact ⟨false, by simp [IsSidePositiveStack]⟩
  | t :: p :: rest => exact ⟨_, IsSidePositiveStack_cons_cons t p rest Q⟩

/-- C18 (access safety): for an input with at least 2 distinct points every read of
`pointSet` in `GrahamScan` (at 0, 1, size-1, size-2 and at each loop index) is within
bounds, the stack overload of the orientation test and `RemoveInnerPoints` never reach
`top()` or `pop()` on an empty stack, a non-empty stack keeps at least one of its
elements under the pushed target, both stacks exist with at least two elements after
any number of loop iterations, and `GrahamScan` returns a hull. -/
theorem GrahamScan_access_safety (input : List Point) (h : 2 ≤ input.toFinset.card) :
    (∃ a b c d, vecAt (preprocess input) 0 = some a ∧ vecAt (preprocess input) 1 = some b ∧
      vecAt (preprocess input) (((preprocess input).length : Int) - 1) = some c ∧
      vecAt (preprocess input) (((preprocess input).length : Int) - 2) = some d) ∧
    (∀ i ∈ upperIndices (preprocess input).length,
      ∃ t, vecAt (preprocess input) (i : Int) = some t) ∧
    (∀ i ∈ lowerIndices (preprocess input).length,
      ∃ t, vecAt (preprocess input) (i : Int) = some t) ∧
    (∀ (s : Stack) (Q : Point), ∃ b, IsSidePositiveStack s Q = some b) ∧
    (∀ (s : Stack) (t : Point), s ≠ [] →
      ∃ r, RemoveInnerPoints s t = some r ∧ 2 ≤ r.length) ∧
    (∀ k, ∃ c, upperHullAfter k (preprocess input) = some c ∧ 2 ≤ c.length) ∧
    (∀ k, ∃ c, lowerHullAfter k (preprocess input) = some c ∧ 2 ≤ c.length) ∧
    (∃ H, GrahamScan input = some H) := by
  have hlen : 2 ≤ (preprocess input).length := by rw [preprocess_length]; exact h
  obtain ⟨h0, h1, h2, h3⟩ := vecAt_seeds (preprocess input) hlen
  refine ⟨⟨_, _, _, _, h0, h1, h2, h3⟩, ?_, ?_, IsSidePositiveStack_isSome,
    RemoveInnerPoints_length, ?_, ?_, ⟨_, GrahamScan_eq_stitch input hlen⟩⟩
  · intro i hi
    have := (mem_upperIndices hi).2
    exact ⟨_, by rw [vecAt_natCast, List.getElem?_eq_getElem this]⟩
  · intro i hi
    have := mem_lowerIndices hi
    exact ⟨_, by rw [vecAt_natCast, List.getElem?_eq_getElem (by omega)]⟩
  · intro k
    obtain ⟨c, hc, hl, -⟩ := upperHullAfter_spec _ hlen k
    exact ⟨c, hc, hl⟩
  · intro k
    obtain ⟨c, hc, hl, -⟩ := lowerHullAfter_spec _ hlen k
    exact ⟨c, hc, hl⟩

theorem GrahamScan_access_safety_witness :
    2 ≤ ([⟨0, 0⟩, ⟨3, 1⟩, ⟨1, 2⟩, ⟨1, 2⟩, ⟨2, -1⟩] : List Point).toFinset.card ∧
    ((∃ a b c d, vecAt (preprocess ([⟨0, 0⟩, ⟨3, 1⟩, ⟨1, 2⟩, ⟨1, 2⟩, ⟨2, -1⟩] : List Point)) 0 = some a ∧ vecAt (preprocess ([⟨0, 0⟩, ⟨3, 1⟩, ⟨1, 2⟩, ⟨1, 2⟩, ⟨2, -1⟩] : List Point)) 1 = some b ∧
      vecAt (preprocess ([⟨0, 0⟩, ⟨3, 1⟩, ⟨1, 2⟩, ⟨1, 2⟩, ⟨2, -1⟩] : List Point)) (((preprocess ([⟨0, 0⟩, ⟨3, 1⟩, ⟨1, 2⟩, ⟨1, 2⟩, ⟨2, -1⟩] : List Point)).length : Int) - 1) = some c ∧
      vecAt (preprocess ([⟨0, 0⟩, ⟨3, 1⟩, ⟨1, 2⟩, ⟨1, 2⟩, ⟨2, -1⟩] : List Point)) (((preprocess ([⟨0, 0⟩, ⟨3, 1⟩, ⟨1, 2⟩, ⟨1, 2⟩, ⟨2, -1⟩] : List Point)).length : Int) - 2) = some d) ∧
    (∀ i ∈ upperIndices (preprocess ([⟨0, 0⟩, ⟨3, 1⟩, ⟨1, 2⟩, ⟨1, 2⟩, ⟨2, -1⟩] : List Point)).length,
      ∃ t, vecAt (preprocess ([⟨0, 0⟩, ⟨3, 1⟩, ⟨1, 2⟩, ⟨1, 2⟩, ⟨2, -1⟩] : List Point)) (i : Int) = some t) ∧
    (∀ i ∈ lowerIndices (preprocess ([⟨0, 0⟩, ⟨3, 1⟩, ⟨1, 2⟩, ⟨1, 2⟩, ⟨2, -1⟩] : List Point)).length,
      ∃ t, vecAt (preprocess ([⟨0, 0⟩, ⟨3, 1⟩, ⟨1, 2⟩, ⟨1, 2⟩, ⟨2, -1⟩] : List Point)) (i : Int) = some t) ∧
    (∀ (s : Stack) (Q : Point), ∃ b, IsSidePositiveStack s Q = some b) ∧
    (∀ (s : Stack) (t : Point), s ≠ [] →
      ∃ r, RemoveInnerPoints s t = some r ∧ 2 ≤ r.length) ∧
    (∀ k, ∃ c, upperHullAfter k (preprocess ([⟨0, 0⟩, ⟨3, 1⟩, ⟨1, 2⟩, ⟨1, 2⟩, ⟨2, -1⟩] : List Point)) = some c ∧ 2 ≤ c.length) ∧
    (∀ k, ∃ c, lowerHullAfter k (preprocess ([⟨0, 0⟩, ⟨3, 1⟩, ⟨1, 2⟩, ⟨1, 2⟩, ⟨2, -1⟩] : List Point)) = some c ∧ 2 ≤ c.length) ∧
    (∃ H, GrahamScan ([⟨0, 0⟩, ⟨3, 1⟩, ⟨1, 2⟩, ⟨1, 2⟩, ⟨2, -1⟩] : List Point) = some H)) :=
  ⟨by decide!, GrahamScan_access_safety _ (by decide!)⟩

/-- C19 (chains are monotone sub-sequences): for a strictly increasing sequence `S`
with at least 2 points, the finished upper chain read bottom to top is a subsequence of
`S` from `S[0]` to `S[last]`, and the finished lower chain read bottom to top is a
subsequence of `reverse(S)` from `S[last]` to `S[0]`; every point `GrahamScan`
returns, on `S` and on any input, is a point of its input. -/
theorem chains_monotone (S : List Point) (hS : S.Pairwise lexLt) (h : 2 ≤ S.length) :
    ∃ u l, upperHull S = some u ∧ lowerHull S = some l ∧
      u.reverse.Sublist S ∧ u.reverse.head? = S.head? ∧ u.reverse.getLast? = S.getLast? ∧
      l.reverse.Sublist S.reverse ∧ l.reverse.head? = S.getLast? ∧
      l.reverse.getLast? = S.head? ∧
      (∃ H, GrahamScan S = some H ∧ ∀ p ∈ H, p ∈ S) ∧
      ∀ input H, GrahamScan input = some H → ∀ p ∈ H, p ∈ input := by
  have hU := upperBy_shape floatTest hS
  have hL := lowerBy_shape floatTest hS
  have hout : ∀ input H, GrahamScan input = some H → ∀ p ∈ H, p ∈ input := by
    intro input H hH p hp
    obtain ⟨-, rfl⟩ := GrahamScan_some_inv hH
    exact (mem_preprocess input p).1 (mem_stitchBy floatTest (preprocess_sorted input) hp)
  have hpre : preprocess S = S :=
    sorted_ext (preprocess_sorted S) hS (mem_preprocess S)
  refine ⟨chainBy floatTest S, chainBy floatTest S.reverse, upperHull_eq S h, lowerHull_eq S h, hU.sub, ?_, ?_,
    hL.sub, ?_, ?_, ⟨stitchBy floatTest (preprocess S), GrahamScan_eq_stitch S (by rw [hpre]; exact h),
      fun p hp => hout S _ (GrahamScan_eq_stitch S (by rw [hpre]; exact h)) p hp⟩, hout⟩
  · rw [List.head?_reverse, upperBy_getLast? floatTest hS]
  · rw [List.getLast?_reverse, upperBy_head? floatTest hS]
  · rw [List.head?_reverse, lowerBy_getLast? floatTest hS]
  · rw [List.getLast?_reverse, lowerBy_head? floatTest hS]

theorem chains_monotone_witness :
    ([⟨0, 0⟩, ⟨1, 2⟩, ⟨2, 1⟩, ⟨3, 3⟩, ⟨3, 4⟩] : List Point).Pairwise lexLt ∧
    2 ≤ ([⟨0, 0⟩, ⟨1, 2⟩, ⟨2, 1⟩, ⟨3, 3⟩, ⟨3, 4⟩] : List Point).length ∧
    (∃ u l, upperHull ([⟨0, 0⟩, ⟨1, 2⟩, ⟨2, 1⟩, ⟨3, 3⟩, ⟨3, 4⟩] : List Point) = some u ∧ lowerHull ([⟨0, 0⟩, ⟨1, 2⟩, ⟨2, 1⟩, ⟨3, 3⟩, ⟨3, 4⟩] : List Point) = some l ∧
      u.reverse.Sublist ([⟨0, 0⟩, ⟨1, 2⟩, ⟨2, 1⟩, ⟨3, 3⟩, ⟨3, 4⟩] : List Point) ∧ u.reverse.head? = ([⟨0, 0⟩, ⟨1, 2⟩, ⟨2, 1⟩, ⟨3, 3⟩, ⟨3, 4⟩] : List Point).head? ∧ u.reverse.getLast? = ([⟨0, 0⟩, ⟨1, 2⟩, ⟨2, 1⟩, ⟨3, 3⟩, ⟨3, 4⟩] : List Point).getLast? ∧
      l.reverse.Sublist ([⟨0, 0⟩, ⟨1, 2⟩, ⟨2, 1⟩, ⟨3, 3⟩, ⟨3, 4⟩] : List Point).reverse ∧ l.reverse.head? = ([⟨0, 0⟩, ⟨1, 2⟩, ⟨2, 1⟩, ⟨3, 3⟩, ⟨3, 4⟩] : List Point).getLast? ∧
      l.reverse.getLast? = ([⟨0, 0⟩, ⟨1, 2⟩, ⟨2, 1⟩, ⟨3, 3⟩, ⟨3, 4⟩] : List Point).head? ∧
      (∃ H, GrahamScan ([⟨0, 0⟩, ⟨1, 2⟩, ⟨2, 1⟩, ⟨3, 3⟩, ⟨3, 4⟩] : List Point) = some H ∧ ∀ p ∈ H, p ∈ ([⟨0, 0⟩, ⟨1, 2⟩, ⟨2, 1⟩, ⟨3, 3⟩, ⟨3, 4⟩] : List Point)) ∧
      ∀ input H, GrahamScan input = some H → ∀ p ∈ H, p ∈ input) :=
  ⟨by decide!, by decide, chains_monotone _ (by decide!) (by decide)⟩

/-- C20 (shape of the stitched output): for an input with at least 2 distinct points
`GrahamScan` returns the reverse of the upper chain without its bottom element followed
by the reverse of the lower chain (chains read bottom to top); the length of the result
is `|upper| + |lower| - 1` and at least 3, its first and its last element are both the
rightmost point `S[last]`, and the leftmost point `S[0]` occurs in it. -/
theorem GrahamScan_shape (input : List Point) (h : 2 ≤ input.toFinset.card) :
    ∃ u l H left right, upperHull (preprocess input) = some u ∧
      lowerHull (preprocess input) = some l ∧ GrahamScan input = some H ∧
      (preprocess input).head? = some left ∧ (preprocess input).getLast? = some right ∧
      H = u.reverse.tail.reverse ++ l.reverse.reverse ∧
      H.length = u.length + l.length - 1 ∧ 3 ≤ H.length ∧
      H.head? = some right ∧ H.getLast? = some right ∧ left ∈ H := by
  have hlen : 2 ≤ (preprocess input).length := by rw [preprocess_length]; exact h
  have hS := preprocess_sorted input
  obtain ⟨left, hleft⟩ : ∃ left, (preprocess input).head? = some left := by
    cases hps : preprocess input with
    | nil => rw [hps] at hlen; simp at hlen
    | cons a l => exact ⟨a, rfl⟩
  obtain ⟨right, hright⟩ : ∃ right, (preprocess input).getLast? = some right := by
    cases hr : (preprocess input).getLast? with
    | none =>
      rw [List.getLast?_eq_none_iff] at hr
      rw [hr] at hlen; simp at hlen
    | some r => exact ⟨r, rfl⟩
  have hshape : stitchBy floatTest (preprocess input)
      = (chainBy floatTest (preprocess input)).reverse.tail.reverse
        ++ (chainBy floatTest (preprocess input).reverse).reverse.reverse := by
    rw [List.tail_reverse, List.reverse_reverse, List.reverse_reverse, stitchBy]
  have hU := upperBy_length floatTest hS hlen
  refine ⟨chainBy floatTest (preprocess input), chainBy floatTest (preprocess input).reverse,
    stitchBy floatTest (preprocess input), left, right, upperHull_eq _ hlen, lowerHull_eq _ hlen,
    GrahamScan_eq_stitch input hlen, hleft, hright, hshape, ?_, stitchBy_length floatTest hS hlen,
    ?_, ?_, ?_⟩
  · rw [stitchBy, List.length_append, List.length_dropLast]
    omega
  · rw [stitchBy_head? floatTest hS hlen, hright]
  · rw [stitchBy_getLast? floatTest hS hlen, hright]
  · apply mem_stitchBy_of_lower floatTest
    apply List.mem_of_mem_head?
    rw [lowerBy_head? floatTest hS, hleft]; rfl

theorem GrahamScan_shape_witness :
    2 ≤ ([⟨0, 0⟩, ⟨3, 1⟩, ⟨1, 2⟩, ⟨1, 1⟩, ⟨2, -1⟩] : List Point).toFinset.card ∧
    (∃ u l H left right, upperHull (preprocess ([⟨0, 0⟩, ⟨3, 1⟩, ⟨1, 2⟩, ⟨1, 1⟩, ⟨2, -1⟩] : List Point)) = some u ∧
      lowerHull (preprocess ([⟨0, 0⟩, ⟨3, 1⟩, ⟨1, 2⟩, ⟨1, 1⟩, ⟨2, -1⟩] : List Point)) = some l ∧ GrahamScan ([⟨0, 0⟩, ⟨3, 1⟩, ⟨1, 2⟩, ⟨1, 1⟩, ⟨2, -1⟩] : List Point) = some H ∧
      (preprocess ([⟨0, 0⟩, ⟨3, 1⟩, ⟨1, 2⟩, ⟨1, 1⟩, ⟨2, -1⟩] : List Point)).head? = some left ∧ (preprocess ([⟨0, 0⟩, ⟨3, 1⟩, ⟨1, 2⟩, ⟨1, 1⟩, ⟨2, -1⟩] : List Point)).getLast? = some right ∧
      H = u.reverse.tail.reverse ++ l.reverse.reverse ∧
      H.length = u.length + l.length - 1 ∧ 3 ≤ H.length ∧
      H.head? = some right ∧ H.getLast? = some right ∧ left ∈ H) :=
  ⟨by decide!, GrahamScan_shape _ (by decide!)⟩

/-- The two descriptions of `main` agree: `mainFrom` gives the outcome of the run that
`mainRun` records effect by effect. -/
theorem mainFrom_eq_mainRun (points : List Point) :
    mainFrom points =
      match (mainRun (some points)).scanned, (mainRun (some points)).written with
      | none, _ => Outcome.earlyExit
      | some _, some hull => Outcome.printed hull
      | some _, none => Outcome.undefinedBehaviour := by
  unfold mainFrom mainRun ReadPointsFromFile
  by_cases h : points.length < 3
  · simp [h]
  · simp only [h, if_false]
    cases GrahamScan points <;> rfl


end ConvexHull2D
